import Mathlib

/-!
# Vibration-Normal-Modes-2D: the `cda::math::containers::Vector<T>` container

A shallow embedding of the two `vector.hpp` files of the repository
(`computational-physics/math/containers/vector.hpp`, the namespace `cda` below, and
`NumericalPDEs/math/containers/vector.hpp`, the namespace `cda.pde` below).

The container owns a heap buffer through the raw pointers `v` and `it_end`, so the
embedding is state passing over an explicit heap:

* a pointer is an allocation identifier plus an element offset;
* the heap maps allocation identifiers to the cells of the live allocations;
* `std::realloc`, `std::free`, `std::copy`, `std::fill`, `std::fill_n` are the library
  functions the source calls; they are modelled here by what the C and C++ standards
  say about them, with what the source cannot know (`sizeof(T)`, whether a request is
  declined, what uninitialised storage holds) taken from an `Allocator` parameter; the
  byte count `size * sizeof(T)` of a request is a `size_t` product and wraps;
* a member function returns a `Result`: a normal return, a thrown exception together
  with the state at the throw, or undefined behaviour (an access outside a live
  allocation).
* the iterator loops of the operators are counted loops over the positions
  (`Vector.iterate`); the loops that only a run-time test ends, the
  `do ... while (change)` of `Sort()`, the `for (i = 2; i <= power; ++i)` of
  `PowElements` and the `while (line_stream >> vector[element])` of `operator>>`, take a
  fuel argument, and what is proved of them is that enough fuel gives the result.
* a stream is the list of its unread, or written, characters; the formatted extraction
  and insertion of one element, which are the library's, and the generator `drand48` are
  parameters (`Formatting`, `drand48`).
* element arithmetic is exact: the operators are generic in the element type, `CInt` is
  the C++ `int` without overflow, and `double` with `std::sqrt` is a parameter.

`size_t` values are natural numbers below `SIZE_T = 2 ^ 64`; the arithmetic the source
does on them is reduced modulo `SIZE_T` where it can wrap.
-/

namespace cda

/-- The exceptions thrown by the container. -/
inductive Exn
  | bad_alloc
  | out_of_range
  | logic_error
deriving DecidableEq

/-- Outcome of a member function: `ok a` is a normal return with everything the call
leaves behind, `throws e s` is the exception `e` leaving the call with state `s`,
`undefined` is undefined behaviour (a read, write or free outside a live allocation). -/
inductive Result (σ α : Type)
  | ok (a : α)
  | throws (e : Exn) (s : σ)
  | undefined
deriving DecidableEq

/-- Number of values of `size_t` (64 bit). -/
def SIZE_T : Nat := 18446744073709551616

/-- The `size_t` difference `a - b`, which wraps below zero. -/
def size_t_sub (a b : Nat) : Nat := (a + SIZE_T - b) % SIZE_T

/-- The `size_t` sum `a + b`, which wraps at `SIZE_T`. -/
def size_t_add (a b : Nat) : Nat := (a + b) % SIZE_T

/-- The `size_t` product `a * b`, which wraps at `SIZE_T`. -/
def size_t_mul (a b : Nat) : Nat := (a * b) % SIZE_T

/-- The C++ `int` in exact arithmetic (no overflow): an integer whose `/` truncates
toward zero. -/
structure CInt where
  val : Int
deriving DecidableEq

instance CInt.instZero : Zero CInt := ⟨⟨0⟩⟩

instance CInt.instOne : One CInt := ⟨⟨1⟩⟩

instance CInt.instAdd : Add CInt := ⟨fun a b => ⟨a.val + b.val⟩⟩

instance CInt.instSub : Sub CInt := ⟨fun a b => ⟨a.val - b.val⟩⟩

instance CInt.instMul : Mul CInt := ⟨fun a b => ⟨a.val * b.val⟩⟩

instance CInt.instDiv : Div CInt := ⟨fun a b => ⟨Int.tdiv a.val b.val⟩⟩

/-- A `T *`: the allocation it points into (`none` for the null pointer and for what
pointer arithmetic makes of it) and the element offset inside that allocation. -/
structure Ptr where
  blk : Option Nat
  off : Nat
deriving DecidableEq

/-- The null pointer. -/
def nullptr : Ptr := ⟨none, 0⟩

/-- Pointer arithmetic `p + k`. -/
def Ptr.add (p : Ptr) (k : Nat) : Ptr := ⟨p.blk, p.off + k⟩

/-- The heap: entry `b` holds the cells of allocation `b` while it is live and `none`
once it has been released. A new allocation is appended, so its identifier is new. -/
abbrev Heap (T : Type) := List (Option (List T))

/-- What the source cannot know about the element type and `std::realloc`: the value of
`sizeof(T)`, which is at least `1`; whether the library declines a request of so many
bytes (a null pointer is returned); whether a declined request of zero bytes has released
the old allocation all the same, which the C standard leaves to the implementation; and
the indeterminate content of cell `i` of storage handed out uninitialised. -/
structure Allocator (T : Type) where
  sizeof : Nat
  sizeof_pos : 0 < sizeof
  declines : Nat → Bool
  zero_frees : Bool
  junk : Nat → T

/-- The request `std::realloc(v, size * sizeof(T))` that the source makes for `size`
elements does not give a block of `size` elements: the product is not a `size_t`, so that
what is asked for is the wrapped, smaller number of bytes, or the library declines. -/
def Allocator.refuses {T : Type} (al : Allocator T) (size : Nat) : Bool :=
  decide (SIZE_T ≤ size * al.sizeof) || al.declines (size * al.sizeof)

/-- The cells of the live allocation `p` points into. -/
def Heap.block {T : Type} (h : Heap T) (p : Ptr) : Option (List T) :=
  match p.blk with
  | none => none
  | some b =>
    match h[b]? with
    | some (some cells) => some cells
    | _ => none

/-- Reading `*p`; `none` when `p` does not point at a cell of a live allocation. -/
def Heap.read {T : Type} (h : Heap T) (p : Ptr) : Option T :=
  match h.block p with
  | none => none
  | some cells => cells[p.off]?

/-- Reading the `k` cells `p[0], ..., p[k-1]`; reading no cell touches no memory. -/
def Heap.readRange {T : Type} (h : Heap T) (p : Ptr) (k : Nat) : Option (List T) :=
  if k = 0 then some []
  else
    match h.block p with
    | none => none
    | some cells =>
      if p.off + k ≤ cells.length then some ((cells.drop p.off).take k) else none

/-- Writing `xs` to the cells `p[0], ..., p[xs.length-1]`; writing no cell touches no
memory. -/
def Heap.writeRange {T : Type} (h : Heap T) (p : Ptr) (xs : List T) : Option (Heap T) :=
  if xs.length = 0 then some h
  else
    match p.blk, h.block p with
    | some b, some cells =>
      if p.off + xs.length ≤ cells.length then
        some (h.set b (some (cells.take p.off ++ xs ++ cells.drop (p.off + xs.length))))
      else none
    | _, _ => none

/-- Writing `*p = x`. -/
def Heap.write {T : Type} (h : Heap T) (p : Ptr) (x : T) : Option (Heap T) :=
  h.writeRange p [x]

/-- Library `std::copy(first, last, d_first)`: the `last - first` cells from `first`
are stored from `d_first` on. -/
def std_copy {T : Type} (h : Heap T) (first last d_first : Ptr) : Option (Heap T) :=
  match h.readRange first (last.off - first.off) with
  | none => none
  | some xs => h.writeRange d_first xs

/-- Library `std::fill(first, last, value)`. -/
def std_fill {T : Type} (h : Heap T) (first last : Ptr) (value : T) : Option (Heap T) :=
  h.writeRange first (List.replicate (last.off - first.off) value)

/-- Library `std::fill_n(first, count, value)`. -/
def std_fill_n {T : Type} (h : Heap T) (first : Ptr) (count : Nat) (value : T) :
    Option (Heap T) :=
  h.writeRange first (List.replicate count value)

/-- Library `std::free(p)`: nothing for the null pointer, otherwise `p` has to be the
start of a live allocation, which is released. -/
def std_free {T : Type} (h : Heap T) (p : Ptr) : Option (Heap T) :=
  if p = nullptr then some h
  else
    match p.blk, h.block p with
    | some b, some _ => if p.off = 0 then some (h.set b none) else none
    | _, _ => none

/-- Cells of an allocation of `size` elements obtained from one holding `cells`: the
common leading cells are kept, the others are indeterminate. -/
def grow {T : Type} (al : Allocator T) (cells : List T) (size : Nat) : List T :=
  (List.range size).map fun i => (cells[i]?).getD (al.junk i)

/-- Library `std::realloc(p, bytes)`. When the library declines, the null pointer is
returned and the heap is as it was, except that a declined request of zero bytes may have
released the old allocation (`zero_frees`). Otherwise the old allocation is released as
by `std::free` and a new allocation of `bytes` bytes is returned: it has room for
`bytes / sizeof(T)` elements and keeps the leading cells of the old one. -/
def std_realloc {T : Type} (al : Allocator T) (h : Heap T) (p : Ptr) (bytes : Nat) :
    Option (Heap T × Ptr) :=
  if al.declines bytes then
    if bytes = 0 ∧ al.zero_frees = true then
      match std_free h p with
      | none => none
      | some h1 => some (h1, nullptr)
    else some (h, nullptr)
  else
    match std_free h p with
    | none => none
    | some h1 =>
      some (h1 ++ [some (grow al ((h.block p).getD []) (bytes / al.sizeof))],
        ⟨some h1.length, 0⟩)

/-- A pointer `std::free` and `std::realloc` accept in heap `h`: the null pointer or the
start of a live allocation. -/
def Freeable {T : Type} (h : Heap T) (p : Ptr) : Prop :=
  p = nullptr ∨ (p.off = 0 ∧ (h.block p).isSome = true)

/-- What one formatted extraction `stream >> value` of the library does with the unread
characters of a stream: a value is read and the characters after it are left, or the
extraction fails, storing a value (zero, since C++11) or nothing. -/
inductive Extracted (T : Type) where
  | value (x : T) (rest : List Char)
  | failed (stored : Option T)
deriving DecidableEq

/-- The formatted input and output of the library for the element type: the white space
of the locale, the extraction `stream >> value`, the insertion `stream << value` with the
flags of a stream that is not the console, and with the flags `operator<<` sets on the
console (fixed, precision 5, width 12, filled with blanks). -/
structure Formatting (T : Type) where
  isspace : Char → Bool
  extract : List Char → Extracted T
  insert : T → List Char
  insert_console : T → List Char

/-- Library `stream >> c` for a `char c`: white space is skipped and one character is
read; `none` when there is no character, and the stream fails. -/
def extract_char {T : Type} (io : Formatting T) (s : List Char) : Option (List Char) :=
  match s.dropWhile io.isspace with
  | [] => none
  | _ :: rest => some rest

/-- Library `std::getline(input, line)`: the line is the characters before the first
newline; the call fails when there is no character to read. -/
def getline (s : List Char) : Option (List Char) :=
  if s = [] then none else some (s.takeWhile (fun c => c != '\n'))

/-- A line of `xs.length` numeric tokens with the values `xs`, as the library reads it:
extracting from the line gives the first value and leaves nothing after the last token,
and before every further token one character that is not white space; the line of no
token is empty, and extracting from it fails. -/
def Tokens {T : Type} (io : Formatting T) : List Char → List T → Prop
  | s, [] => s = [] ∧ ∃ stored, io.extract s = .failed stored
  | s, [x] => io.extract s = .value x []
  | s, x :: y :: ys =>
    ∃ c rest, io.extract s = .value x (c :: rest) ∧ io.isspace c = false ∧
      Tokens io rest (y :: ys)

/-- The data members of `Vector<T>`: `size_t n; T *v, *it_end;`. -/
structure Vector where
  n : Nat
  v : Ptr
  it_end : Ptr
deriving DecidableEq

namespace Vector

/-- Member `begin()`. -/
def begin (self : Vector) : Ptr := self.v

/-- Member `end()`. -/
def end_ (self : Vector) : Ptr := self.it_end

/-- Member `Size()`. -/
def Size (self : Vector) : Nat := self.n

/-- Member `IsEmpty()`. -/
def IsEmpty (self : Vector) : Bool := self.n == 0

/-- The class invariant in heap `h`: the length is a `size_t`; an empty vector has no
buffer; a non-empty one has `v` at the start of a live allocation of exactly `n` cells
and `it_end = v + n`. -/
def Valid {T : Type} (h : Heap T) (self : Vector) : Prop :=
  self.n < SIZE_T ∧
  (self.n = 0 → self.v = nullptr ∧ self.it_end = nullptr) ∧
  (self.n ≠ 0 → self.v.blk ≠ none ∧ self.v.off = 0 ∧ self.it_end = self.v.add self.n ∧
    (h.block self.v).map List.length = some self.n)

instance instDecidableValid {T : Type} (h : Heap T) (self : Vector) :
    Decidable (Valid h self) := by
  unfold Valid; infer_instance

/-- Two vectors do not share a buffer. -/
def Separate (a b : Vector) : Prop := a.v.blk = none ∨ a.v.blk ≠ b.v.blk

instance instDecidableSeparate (a b : Vector) : Decidable (Separate a b) := by
  unfold Separate; infer_instance

/-- The elements a vector holds in heap `h`: the cells of its buffer. -/
def elems {T : Type} (h : Heap T) (self : Vector) : List T := (h.block self.v).getD []

/-- The unchecked `operator[]` as a read: the value of `v[element]`, `none` when that
cell is outside the buffer (undefined behaviour). -/
def subscript {T : Type} (h : Heap T) (self : Vector) (element : Nat) : Option T :=
  h.read (self.v.add element)

/-- Member `At(element)`, const and non-const, as a read. -/
def At {T : Type} (h : Heap T) (self : Vector) (element : Nat) : Result (Heap T) T :=
  if element ≥ self.n then .throws .out_of_range h
  else
    match subscript h self element with
    | none => .undefined
    | some x => .ok x

/-- The unchecked `operator[]` as a write, `v[element] = value`. -/
def subscript_assign {T : Type} (h : Heap T) (self : Vector) (element : Nat) (value : T) :
    Result (Heap T × Vector) (Heap T × Vector) :=
  match h.write (self.v.add element) value with
  | none => .undefined
  | some h1 => .ok (h1, self)

/-- The non-const `At(element)` as a write, `At(element) = value`. -/
def At_assign {T : Type} (h : Heap T) (self : Vector) (element : Nat) (value : T) :
    Result (Heap T × Vector) (Heap T × Vector) :=
  if element ≥ self.n then .throws .out_of_range (h, self)
  else
    match h.write (self.v.add element) value with
    | none => .undefined
    | some h1 => .ok (h1, self)

/-- Private member `AllocateMemory(size)` of the computational-physics Vector. The
request is `size * sizeof(T)` bytes, a `size_t` product that wraps; `it_end = v + size` is
kept as the offset `size` whatever the length of the block, so that an access through it
beyond the block is what is undefined. -/
def AllocateMemory {T : Type} (al : Allocator T) (h : Heap T) (self : Vector) (size : Nat) :
    Result (Heap T × Vector) (Heap T × Vector) :=
  if size = 0 then
    match std_free h self.v with
    | none => .undefined
    | some h1 => .ok (h1, { self with v := nullptr, it_end := nullptr })
  else
    match std_realloc al h self.v (size_t_mul size al.sizeof) with
    | none => .undefined
    | some (h1, mem) =>
      if mem ≠ nullptr then .ok (h1, { self with v := mem, it_end := mem.add size })
      else .throws .bad_alloc (h1, self)

/-- Member `Fill(value)`. -/
def Fill {T : Type} (h : Heap T) (self : Vector) (value : T) :
    Result (Heap T × Vector) (Heap T × Vector) :=
  match std_fill h self.begin self.end_ value with
  | none => .undefined
  | some h1 => .ok (h1, self)

/-- Constructor `Vector(size)`. -/
def ctor_size {T : Type} (al : Allocator T) (h : Heap T) (size : Nat) :
    Result (Heap T) (Heap T × Vector) :=
  match AllocateMemory al h ⟨size, nullptr, nullptr⟩ size with
  | .ok a => .ok a
  | .throws e s => .throws e s.1
  | .undefined => .undefined

/-- Constructor `Vector(size, value)`. -/
def ctor_fill {T : Type} (al : Allocator T) (h : Heap T) (size : Nat) (value : T) :
    Result (Heap T) (Heap T × Vector) :=
  match AllocateMemory al h ⟨size, nullptr, nullptr⟩ size with
  | .ok (h1, s1) =>
    match Fill h1 s1 value with
    | .ok a => .ok a
    | .throws e s => .throws e s.1
    | .undefined => .undefined
  | .throws e s => .throws e s.1
  | .undefined => .undefined

/-- Copy constructor `Vector(const Vector &vector)`. -/
def ctor_copy {T : Type} (al : Allocator T) (h : Heap T) (vector : Vector) :
    Result (Heap T) (Heap T × Vector) :=
  match AllocateMemory al h ⟨vector.n, nullptr, nullptr⟩ vector.n with
  | .ok (h1, s1) =>
    match std_copy h1 vector.begin vector.end_ s1.begin with
    | none => .undefined
    | some h2 => .ok (h2, s1)
  | .throws e s => .throws e s.1
  | .undefined => .undefined

/-- Move constructor `Vector(Vector &&vector)`: the new object and what is left of
`vector`. -/
def ctor_move (vector : Vector) : Vector × Vector :=
  (⟨vector.n, vector.v, vector.it_end⟩, { vector with n := 0, v := nullptr, it_end := nullptr })

/-- Range constructor `Vector(it_begin, it_end)`, for `it_begin` not after `it_end`
(`std::distance` is their offset difference). -/
def ctor_range {T : Type} (al : Allocator T) (h : Heap T) (it_begin it_end : Ptr) :
    Result (Heap T) (Heap T × Vector) :=
  match AllocateMemory al h ⟨it_end.off - it_begin.off, nullptr, nullptr⟩
      (it_end.off - it_begin.off) with
  | .ok (h1, s1) =>
    match std_copy h1 it_begin it_end s1.begin with
    | none => .undefined
    | some h2 => .ok (h2, s1)
  | .throws e s => .throws e s.1
  | .undefined => .undefined

/-- Member `resize(size, fill)`. -/
def resize {T : Type} [Zero T] (al : Allocator T) (h : Heap T) (self : Vector) (size : Nat)
    (fill : Bool) : Result (Heap T × Vector) (Heap T × Vector) :=
  if size = self.n then .ok (h, self)
  else
    match AllocateMemory al h self size with
    | .ok (h1, s1) =>
      if fill && decide (size > s1.n) then
        match std_fill_n h1 (s1.v.add s1.n) (size - s1.n) (0 : T) with
        | none => .undefined
        | some h2 => .ok (h2, { s1 with n := size })
      else .ok (h1, { s1 with n := size })
    | .throws e s => .throws e s
    | .undefined => .undefined

/-- Copy assignment `operator=(const Vector &vector)`. The argument is `none` when it
is the receiver itself (`this == &vector`) and `some w` when it is another object. -/
def assign_copy {T : Type} [Zero T] (al : Allocator T) (h : Heap T) (self : Vector)
    (vector : Option Vector) : Result (Heap T × Vector) (Heap T × Vector) :=
  match vector with
  | none => .ok (h, self)
  | some w =>
    match resize al h self w.n false with
    | .ok (h1, s1) =>
      match std_copy h1 w.begin w.end_ s1.begin with
      | none => .undefined
      | some h2 => .ok (h2, s1)
    | .throws e s => .throws e s
    | .undefined => .undefined

/-- Move assignment `operator=(Vector &&vector)`, with the argument as in
`assign_copy`; the result is the heap, the receiver and what is left of the argument. -/
def assign_move {T : Type} (h : Heap T) (self : Vector) (vector : Option Vector) :
    Option (Heap T × Vector × Option Vector) :=
  match vector with
  | none => some (h, self, none)
  | some w =>
    match std_free h self.v with
    | none => none
    | some h1 =>
      some (h1, { self with v := w.v, it_end := w.it_end, n := w.n },
        some { w with v := nullptr, it_end := nullptr, n := 0 })

/-- Member `Clear()`. -/
def Clear {T : Type} (al : Allocator T) (h : Heap T) (self : Vector) :
    Result (Heap T × Vector) (Heap T × Vector) :=
  AllocateMemory al h { self with n := 0 } 0

/-- Member `Get(first_element, elements)` of the computational-physics Vector. -/
def Get {T : Type} (al : Allocator T) (h : Heap T) (self : Vector)
    (first_element elements : Nat) : Result (Heap T) (Heap T × Vector) :=
  if size_t_sub self.n first_element < elements then .throws .out_of_range h
  else ctor_range al h (self.v.add first_element) ((self.v.add first_element).add elements)

/-- Member `Set(first_element, vector, elements)`; `vector` is another object than the
receiver. -/
def Set {T : Type} (h : Heap T) (self : Vector) (first_element : Nat) (vector : Vector)
    (elements : Nat) : Result (Heap T × Vector) (Heap T × Vector) :=
  if size_t_add first_element elements > self.n ∨ elements > vector.n then
    .throws .out_of_range (h, self)
  else
    match std_copy h vector.v (vector.v.add elements) (self.v.add first_element) with
    | none => .undefined
    | some h1 => .ok (h1, self)

/-! ### Loops over the elements

The member functions walk their operands with iterators that start at `begin()` and are
incremented together until the first of them is `end()`. In iteration `k` every iterator
is `k` elements past its start. -/

/-- Number of increments that take the iterator `first` to `last`; `none` when `last` is
not met inside the allocation, where `for (it = first; it != last; ++it)` runs off it. -/
def steps (first last : Ptr) : Option Nat :=
  if first.blk = last.blk ∧ first.off ≤ last.off then some (last.off - first.off) else none

/-- The iterations `k = first, first + 1, ..., first + count - 1` of a loop body on a
state; `none` as soon as an iteration is undefined. -/
def iterate {σ : Type} (body : Nat → σ → Option σ) : Nat → Nat → σ → Option σ
  | _, 0, s => some s
  | k, c + 1, s =>
    match body k s with
    | none => none
    | some s1 => iterate body (k + 1) c s1

/-- Body `*it_new = f(*it_this, *it_vector)` of iteration `k`. -/
def binary_body {T : Type} (f : T → T → T) (it_this it_vector it_new : Ptr) (k : Nat)
    (h : Heap T) : Option (Heap T) :=
  match h.read (it_this.add k), h.read (it_vector.add k) with
  | some x, some y => h.write (it_new.add k) (f x y)
  | _, _ => none

/-- The shape shared by `operator+(const Vector &)` and `operator-(const Vector &)`:
the size check, the result `new_vector(this->n)` and the loop
`*it_new = *it_this OP *it_vector`. -/
def binary_new {T : Type} (f : T → T → T) (al : Allocator T) (h : Heap T)
    (self vector : Vector) : Result (Heap T) (Heap T × Vector) :=
  if self.n ≠ vector.n then .throws .logic_error h
  else
    match ctor_size al h self.n with
    | .ok (h1, new_vector) =>
      match steps self.begin self.end_ with
      | none => .undefined
      | some c =>
        match iterate (binary_body f self.begin vector.begin new_vector.begin) 0 c h1 with
        | none => .undefined
        | some h2 => .ok (h2, new_vector)
    | .throws e s => .throws e s
    | .undefined => .undefined

/-- The shape shared by `operator+=(const Vector &)` and `operator-=(const Vector &)`:
the size check and the loop `*it_this OP= *it_vector`. -/
def binary_assign {T : Type} (f : T → T → T) (h : Heap T) (self vector : Vector) :
    Result (Heap T × Vector) (Heap T × Vector) :=
  if self.n ≠ vector.n then .throws .logic_error (h, self)
  else
    match steps self.begin self.end_ with
    | none => .undefined
    | some c =>
      match iterate (binary_body f self.begin vector.begin self.begin) 0 c h with
      | none => .undefined
      | some h1 => .ok (h1, self)

/-- Member `operator+(const Vector &vector)`. -/
def operator_add {T : Type} [Add T] (al : Allocator T) (h : Heap T) (self vector : Vector) :
    Result (Heap T) (Heap T × Vector) :=
  binary_new (fun x y => x + y) al h self vector

/-- Member `operator+=(const Vector &vector)`. -/
def operator_add_assign {T : Type} [Add T] (h : Heap T) (self vector : Vector) :
    Result (Heap T × Vector) (Heap T × Vector) :=
  binary_assign (fun x y => x + y) h self vector

/-- Member `operator-(const Vector &vector)`. -/
def operator_sub {T : Type} [Sub T] (al : Allocator T) (h : Heap T) (self vector : Vector) :
    Result (Heap T) (Heap T × Vector) :=
  binary_new (fun x y => x - y) al h self vector

/-- Member `operator-=(const Vector &vector)`. -/
def operator_sub_assign {T : Type} [Sub T] (h : Heap T) (self vector : Vector) :
    Result (Heap T × Vector) (Heap T × Vector) :=
  binary_assign (fun x y => x - y) h self vector

/-- Body `*it_new = f(*it_this)` of iteration `k`. -/
def unary_body {T : Type} (f : T → T) (it_this it_new : Ptr) (k : Nat) (h : Heap T) :
    Option (Heap T) :=
  match h.read (it_this.add k) with
  | some x => h.write (it_new.add k) (f x)
  | none => none

/-- The shape shared by `operator*(const ValueType &)` and `operator/(const ValueType &)`:
the result `new_vector(this->n)` and the loop `*it_new = *it_this OP value`. -/
def unary_new {T : Type} (f : T → T) (al : Allocator T) (h : Heap T) (self : Vector) :
    Result (Heap T) (Heap T × Vector) :=
  match ctor_size al h self.n with
  | .ok (h1, new_vector) =>
    match steps self.begin self.end_ with
    | none => .undefined
    | some c =>
      match iterate (unary_body f self.begin new_vector.begin) 0 c h1 with
      | none => .undefined
      | some h2 => .ok (h2, new_vector)
  | .throws e s => .throws e s
  | .undefined => .undefined

/-- Member `operator*(const ValueType &value)`. -/
def operator_mul_scalar {T : Type} [Mul T] (al : Allocator T) (h : Heap T) (self : Vector)
    (value : T) : Result (Heap T) (Heap T × Vector) :=
  unary_new (fun x => x * value) al h self

/-- Member `operator/(const ValueType &value)`. -/
def operator_div_scalar {T : Type} [Div T] (al : Allocator T) (h : Heap T) (self : Vector)
    (value : T) : Result (Heap T) (Heap T × Vector) :=
  unary_new (fun x => x / value) al h self

/-- Body `value += *it_this * *it_vector` of iteration `k` of the dot product. -/
def dot_body {T : Type} [Add T] [Mul T] (h : Heap T) (it_this it_vector : Ptr) (k : Nat)
    (value : T) : Option T :=
  match h.read (it_this.add k), h.read (it_vector.add k) with
  | some x, some y => some (value + x * y)
  | _, _ => none

/-- Member `operator*(const Vector &vector)`, the dot product. -/
def operator_dot {T : Type} [Zero T] [Add T] [Mul T] (h : Heap T) (self vector : Vector) :
    Result (Heap T) T :=
  if self.n ≠ vector.n then .throws .logic_error h
  else
    match steps self.begin self.end_ with
    | none => .undefined
    | some c =>
      match iterate (dot_body h self.begin vector.begin) 0 c (0 : T) with
      | none => .undefined
      | some value => .ok value

/-- The loop of `operator==` from iteration `k` on: `false` at the first pair of
different elements, `true` when `count` pairs were equal. -/
def equal_loop {T : Type} [DecidableEq T] (h : Heap T) (it it_vector : Ptr) :
    Nat → Nat → Option Bool
  | _, 0 => some true
  | k, c + 1 =>
    match h.read (it.add k), h.read (it_vector.add k) with
    | some x, some y => if x ≠ y then some false else equal_loop h it it_vector (k + 1) c
    | _, _ => none

/-- Member `operator==(const Vector &vector)`; `none` is undefined behaviour. -/
def operator_eq {T : Type} [DecidableEq T] (h : Heap T) (self vector : Vector) :
    Option Bool :=
  if self.n ≠ vector.n then some false
  else
    match steps self.begin self.end_ with
    | none => none
    | some c => equal_loop h self.begin vector.begin 0 c

/-- Member `operator!=(const Vector &vector)`. -/
def operator_ne {T : Type} [DecidableEq T] (h : Heap T) (self vector : Vector) :
    Option Bool :=
  (operator_eq h self vector).map fun r => !r

/-- Member `SquareNorm()`: the dot product of the vector with itself, converted to
`double` by `to_double`. -/
def SquareNorm {T D : Type} [Zero T] [Add T] [Mul T] (to_double : T → D) (h : Heap T)
    (self : Vector) : Result (Heap T) D :=
  match operator_dot h self self with
  | .ok value => .ok (to_double value)
  | .throws e s => .throws e s
  | .undefined => .undefined

/-- Member `Norm()`: `std::sqrt(SquareNorm())`, with the library `std::sqrt` on `double`
as `sqrt`. -/
def Norm {T D : Type} [Zero T] [Add T] [Mul T] (to_double : T → D) (sqrt : D → D)
    (h : Heap T) (self : Vector) : Result (Heap T) D :=
  match SquareNorm to_double h self with
  | .ok value => .ok (sqrt value)
  | .throws e s => .throws e s
  | .undefined => .undefined

/-- Member `Unitary()`: `(*this) / Norm()`, where the `double` that `Norm()` returns is
converted to `ValueType` by `of_double` for `operator/(const ValueType &)`. -/
def Unitary {T D : Type} [Zero T] [Add T] [Mul T] [Div T] (to_double : T → D)
    (sqrt : D → D) (of_double : D → T) (al : Allocator T) (h : Heap T) (self : Vector) :
    Result (Heap T) (Heap T × Vector) :=
  match Norm to_double sqrt h self with
  | .ok value => operator_div_scalar al h self (of_double value)
  | .throws e s => .throws e s
  | .undefined => .undefined

/-- Static member `Ones(size)`. -/
def Ones_of_size {T : Type} [One T] (al : Allocator T) (h : Heap T) (size : Nat) :
    Result (Heap T) (Heap T × Vector) :=
  ctor_fill al h size (1 : T)

/-- One statement `new_vector[i] = (*this)[j] * vector[k] - (*this)[k] * vector[j]` of
`CrossProduct3D`. -/
def cross_component {T : Type} [Mul T] [Sub T] (self vector new_vector : Vector)
    (i j k : Nat) (h : Heap T) : Option (Heap T) :=
  match subscript h self j, subscript h vector k, subscript h self k, subscript h vector j with
  | some aj, some bk, some ak, some bj => h.write (new_vector.v.add i) (aj * bk - ak * bj)
  | _, _, _, _ => none

/-- Member `CrossProduct3D(const Vector &vector)`. -/
def CrossProduct3D {T : Type} [Mul T] [Sub T] (al : Allocator T) (h : Heap T)
    (self vector : Vector) : Result (Heap T) (Heap T × Vector) :=
  if self.n ≠ vector.n ∨ self.n ≠ 3 then .throws .logic_error h
  else
    match ctor_size al h self.n with
    | .ok (h1, new_vector) =>
      match cross_component self vector new_vector 0 1 2 h1 with
      | none => .undefined
      | some h2 =>
        match cross_component self vector new_vector 1 2 0 h2 with
        | none => .undefined
        | some h3 =>
          match cross_component self vector new_vector 2 0 1 h3 with
          | none => .undefined
          | some h4 => .ok (h4, new_vector)
    | .throws e s => .throws e s
    | .undefined => .undefined

/-- The loop `for (size_t i = 2; i <= power; ++i)` of `PowElements` from the value `i` on,
each round running `*it_new_vector++ *= *it_this` over the elements. `++i` is `size_t`
arithmetic. The outer `none` is a loop still running when the fuel is used up, the inner
`none` is undefined behaviour. -/
def pow_loop {T : Type} [Mul T] (self new_vector : Vector) (power : Nat) :
    Nat → Nat → Heap T → Option (Option (Heap T))
  | 0, _, _ => none
  | fuel + 1, i, h =>
    if i ≤ power then
      match steps self.begin self.end_ with
      | none => some none
      | some c =>
        match iterate (binary_body (fun x y => x * y) new_vector.begin self.begin
            new_vector.begin) 0 c h with
        | none => some none
        | some h1 => pow_loop self new_vector power fuel ((i + 1) % SIZE_T) h1
    else some (some h)

/-- Member `PowElements(power)`, run with `fuel` rounds of its `for` loop at most; `none`
is a call that has not returned when the fuel is used up. -/
def PowElements {T : Type} [Zero T] [One T] [Mul T] (al : Allocator T) (h : Heap T)
    (self : Vector) (power : Nat) (fuel : Nat) :
    Option (Result (Heap T) (Heap T × Vector)) :=
  match ctor_size al h 0 with
  | .ok (h0, new_vector) =>
    if power = 0 then
      match Ones_of_size al h0 self.n with
      | .ok (h1, ones) =>
        match assign_move h1 new_vector (some ones) with
        | none => some .undefined
        | some (h2, new_vector1, _) => some (.ok (h2, new_vector1))
      | .throws e s => some (.throws e s)
      | .undefined => some .undefined
    else
      match assign_copy al h0 new_vector (some self) with
      | .ok (h1, new_vector1) =>
        match pow_loop self new_vector1 power fuel 2 h1 with
        | none => none
        | some none => some .undefined
        | some (some h2) => some (.ok (h2, new_vector1))
      | .throws e s => some (.throws e s.1)
      | .undefined => some .undefined
  | .throws e s => some (.throws e s)
  | .undefined => some .undefined

/-- The loop over `it2` of `HasDuplicate`, from iteration `j` on, for `it1` at position
`i`: `true` at the first `it2` with `it1 != it2` whose element is `close` to the one at
`it1`, `false` when `it2` reaches `end()`; `none` is undefined behaviour. -/
def duplicate_inner {T : Type} (close : T → T → Bool) (h : Heap T) (self : Vector)
    (i : Nat) : Nat → Nat → Option Bool
  | _, 0 => some false
  | j, c + 1 =>
    if self.begin.add i ≠ self.begin.add j then
      match h.read (self.begin.add i), h.read (self.begin.add j) with
      | some x, some y =>
        if close x y then some true else duplicate_inner close h self i (j + 1) c
      | _, _ => none
    else duplicate_inner close h self i (j + 1) c

/-- The loop over `it1` of `HasDuplicate`, from iteration `i` on, each round running the
loop over `it2` along all `n` positions. -/
def duplicate_outer {T : Type} (close : T → T → Bool) (h : Heap T) (self : Vector)
    (n : Nat) : Nat → Nat → Option Bool
  | _, 0 => some false
  | i, c + 1 =>
    match duplicate_inner close h self i 0 n with
    | none => none
    | some true => some true
    | some false => duplicate_outer close h self n (i + 1) c

/-- The shape shared by `HasDuplicate()` and `HasDuplicate(accuracy)`: two nested loops
over all pairs of iterators, returning `true` at the first pair of different iterators
whose elements are `close`. -/
def duplicate_scan {T : Type} (close : T → T → Bool) (h : Heap T) (self : Vector) :
    Option Bool :=
  match steps self.begin self.end_ with
  | none => none
  | some n => duplicate_outer close h self n 0 n

/-- Member `HasDuplicate()`: the test is `*it1 == *it2`. -/
def HasDuplicate {T : Type} [DecidableEq T] (h : Heap T) (self : Vector) : Option Bool :=
  duplicate_scan (fun x y => decide (x = y)) h self

/-- Member `HasDuplicate(accuracy)`: the test is `std::sqrt(distance * distance) <
accuracy` with `distance = *it1 - *it2`; the library `std::sqrt` is `sqrt`. -/
def HasDuplicate_accuracy {T : Type} [Sub T] [Mul T] [LT T]
    [DecidableRel (fun x y : T => x < y)] (sqrt : T → T) (h : Heap T) (self : Vector)
    (accuracy : T) : Option Bool :=
  duplicate_scan (fun x y => decide (sqrt ((x - y) * (x - y)) < accuracy)) h self

/-- Body `*it = static_cast<ValueType>(drand48() * max + min)` of iteration `k` of
`Random`; `drand48 k` is the sample the `k`-th call of the library generator returns, the
arithmetic is done in `double`. -/
def Random_body {T D : Type} [Add D] [Mul D] (to_double : T → D) (of_double : D → T)
    (drand48 : Nat → D) (it : Ptr) (min max : T) (k : Nat) (h : Heap T) : Option (Heap T) :=
  h.write (it.add k) (of_double (drand48 k * to_double max + to_double min))

/-- Member `Random(min, max)`. -/
def Random {T D : Type} [Add D] [Mul D] (to_double : T → D) (of_double : D → T)
    (drand48 : Nat → D) (h : Heap T) (self : Vector) (min max : T) :
    Result (Heap T × Vector) (Heap T × Vector) :=
  match steps self.begin self.end_ with
  | none => .undefined
  | some c =>
    match iterate (Random_body to_double of_double drand48 self.begin min max) 0 c h with
    | none => .undefined
    | some h1 => .ok (h1, self)

/-- Static member `Random(size, min, max)`. -/
def Random_of_size {T D : Type} [Add D] [Mul D] (to_double : T → D) (of_double : D → T)
    (drand48 : Nat → D) (al : Allocator T) (h : Heap T) (size : Nat) (min max : T) :
    Result (Heap T) (Heap T × Vector) :=
  match ctor_size al h size with
  | .ok (h1, random) =>
    match Random to_double of_double drand48 h1 random min max with
    | .ok a => .ok a
    | .throws e s => .throws e s.1
    | .undefined => .undefined
  | .throws e s => .throws e s
  | .undefined => .undefined

/-- Member `SumAllEments()`: `sum = *begin()` and the loop `sum += *it` from
`begin() + 1`; `none` is undefined behaviour. -/
def SumAllEments {T : Type} [Add T] (h : Heap T) (self : Vector) : Option T :=
  match h.read self.begin with
  | none => none
  | some first =>
    match steps (self.begin.add 1) self.end_ with
    | none => none
    | some c =>
      iterate (fun k sum =>
        match h.read ((self.begin.add 1).add k) with
        | some x => some (sum + x)
        | none => none) 0 c first

/-- Constructor `Vector(const ValueType (&values)[size])` from an array: the array is
storage of its own, given here by the `size` values it holds. -/
def ctor_array {T : Type} (al : Allocator T) (h : Heap T) (values : List T) :
    Result (Heap T) (Heap T × Vector) :=
  match AllocateMemory al h ⟨values.length, nullptr, nullptr⟩ values.length with
  | .ok (h1, s1) =>
    match h1.writeRange s1.begin values with
    | none => .undefined
    | some h2 => .ok (h2, s1)
  | .throws e s => .throws e s.1
  | .undefined => .undefined

/-- Member `copy(size, array)`. -/
def copy {T : Type} [Zero T] (al : Allocator T) (h : Heap T) (self : Vector) (size : Nat)
    (array : Ptr) : Result (Heap T × Vector) (Heap T × Vector) :=
  match resize al h self size true with
  | .ok (h1, s1) =>
    match std_copy h1 array (array.add size) s1.v with
    | none => .undefined
    | some h2 => .ok (h2, s1)
  | .throws e s => .throws e s
  | .undefined => .undefined

/-- The invariant of the data members alone: the buffer pointer is null exactly when the
length is `0`, and `end() - begin()` is the length. -/
def I1 (self : Vector) : Prop :=
  (self.v = nullptr ↔ self.n = 0) ∧ steps self.begin self.end_ = some self.n

instance instDecidableI1 (self : Vector) : Decidable (I1 self) := by
  unfold I1; infer_instance


/-- Member `Set(first_element, vector)`: all the elements of `vector` are copied, by
`Set(first_element, vector, vector.n)`. -/
def Set_all {T : Type} (h : Heap T) (self : Vector) (first_element : Nat) (vector : Vector) :
    Result (Heap T × Vector) (Heap T × Vector) :=
  Set h self first_element vector vector.n

/-- Member `operator-()`: the result `new_vector(this->n)` and the loop
`*it_new++ = -(*it)`. -/
def operator_neg {T : Type} [Neg T] (al : Allocator T) (h : Heap T) (self : Vector) :
    Result (Heap T) (Heap T × Vector) :=
  unary_new (fun x => -x) al h self

/-- The loop `while (line_stream >> vector[element])` of `operator>>`, on the unread
characters of `line_stream` (`none` when the stream has failed). The result is the heap,
the vector and `element` when the loop ends; the outer `none` is a run out of fuel. -/
def extract_loop {T : Type} [Zero T] (io : Formatting T) (al : Allocator T) :
    Nat → Heap T → Vector → Nat → Nat → Option (List Char) →
      Option (Result (Heap T × Vector) (Heap T × Vector × Nat))
  | 0, _, _, _, _, _ => none
  | fuel + 1, h, vector, initial_size, element, line_stream =>
    match h.read (vector.v.add element) with
    | none => some .undefined
    | some _ =>
      match line_stream with
      | none => some (.ok (h, vector, element))
      | some s =>
        match io.extract s with
        | .failed none => some (.ok (h, vector, element))
        | .failed (some z) =>
          match h.write (vector.v.add element) z with
          | none => some .undefined
          | some h1 => some (.ok (h1, vector, element))
        | .value x rest =>
          match h.write (vector.v.add element) x with
          | none => some .undefined
          | some h1 =>
            if (element + 1) % SIZE_T ≥ vector.Size then
              match resize al h1 vector
                  (size_t_add vector.Size ((initial_size * 2) % SIZE_T)) true with
              | .ok (h2, v2) =>
                extract_loop io al fuel h2 v2 ((initial_size * 2) % SIZE_T)
                  ((element + 1) % SIZE_T) (extract_char io rest)
              | .throws e s => some (.throws e s)
              | .undefined => some .undefined
            else
              extract_loop io al fuel h1 vector initial_size ((element + 1) % SIZE_T)
                (extract_char io rest)

/-- The free function `operator>>(std::istream &input, Vector &vector)`; `input` is the
unread characters of the stream, `none` when the stream is not good. What is left unread
of `input` is not part of the result. -/
def operator_extract {T : Type} [Zero T] (io : Formatting T) (al : Allocator T) (fuel : Nat)
    (input : Option (List Char)) (h : Heap T) (vector : Vector) :
    Option (Result (Heap T × Vector) (Heap T × Vector)) :=
  match input with
  | none => some (.throws .logic_error (h, vector))
  | some s =>
    match resize al h vector 100 true with
    | .ok (h1, v1) =>
      match getline s with
      | none => some (resize al h1 v1 0 true)
      | some line =>
        match extract_loop io al fuel h1 v1 100 0 (some line) with
        | none => none
        | some (.ok (h2, v2, element)) => some (resize al h2 v2 element true)
        | some (.throws e s) => some (.throws e s)
        | some .undefined => some .undefined
    | .throws e s => some (.throws e s)
    | .undefined => some .undefined

/-- Number of iterations of `for (it = first; it < last; ++it)`; `none` when the two
pointers are not into the same allocation. -/
def steps_below (first last : Ptr) : Option Nat :=
  if first.blk = last.blk then some (last.off - first.off) else none

/-- The free function `operator<<(std::ostream &output, const Vector &vector)`; `console`
is the test `output.rdbuf() == std::cout.rdbuf()`, `output` the characters written so
far; `none` is undefined behaviour. -/
def operator_insert {T : Type} (io : Formatting T) (console : Bool) (output : List Char)
    (h : Heap T) (vector : Vector) : Option (List Char) :=
  if console then
    match h.read vector.begin with
    | none => none
    | some first =>
      match steps_below (vector.begin.add 1) vector.end_ with
      | none => none
      | some c =>
        match iterate (fun k out =>
            match h.read ((vector.begin.add 1).add k) with
            | some x => some (out ++ [' '] ++ io.insert_console x)
            | none => none) 0 c (output ++ ['['] ++ io.insert_console first) with
        | none => none
        | some out => some (out ++ [']'] ++ ['\n'])
  else
    match h.read vector.begin with
    | none => none
    | some first =>
      match steps_below (vector.begin.add 1) vector.end_ with
      | none => none
      | some c =>
        match iterate (fun k out =>
            match h.read ((vector.begin.add 1).add k) with
            | some x => some (out ++ [';'] ++ io.insert x)
            | none => none) 0 c (output ++ io.insert first) with
        | none => none
        | some out => some (out ++ ['\n'])

end Vector

/-! ## The NumericalPDEs Vector -/

namespace pde

/-- Private member `AllocateMemory(size)` of the NumericalPDEs Vector, which passes every
`size`, `0` too, to `std::realloc` as `size * sizeof(T)` bytes, a `size_t` product that
wraps. -/
def AllocateMemory {T : Type} (al : Allocator T) (h : Heap T) (self : Vector) (size : Nat) :
    Result (Heap T × Vector) (Heap T × Vector) :=
  match std_realloc al h self.v (size_t_mul size al.sizeof) with
  | none => .undefined
  | some (h1, mem) =>
    if mem ≠ nullptr then .ok (h1, { self with v := mem, it_end := mem.add size })
    else .throws .bad_alloc (h1, self)

/-- Constructor `Vector(size)` of the NumericalPDEs Vector. -/
def ctor_size {T : Type} (al : Allocator T) (h : Heap T) (size : Nat) :
    Result (Heap T) (Heap T × Vector) :=
  match AllocateMemory al h ⟨size, nullptr, nullptr⟩ size with
  | .ok a => .ok a
  | .throws e s => .throws e s.1
  | .undefined => .undefined

/-- Member `Get(first_element, elements)` of the NumericalPDEs Vector. -/
def Get {T : Type} (al : Allocator T) (h : Heap T) (self : Vector)
    (first_element elements : Nat) : Result (Heap T) (Heap T × Vector) :=
  if size_t_sub self.n first_element < elements then .throws .out_of_range h
  else
    match ctor_size al h (size_t_sub self.n first_element) with
    | .ok (h1, tmp) =>
      match std_copy h1 (self.v.add first_element)
          ((self.v.add first_element).add elements) tmp.v with
      | none => .undefined
      | some h2 => .ok (h2, tmp)
    | .throws e s => .throws e s
    | .undefined => .undefined

/-- Member `Begin()` of the NumericalPDEs Vector. -/
def Begin (self : Vector) : Ptr := self.v

/-- Member `End()` of the NumericalPDEs Vector. -/
def End (self : Vector) : Ptr := self.it_end

/-- Body of the inner loop of `Sort()` in iteration `k`, where `it_prev` is `Begin() + k`
and `it` is `Begin() + 1 + k`: `if (*it_prev > *it) { change = true; std::swap(*it,
*it_prev); }`. The state is the heap and `change`. -/
def Sort_body {T : Type} [LT T] [DecidableRel (fun x y : T => x < y)] (self : Vector)
    (k : Nat) (s : Heap T × Bool) : Option (Heap T × Bool) :=
  match s.1.read ((Begin self).add k), s.1.read (((Begin self).add 1).add k) with
  | some prev, some cur =>
    if prev > cur then
      match s.1.write (((Begin self).add 1).add k) prev with
      | none => none
      | some h1 =>
        match h1.write ((Begin self).add k) cur with
        | none => none
        | some h2 => some (h2, true)
    else some s
  | _, _ => none

/-- One round of the `do` loop of `Sort()`: `change = false` and the inner loop, which
runs `it` from `Begin() + 1` until it is `End()`. -/
def Sort_pass {T : Type} [LT T] [DecidableRel (fun x y : T => x < y)] (h : Heap T)
    (self : Vector) : Option (Heap T × Bool) :=
  match Vector.steps ((Begin self).add 1) (End self) with
  | none => none
  | some c => Vector.iterate (Sort_body self) 0 c (h, false)

/-- Member `Sort()` of the NumericalPDEs Vector, run with `fuel` rounds of its
`do ... while (change)` loop at most. The outer `none` is a loop still running when the
fuel is used up, the inner `none` is undefined behaviour. -/
def Sort_ {T : Type} [LT T] [DecidableRel (fun x y : T => x < y)] (self : Vector) :
    Nat → Heap T → Option (Option (Heap T))
  | 0, _ => none
  | fuel + 1, h =>
    match Sort_pass h self with
    | none => some none
    | some (h1, change) => if change then Sort_ self fuel h1 else some (some h1)

/-- The scans of the NumericalPDEs Vector share one shape: the result starts as
`g(*Begin())`, and the loop, with `it` from `Begin() + 1` until it is `End()`, replaces it
by `pick(result, g(*it))`; `none` is undefined behaviour. -/
def scan {T : Type} (g : T → T) (pick : T → T → T) (h : Heap T) (self : Vector) :
    Option T :=
  match h.read (Begin self) with
  | none => none
  | some first =>
    match Vector.steps ((Begin self).add 1) (End self) with
    | none => none
    | some c =>
      Vector.iterate (fun k acc =>
        match h.read (((Begin self).add 1).add k) with
        | some x => some (pick acc (g x))
        | none => none) 0 c (g first)

/-- Member `MaximumElement()`: `if (*it > max) max = *it`. -/
def MaximumElement {T : Type} [LT T] [DecidableRel (fun x y : T => x < y)] (h : Heap T)
    (self : Vector) : Option T :=
  scan (fun x => x) (fun acc x => if x > acc then x else acc) h self

/-- Member `AbsoluteMaximumElement()`, with the library `std::abs` as `abs`:
`abs_max = std::abs(*it); if (abs_max > max) max = abs_max`. -/
def AbsoluteMaximumElement {T : Type} [LT T] [DecidableRel (fun x y : T => x < y)]
    (abs : T → T) (h : Heap T) (self : Vector) : Option T :=
  scan abs (fun acc x => if x > acc then x else acc) h self

/-- Member `MinimumElement()`: `if (*it < min) min = *it`. -/
def MinimumElement {T : Type} [LT T] [DecidableRel (fun x y : T => x < y)] (h : Heap T)
    (self : Vector) : Option T :=
  scan (fun x => x) (fun acc x => if x < acc then x else acc) h self

/-- Member `AbsoluteMinimumElement()`, with the library `std::abs` as `abs`. -/
def AbsoluteMinimumElement {T : Type} [LT T] [DecidableRel (fun x y : T => x < y)]
    (abs : T → T) (h : Heap T) (self : Vector) : Option T :=
  scan abs (fun acc x => if x < acc then x else acc) h self

/-- Member `Sum()`: `sum += *it`. -/
def Sum {T : Type} [Add T] (h : Heap T) (self : Vector) : Option T :=
  scan (fun x => x) (fun acc x => acc + x) h self

/-- Member `Random(min, max)` of the NumericalPDEs Vector, whose loop body is the one of
the computational-physics Vector. -/
def Random {T D : Type} [Add D] [Mul D] (to_double : T → D) (of_double : D → T)
    (drand48 : Nat → D) (h : Heap T) (self : Vector) (min max : T) :
    Result (Heap T × Vector) (Heap T × Vector) :=
  match Vector.steps (Begin self) (End self) with
  | none => .undefined
  | some c =>
    match Vector.iterate (Vector.Random_body to_double of_double drand48 (Begin self) min max)
        0 c h with
    | none => .undefined
    | some h1 => .ok (h1, self)

/-! ### What one round of `Sort()` does to the sequence of elements -/

/-- One inner loop of `Sort()` on the elements `x :: ys`, seen as a list: the larger of
two neighbours is carried forward. -/
def carry {T : Type} [LT T] [DecidableRel (fun x y : T => x < y)] : T → List T → List T
  | x, [] => [x]
  | x, y :: ys => if x > y then y :: carry x ys else x :: carry y ys

/-- Whether the inner loop of `Sort()` on the elements `x :: ys` swaps, which is the
`change` it leaves. -/
def carry_changed {T : Type} [LT T] [DecidableRel (fun x y : T => x < y)] :
    T → List T → Bool
  | _, [] => false
  | x, y :: ys => if x > y then true else carry_changed y ys

/-- Number of pairs of positions of a list that are out of order. -/
def inversions {T : Type} [LT T] [DecidableRel (fun x y : T => x < y)] : List T → Nat
  | [] => 0
  | x :: xs => xs.countP (fun y => decide (y < x)) + inversions xs

end pde

/-! ## Sample data -/

/-- An allocator for elements of `4` bytes that never declines and hands out cells
holding `7`. -/
def sample_alloc : Allocator Int := ⟨4, by decide, fun _ => false, true, fun _ => 7⟩

/-- An allocator for elements of `4` bytes that answers a request of zero bytes with the
null pointer, having released the old allocation, and declines nothing else. -/
def zero_alloc : Allocator Int := ⟨4, by decide, fun bytes => bytes == 0, true, fun _ => 7⟩

/-- A heap with two live allocations. -/
def sample_heap : Heap Int := [some [1, 2, 3], some [9]]

/-- The vector `[1, 2, 3]` of `sample_heap`. -/
def sample_a : Vector := ⟨3, ⟨some 0, 0⟩, ⟨some 0, 3⟩⟩

/-- The vector `[9]` of `sample_heap`. -/
def sample_b : Vector := ⟨1, ⟨some 1, 0⟩, ⟨some 1, 1⟩⟩

/-- A heap holding the unit vectors `[1, 0, 0]`, `[0, 1, 0]` and `[0, 0, 1]`. -/
def unit_heap : Heap Int := [some [1, 0, 0], some [0, 1, 0], some [0, 0, 1]]

/-- The vector `[1, 0, 0]` of `unit_heap`. -/
def unit_x : Vector := ⟨3, ⟨some 0, 0⟩, ⟨some 0, 3⟩⟩

/-- The vector `[0, 1, 0]` of `unit_heap`. -/
def unit_y : Vector := ⟨3, ⟨some 1, 0⟩, ⟨some 1, 3⟩⟩

/-- The vector `[0, 0, 1]` of `unit_heap`. -/
def unit_z : Vector := ⟨3, ⟨some 2, 0⟩, ⟨some 2, 3⟩⟩

/-- An allocator of `int` cells of `4` bytes that never declines. -/
def int_alloc : Allocator CInt := ⟨4, by decide, fun _ => false, true, fun _ => ⟨7⟩⟩

/-- A heap holding the `int` vector `[3, 4]`. -/
def int_heap : Heap CInt := [some [⟨3⟩, ⟨4⟩]]

/-- The vector `[3, 4]` of `int_heap`. -/
def int_v : Vector := ⟨2, ⟨some 0, 0⟩, ⟨some 0, 2⟩⟩

/-- A heap holding the vector `[3, 1, 2]` and the vector `[5]`. -/
def sort_heap : Heap Int := [some [3, 1, 2], some [5]]

/-- A heap holding the vector `[1, 2, 2]`, an allocation without cells, and the vector
`[1, 2]`. -/
def dup_heap : Heap Int := [some [1, 2, 2], some [], some [1, 2]]

/-- The empty vector of the computational-physics Vector: no buffer. -/
def empty_v : Vector := ⟨0, nullptr, nullptr⟩

/-- An empty vector of the NumericalPDEs Vector, whose buffer is an allocation without
cells (allocation `1` of `dup_heap`). -/
def empty_pde_v : Vector := ⟨0, ⟨some 1, 0⟩, ⟨some 1, 0⟩⟩

/-- A heap of rationals holding the vector `[0, 0]`. -/
def rat_heap : Heap ℚ := [some [0, 0]]

/-- A heap holding the vector `[-4, 1, 3]`. -/
def abs_heap : Heap Int := [some [-4, 1, 3]]

/-- The vector `[1, 2]` of `dup_heap`. -/
def sample_c : Vector := ⟨2, ⟨some 2, 0⟩, ⟨some 2, 2⟩⟩

/-- A formatting of non-negative integers in decimal digits, with the blank as the only
white space. -/
def digits_io : Formatting Int where
  isspace := fun c => c == ' '
  extract := fun s =>
    match (s.dropWhile (fun c => c == ' ')).takeWhile Char.isDigit with
    | [] => .failed (some 0)
    | d :: ds =>
      .value ((d :: ds).foldl (fun n c => 10 * n + ((c.toNat - 48 : Nat) : Int)) 0)
        ((s.dropWhile (fun c => c == ' ')).dropWhile Char.isDigit)
  insert := fun x => Nat.toDigits 10 x.toNat
  insert_console := fun x => Nat.toDigits 10 x.toNat

end cda
namespace cda
section HeapLemmas
variable {T : Type}

theorem block_eq_some {h : Heap T} {p : Ptr} {cells : List T} :
    h.block p = some cells ↔ ∃ b, p.blk = some b ∧ h[b]? = some (some cells) := by
  unfold Heap.block
  cases hb : p.blk with
  | none => simp
  | some b =>
    simp only [Option.some.injEq, exists_eq_left']
    split
    · rename_i c hc; simp [hc]
    · rename_i hc
      constructor
      · intro hh; cases hh
      · intro hh; exact absurd hh (hc cells)

theorem block_congr (h : Heap T) {p q : Ptr} (hpq : p.blk = q.blk) : h.block p = h.block q := by
  unfold Heap.block; rw [hpq]

theorem block_null (h : Heap T) {p : Ptr} (hp : p.blk = none) : h.block p = none := by
  unfold Heap.block; rw [hp]

theorem block_append_live {h : Heap T} {p : Ptr} {cells : List T} (l : Heap T)
    (hp : h.block p = some cells) : Heap.block (h ++ l) p = some cells := by
  obtain ⟨b, hb, hc⟩ := block_eq_some.mp hp
  refine block_eq_some.mpr ⟨b, hb, ?_⟩
  have hlt : b < h.length := by
    by_contra hge
    rw [List.getElem?_eq_none (Nat.le_of_not_lt hge)] at hc
    cases hc
  rw [List.getElem?_append_left hlt]; exact hc

theorem block_append_new (h : Heap T) (x : Option (List T)) {p : Ptr}
    (hp : p.blk = some h.length) : Heap.block (h ++ [x]) p = x := by
  unfold Heap.block
  rw [hp]
  simp only [List.getElem?_concat_length]
  cases x <;> rfl

theorem block_set_other (h : Heap T) (b : Nat) (x : Option (List T)) {p : Ptr}
    (hp : p.blk ≠ some b) : Heap.block (h.set b x) p = h.block p := by
  unfold Heap.block
  cases hb : p.blk with
  | none => rfl
  | some c =>
    have hne : b ≠ c := by
      intro hbc; apply hp; rw [hb, hbc]
    simp only [List.getElem?_set_ne hne]

theorem block_set_same (h : Heap T) {b : Nat} (x : Option (List T)) {p : Ptr}
    (hp : p.blk = some b) (hlt : b < h.length) : Heap.block (h.set b x) p = x := by
  unfold Heap.block
  rw [hp]
  simp only [List.getElem?_set, hlt, if_true]
  cases x <;> simp

end HeapLemmas
end cda

namespace cda
section LibraryLemmas
variable {T : Type}

theorem length_grow (al : Allocator T) (cells : List T) (size : Nat) :
    (grow al cells size).length = size := by
  simp [grow]

theorem getElem?_grow (al : Allocator T) (cells : List T) (size i : Nat) (hi : i < size) :
    (grow al cells size)[i]? = some ((cells[i]?).getD (al.junk i)) := by
  simp [grow, List.getElem?_range hi]

theorem getElem?_grow_of_lt (al : Allocator T) (cells : List T) (size i : Nat) (hi : i < size)
    (hc : i < cells.length) : (grow al cells size)[i]? = cells[i]? := by
  rw [getElem?_grow al cells size i hi, List.getElem?_eq_getElem hc]
  rfl

theorem free_spec {h h1 : Heap T} {p : Ptr} (hf : std_free h p = some h1) :
    h1.length = h.length ∧
      ∀ q : Ptr, q.blk ≠ p.blk → Heap.block h1 q = h.block q := by
  unfold std_free at hf
  split at hf
  · cases hf; exact ⟨rfl, fun _ _ => rfl⟩
  · split at hf
    · rename_i b c hb hc
      split at hf
      · cases hf
        refine ⟨by simp, fun q hq => block_set_other h b none ?_⟩
        rw [← hb]; exact hq
      · cases hf
    · cases hf

theorem free_freeable {h : Heap T} {p : Ptr} (hp : Freeable h p) :
    ∃ h1, std_free h p = some h1 := by
  unfold std_free
  rcases hp with hp | ⟨ho, hl⟩
  · exact ⟨h, by simp [hp]⟩
  · by_cases hn : p = nullptr
    · exact ⟨h, by simp [hn]⟩
    · rw [if_neg hn]
      cases hc : h.block p with
      | none => rw [hc] at hl; cases hl
      | some cells =>
        obtain ⟨b, hb, _⟩ := block_eq_some.mp hc
        rw [hb]
        exact ⟨h.set b none, by simp [ho]⟩

/-- A request that is not refused has a byte count that is a `size_t`, which the library
does not decline, and the block it gives has room for exactly `size` elements. -/
theorem refuses_eq_false {al : Allocator T} {size : Nat} (hr : al.refuses size = false) :
    size * al.sizeof < SIZE_T ∧ size_t_mul size al.sizeof = size * al.sizeof ∧
      al.declines (size * al.sizeof) = false ∧ size * al.sizeof / al.sizeof = size := by
  unfold Allocator.refuses at hr
  rw [Bool.or_eq_false_iff, decide_eq_false_iff_not] at hr
  have hlt : size * al.sizeof < SIZE_T := Nat.lt_of_not_le hr.1
  exact ⟨hlt, Nat.mod_eq_of_lt hlt, hr.2, Nat.mul_div_cancel size al.sizeof_pos⟩

/-- A request whose byte count is a `size_t` is refused only when the library declines
it. -/
theorem refuses_eq_true {al : Allocator T} {size : Nat} (hnw : size * al.sizeof < SIZE_T)
    (hr : al.refuses size = true) :
    size_t_mul size al.sizeof = size * al.sizeof ∧ al.declines (size * al.sizeof) = true := by
  unfold Allocator.refuses at hr
  rw [Bool.or_eq_true, decide_eq_true_iff] at hr
  refine ⟨Nat.mod_eq_of_lt hnw, ?_⟩
  rcases hr with hr | hr
  · omega
  · exact hr

theorem realloc_spec {al : Allocator T} {h h1 : Heap T} {p mem : Ptr} {bytes : Nat}
    (hr : al.declines bytes = false) (hf : std_realloc al h p bytes = some (h1, mem)) :
    mem = ⟨some h.length, 0⟩ ∧
      Heap.block h1 mem = some (grow al ((h.block p).getD []) (bytes / al.sizeof)) ∧
      (∀ (q : Ptr) (cells : List T), q.blk ≠ p.blk → h.block q = some cells →
        Heap.block h1 q = some cells) := by
  unfold std_realloc at hf
  rw [hr] at hf
  simp only [Bool.false_eq_true, if_false] at hf
  cases hfr : std_free h p with
  | none => rw [hfr] at hf; cases hf
  | some h0 =>
    rw [hfr] at hf
    obtain ⟨hlen, hframe⟩ := free_spec hfr
    simp only [Option.some.injEq, Prod.mk.injEq] at hf
    obtain ⟨hh, hm⟩ := hf
    subst hh; subst hm
    refine ⟨by rw [hlen], ?_, ?_⟩
    · exact block_append_new h0 _ rfl
    · intro q cells hq hc
      apply block_append_live
      rw [hframe q hq]; exact hc

theorem realloc_freeable (al : Allocator T) {h : Heap T} {p : Ptr} (bytes : Nat)
    (hp : Freeable h p) : ∃ h1 mem, std_realloc al h p bytes = some (h1, mem) := by
  obtain ⟨h0, hh0⟩ := free_freeable hp
  unfold std_realloc
  by_cases hr : al.declines bytes = true
  · rw [if_pos hr]
    by_cases hz : bytes = 0 ∧ al.zero_frees = true
    · rw [if_pos hz, hh0]
      exact ⟨_, _, rfl⟩
    · rw [if_neg hz]
      exact ⟨_, _, rfl⟩
  · rw [if_neg hr, hh0]
    exact ⟨_, _, rfl⟩

theorem live_lt_length {h : Heap T} {q : Ptr} {cells : List T} (hq : h.block q = some cells) :
    ∃ b, q.blk = some b ∧ b < h.length := by
  obtain ⟨b, hb, hc⟩ := block_eq_some.mp hq
  refine ⟨b, hb, ?_⟩
  by_contra hge
  rw [List.getElem?_eq_none (Nat.le_of_not_lt hge)] at hc
  cases hc

theorem writeRange_nil (h : Heap T) (p : Ptr) : h.writeRange p [] = some h := by
  simp [Heap.writeRange]

theorem writeRange_spec {h : Heap T} {p : Ptr} {cells : List T} (xs : List T)
    (hc : h.block p = some cells) (hle : p.off + xs.length ≤ cells.length) :
    ∃ h1, h.writeRange p xs = some h1 ∧
      (∀ q : Ptr, q.blk = p.blk →
        Heap.block h1 q = some (cells.take p.off ++ xs ++ cells.drop (p.off + xs.length))) ∧
      (∀ q : Ptr, q.blk ≠ p.blk → Heap.block h1 q = h.block q) := by
  obtain ⟨b, hb, hlt⟩ := live_lt_length hc
  by_cases hx : xs.length = 0
  · have hxs : xs = [] := List.length_eq_zero.mp hx
    subst hxs
    refine ⟨h, writeRange_nil h p, fun q hq => ?_, fun _ _ => rfl⟩
    rw [block_congr h hq, hc]
    simp
  · refine ⟨h.set b (some (cells.take p.off ++ xs ++ cells.drop (p.off + xs.length))), ?_,
      fun q hq => ?_, fun q hq => ?_⟩
    · unfold Heap.writeRange
      rw [if_neg hx, hb, hc]
      simp only [hle, if_true]
    · exact block_set_same h _ (hq.trans hb) hlt
    · apply block_set_other
      rw [← hb]; exact hq

theorem writeRange_frame {h h1 : Heap T} {p : Ptr} {xs : List T}
    (hw : h.writeRange p xs = some h1) (q : Ptr) (hq : q.blk ≠ p.blk) :
    Heap.block h1 q = h.block q := by
  unfold Heap.writeRange at hw
  split at hw
  · cases hw; rfl
  · split at hw
    · rename_i b c hb hc
      split at hw
      · cases hw
        apply block_set_other
        rw [← hb]; exact hq
      · cases hw
    · cases hw

theorem readRange_spec {h : Heap T} {p : Ptr} {cells : List T} (k : Nat)
    (hc : h.block p = some cells) (hle : p.off + k ≤ cells.length) :
    h.readRange p k = some ((cells.drop p.off).take k) := by
  unfold Heap.readRange
  by_cases hk : k = 0
  · simp [hk]
  · rw [if_neg hk, hc]
    simp only [hle, if_true]

theorem readRange_zero (h : Heap T) (p : Ptr) : h.readRange p 0 = some [] := by
  simp [Heap.readRange]

end LibraryLemmas
end cda

namespace cda
namespace Vector
section VectorLemmas
variable {T : Type}

theorem valid_block {h : Heap T} {s : Vector} (hv : Valid h s) (hn : s.n ≠ 0) :
    s.v.off = 0 ∧ h.block s.v = some (elems h s) ∧ (elems h s).length = s.n := by
  obtain ⟨_, _, h3⟩ := hv
  obtain ⟨_, ho, _, hb⟩ := h3 hn
  unfold elems
  cases hc : h.block s.v with
  | none => rw [hc] at hb; cases hb
  | some cells =>
    rw [hc] at hb
    simp only [Option.map_some', Option.some.injEq] at hb
    exact ⟨ho, rfl, hb⟩

theorem valid_null {h : Heap T} {s : Vector} (hv : Valid h s) (hn : s.n = 0) :
    s.v = nullptr ∧ s.it_end = nullptr ∧ elems h s = [] := by
  obtain ⟨_, h2, _⟩ := hv
  obtain ⟨hvn, hen⟩ := h2 hn
  refine ⟨hvn, hen, ?_⟩
  unfold elems
  rw [block_null h (by rw [hvn]; rfl)]
  rfl

theorem valid_off {h : Heap T} {s : Vector} (hv : Valid h s) : s.v.off = 0 := by
  by_cases hn : s.n = 0
  · rw [(valid_null hv hn).1]; rfl
  · exact (valid_block hv hn).1

theorem valid_length {h : Heap T} {s : Vector} (hv : Valid h s) :
    (elems h s).length = s.n := by
  by_cases hn : s.n = 0
  · rw [(valid_null hv hn).2.2, hn]; rfl
  · exact (valid_block hv hn).2.2

theorem valid_end_off {h : Heap T} {s : Vector} (hv : Valid h s) : s.it_end.off = s.n := by
  by_cases hn : s.n = 0
  · rw [(valid_null hv hn).2.1, hn]; rfl
  · obtain ⟨_, _, h3⟩ := hv
    obtain ⟨_, ho, he, _⟩ := h3 hn
    rw [he]; simp [Ptr.add, ho]

theorem valid_freeable {h : Heap T} {s : Vector} (hv : Valid h s) : Freeable h s.v := by
  by_cases hn : s.n = 0
  · exact Or.inl (valid_null hv hn).1
  · obtain ⟨ho, hb, _⟩ := valid_block hv hn
    exact Or.inr ⟨ho, by rw [hb]; rfl⟩

theorem subscript_eq {h : Heap T} {s : Vector} (hv : Valid h s) (i : Nat) :
    subscript h s i = (elems h s)[i]? := by
  unfold subscript Heap.read
  rw [block_congr h (show (s.v.add i).blk = s.v.blk from rfl)]
  by_cases hn : s.n = 0
  · obtain ⟨hvn, _, he⟩ := valid_null hv hn
    rw [he, block_null h (by rw [hvn]; rfl)]
    rfl
  · obtain ⟨ho, hb, _⟩ := valid_block hv hn
    rw [hb]
    simp [Ptr.add, ho]

theorem elems_of_block_eq {h h1 : Heap T} {s : Vector}
    (hb : Heap.block h1 s.v = h.block s.v) : elems h1 s = elems h s := by
  unfold elems; rw [hb]

theorem valid_of_block_eq {h h1 : Heap T} {s : Vector} (hv : Valid h s)
    (hb : Heap.block h1 s.v = h.block s.v) : Valid h1 s := by
  obtain ⟨h1', h2, h3⟩ := hv
  refine ⟨h1', h2, fun hn => ?_⟩
  obtain ⟨a, b, c, d⟩ := h3 hn
  exact ⟨a, b, c, by rw [hb]; exact d⟩

theorem subscript_of_block_eq {h h1 : Heap T} {s : Vector}
    (hb : Heap.block h1 s.v = h.block s.v) (i : Nat) : subscript h1 s i = subscript h s i := by
  unfold subscript Heap.read
  rw [block_congr h1 (show (s.v.add i).blk = s.v.blk from rfl),
    block_congr h (show (s.v.add i).blk = s.v.blk from rfl), hb]

/-- A vector of a heap keeps its buffer in any heap that keeps the live allocations the
vector does not share with a released pointer. -/
theorem block_kept {h h1 : Heap T} {s : Vector} {p : Ptr} (hv : Valid h s)
    (hsep : s.v.blk = none ∨ s.v.blk ≠ p.blk)
    (hframe : ∀ (q : Ptr) (cells : List T), q.blk ≠ p.blk → h.block q = some cells →
      Heap.block h1 q = some cells) :
    Heap.block h1 s.v = h.block s.v := by
  by_cases hn : s.n = 0
  · have hvn := (valid_null hv hn).1
    rw [block_null h (by rw [hvn]; rfl), block_null h1 (by rw [hvn]; rfl)]
  · obtain ⟨_, hb, _⟩ := valid_block hv hn
    have hne : s.v.blk ≠ p.blk := by
      rcases hsep with hs | hs
      · obtain ⟨b, hb', _⟩ := live_lt_length hb
        rw [hs] at hb'; cases hb'
      · exact hs
    rw [hframe s.v _ hne hb, hb]

theorem writeRange_valid {h : Heap T} {s : Vector} (hv : Valid h s) (off : Nat) (xs : List T)
    (hle : off + xs.length ≤ s.n) :
    ∃ h1, h.writeRange (s.v.add off) xs = some h1 ∧ Valid h1 s ∧
      elems h1 s = (elems h s).take off ++ xs ++ (elems h s).drop (off + xs.length) ∧
      (∀ q : Ptr, q.blk ≠ s.v.blk → Heap.block h1 q = h.block q) := by
  by_cases hn : s.n = 0
  · have hx : xs = [] := by
      apply List.length_eq_zero.mp; omega
    subst hx
    refine ⟨h, writeRange_nil h _, hv, ?_, fun _ _ => rfl⟩
    rw [(valid_null hv hn).2.2]; simp
  · obtain ⟨ho, hb, hl⟩ := valid_block hv hn
    have hoff : (s.v.add off).off = off := by simp [Ptr.add, ho]
    have hb' : h.block (s.v.add off) = some (elems h s) := by
      rw [block_congr h (show (s.v.add off).blk = s.v.blk from rfl)]; exact hb
    obtain ⟨h1, hw, hsame, hother⟩ := writeRange_spec xs hb' (by rw [hoff, hl]; exact hle)
    have hnew := hsame s.v rfl
    rw [hoff] at hnew
    refine ⟨h1, hw, ?_, ?_, fun q hq => hother q hq⟩
    · obtain ⟨a, b, c⟩ := hv
      refine ⟨a, b, fun hn' => ?_⟩
      obtain ⟨c1, c2, c3, _⟩ := c hn'
      refine ⟨c1, c2, c3, ?_⟩
      rw [hnew]
      simp only [Option.map_some', Option.some.injEq, List.length_append, List.length_take,
        List.length_drop, hl]
      omega
    · unfold elems at hnew ⊢
      rw [hnew]; rfl

theorem readRange_valid {h : Heap T} {s : Vector} (hv : Valid h s) (off k : Nat)
    (hle : off + k ≤ s.n) :
    h.readRange (s.v.add off) k = some (((elems h s).drop off).take k) := by
  by_cases hn : s.n = 0
  · have hk : k = 0 := by omega
    subst hk
    rw [readRange_zero]; simp
  · obtain ⟨ho, hb, hl⟩ := valid_block hv hn
    have hoff : (s.v.add off).off = off := by simp [Ptr.add, ho]
    have hb' : h.block (s.v.add off) = some (elems h s) := by
      rw [block_congr h (show (s.v.add off).blk = s.v.blk from rfl)]; exact hb
    have := readRange_spec k hb' (by rw [hoff, hl]; exact hle)
    rw [hoff] at this
    exact this

theorem AllocateMemory_ok (al : Allocator T) {h : Heap T} (self : Vector) (size : Nat)
    (hp : Freeable h self.v) (hs : size < SIZE_T) (hr : size ≠ 0 → al.refuses size = false) :
    ∃ h1 s1, AllocateMemory al h self size = .ok (h1, s1) ∧ s1.n = self.n ∧
      Valid h1 { s1 with n := size } ∧
      elems h1 s1 = grow al ((h.block self.v).getD []) size ∧
      (∀ (q : Ptr) (cells : List T), h.block q = some cells → s1.v.blk ≠ q.blk) ∧
      (∀ (q : Ptr) (cells : List T), q.blk ≠ self.v.blk → h.block q = some cells →
        Heap.block h1 q = some cells) := by
  unfold AllocateMemory
  by_cases h0 : size = 0
  · obtain ⟨h1, hf⟩ := free_freeable hp
    obtain ⟨_, hframe⟩ := free_spec hf
    rw [if_pos h0, hf]
    refine ⟨h1, _, rfl, rfl, ?_, ?_, ?_, ?_⟩
    · refine ⟨hs, fun _ => ⟨rfl, rfl⟩, fun hn => absurd h0 hn⟩
    · subst h0
      simp [elems, block_null h1 (show nullptr.blk = none from rfl), grow]
    · intro q cells hq hcontra
      obtain ⟨b, hb, _⟩ := live_lt_length hq
      rw [hb] at hcontra; cases hcontra
    · intro q cells hq hc
      rw [hframe q hq]; exact hc
  · obtain ⟨_, hmul, hdec, hdiv⟩ := refuses_eq_false (hr h0)
    obtain ⟨h1, mem, hre⟩ := realloc_freeable al (size * al.sizeof) hp
    obtain ⟨hm, hblock, hframe⟩ := realloc_spec hdec hre
    rw [hdiv] at hblock
    rw [if_neg h0, hmul, hre]
    have hmn : mem ≠ nullptr := by
      rw [hm]; intro hc; cases hc
    simp only [if_pos hmn]
    refine ⟨h1, _, rfl, rfl, ?_, ?_, ?_, hframe⟩
    · refine ⟨hs, fun hn => absurd hn h0, fun _ => ⟨?_, ?_, ?_, ?_⟩⟩
      · show mem.blk ≠ none
        rw [hm]; intro hc; cases hc
      · show mem.off = 0
        rw [hm]
      · rfl
      · show (Heap.block h1 mem).map List.length = some size
        rw [hblock]; simp [length_grow]
    · show (Heap.block h1 mem).getD [] = _
      rw [hblock]; rfl
    · intro q cells hq hcontra
      obtain ⟨b, hb, hlt⟩ := live_lt_length hq
      have : mem.blk = some b := by
        rw [← hb]; exact hcontra
      rw [hm] at this
      simp only [Option.some.injEq] at this
      omega

theorem AllocateMemory_refused (al : Allocator T) (h : Heap T) (self : Vector) (size : Nat)
    (h0 : size ≠ 0) (hnw : size * al.sizeof < SIZE_T) (hr : al.refuses size = true) :
    AllocateMemory al h self size = .throws .bad_alloc (h, self) := by
  obtain ⟨hmul, hdec⟩ := refuses_eq_true hnw hr
  have hb : ¬ (size * al.sizeof = 0 ∧ al.zero_frees = true) := by
    intro hc
    have := Nat.mul_pos (Nat.pos_of_ne_zero h0) al.sizeof_pos
    omega
  unfold AllocateMemory std_realloc
  rw [if_neg h0, hmul, if_pos hdec, if_neg hb]
  simp

theorem resize_spec [Zero T] (al : Allocator T) {h : Heap T} {self : Vector} (size : Nat)
    (fill : Bool) (hv : Valid h self) (hs : size < SIZE_T)
    (hr : size ≠ self.n → size ≠ 0 → al.refuses size = false) :
    ∃ h1 s1, resize al h self size fill = .ok (h1, s1) ∧ Valid h1 s1 ∧ s1.n = size ∧
      (∀ i, i < self.n → i < size → (elems h1 s1)[i]? = (elems h self)[i]?) ∧
      (fill = true → ∀ i, self.n ≤ i → i < size → (elems h1 s1)[i]? = some 0) ∧
      (size = self.n → h1 = h ∧ s1 = self) ∧
      (∀ (q : Ptr) (cells : List T), q.blk ≠ self.v.blk → h.block q = some cells →
        Heap.block h1 q = some cells ∧ s1.v.blk ≠ q.blk) := by
  unfold resize
  by_cases hsz : size = self.n
  · rw [if_pos hsz]
    refine ⟨h, self, rfl, hv, hsz.symm, fun _ _ _ => rfl, fun _ i h1 h2 => ?_, fun _ => ⟨rfl, rfl⟩,
      fun q cells hq hc => ⟨hc, fun hcon => hq hcon.symm⟩⟩
    omega
  · rw [if_neg hsz]
    obtain ⟨h1, s1, hal, hn1, hv1, he1, hfresh, hframe⟩ :=
      AllocateMemory_ok al self size (valid_freeable hv) hs (hr hsz)
    rw [hal]
    have he1' : elems h1 s1 = grow al (elems h self) size := he1
    have hlen := valid_length hv
    by_cases hf : (fill && decide (size > s1.n)) = true
    · simp only [hf, if_true]
      simp only [Bool.and_eq_true, decide_eq_true_eq] at hf
      obtain ⟨hfill, hgt⟩ := hf
      rw [hn1] at hgt
      obtain ⟨h2, hw, hv2, he2, hfr2⟩ := writeRange_valid hv1 self.n
        (List.replicate (size - self.n) (0 : T)) (by simp; omega)
      have hw' : std_fill_n h1 (s1.v.add s1.n) (size - s1.n) (0 : T) = some h2 := by
        rw [hn1]; exact hw
      rw [hw']
      have he2' : elems h2 s1 = (grow al (elems h self) size).take self.n ++
          List.replicate (size - self.n) (0 : T) ++
          (grow al (elems h self) size).drop (self.n + (size - self.n)) := by
        rw [← he1']
        simpa using he2
      refine ⟨h2, _, rfl, hv2, rfl, fun i hi1 hi2 => ?_, fun _ i hi1 hi2 => ?_,
        fun hc => absurd hc hsz, fun q cells hq hc => ?_⟩
      · show (elems h2 s1)[i]? = _
        rw [he2', List.append_assoc, List.getElem?_append_left (by simp [length_grow]; omega),
          List.getElem?_take_of_lt hi1, getElem?_grow_of_lt al _ size i hi2 (by omega)]
      · show (elems h2 s1)[i]? = _
        rw [he2', List.getElem?_append_left (by simp [length_grow]; omega),
          List.getElem?_append_right (by simp [length_grow]; omega)]
        simp only [List.length_take, length_grow]
        rw [List.getElem?_replicate_of_lt (by omega)]
      · have hne := hfresh q cells hc
        refine ⟨?_, hne⟩
        rw [hfr2 q (fun hcon => hne hcon.symm)]
        exact hframe q cells hq hc
    · simp only [hf, Bool.false_eq_true, if_false]
      have hfalse : fill = true → ¬ size > self.n := by
        intro hfill hgt
        apply hf
        simp [hfill, hn1, hgt]
      refine ⟨h1, _, rfl, hv1, rfl, fun i hi1 hi2 => ?_, fun hfill i hi1 hi2 => ?_,
        fun hc => absurd hc hsz, fun q cells hq hc => ⟨hframe q cells hq hc, hfresh q cells hc⟩⟩
      · show (elems h1 s1)[i]? = _
        rw [he1', getElem?_grow_of_lt al _ size i hi2 (by omega)]
      · exact absurd (by omega) (hfalse hfill)

end VectorLemmas
end Vector
end cda

namespace cda
namespace Vector
section CopyLemmas
variable {T : Type}

theorem add_zero_eq (p : Ptr) : p.add 0 = p := rfl

theorem sep_of_fresh {h : Heap T} {s : Vector} {p : Ptr} (hv : Valid h s)
    (hfresh : ∀ (q : Ptr) (cells : List T), h.block q = some cells → p.blk ≠ q.blk) :
    s.v.blk = none ∨ s.v.blk ≠ p.blk := by
  by_cases hn : s.n = 0
  · left; rw [(valid_null hv hn).1]; rfl
  · right
    intro hc
    exact hfresh s.v _ (valid_block hv hn).2.1 hc.symm

theorem block_kept_of_write {h h1 : Heap T} {s : Vector} {p : Ptr} (hv : Valid h s)
    (hsep : s.v.blk = none ∨ s.v.blk ≠ p.blk)
    (hframe : ∀ q : Ptr, q.blk ≠ p.blk → Heap.block h1 q = h.block q) :
    Heap.block h1 s.v = h.block s.v :=
  block_kept hv hsep (fun q cells hq hc => by rw [hframe q hq]; exact hc)

theorem std_copy_valid {h : Heap T} {src dst : Vector} (hs : Valid h src) (hd : Valid h dst)
    (hsep : src.v.blk = none ∨ src.v.blk ≠ dst.v.blk) (off k doff : Nat) (last : Ptr)
    (hlast : last.off = off + k) (hso : off + k ≤ src.n) (hdo : doff + k ≤ dst.n) :
    ∃ h1, std_copy h (src.v.add off) last (dst.v.add doff) = some h1 ∧
      Valid h1 dst ∧ Heap.block h1 src.v = h.block src.v ∧
      elems h1 dst = (elems h dst).take doff ++ ((elems h src).drop off).take k ++
        (elems h dst).drop (doff + k) ∧
      (∀ q : Ptr, q.blk ≠ dst.v.blk → Heap.block h1 q = h.block q) := by
  have hcount : last.off - (src.v.add off).off = k := by
    simp [Ptr.add, valid_off hs, hlast]
  have hlen : (((elems h src).drop off).take k).length = k := by
    simp [valid_length hs]; omega
  obtain ⟨h1, hw, hv1, he1, hfr⟩ := writeRange_valid hd doff (((elems h src).drop off).take k)
    (by rw [hlen]; exact hdo)
  refine ⟨h1, ?_, hv1, block_kept_of_write hs hsep hfr, ?_, hfr⟩
  · unfold std_copy
    rw [hcount, readRange_valid hs off k hso]
    exact hw
  · rw [he1, hlen]

end CopyLemmas
end Vector
end cda

namespace cda
namespace Vector
section MoreLemmas
variable {T : Type}

theorem At_of_valid {h : Heap T} {s : Vector} (hv : Valid h s) {i : Nat} {x : T}
    (hx : (elems h s)[i]? = some x) : At h s i = .ok x := by
  have hlt : i < s.n := by
    rw [← valid_length hv]
    by_contra hge
    rw [List.getElem?_eq_none (Nat.le_of_not_lt hge)] at hx
    cases hx
  unfold At
  rw [if_neg (by omega), subscript_eq hv, hx]

theorem At_out_of_range (h : Heap T) (s : Vector) {i : Nat} (hi : s.n ≤ i) :
    At h s i = .throws .out_of_range h := by
  unfold At
  rw [if_pos hi]

theorem writeRange_keeps_valid {h h1 : Heap T} {p : Ptr} {xs : List T} {s : Vector}
    (hw : h.writeRange p xs = some h1) (hv : Valid h s) : Valid h1 s := by
  by_cases hq : s.v.blk = p.blk
  · unfold Heap.writeRange at hw
    split at hw
    · cases hw; exact hv
    · split at hw
      · rename_i b cells hb hc
        split at hw
        · rename_i hle
          cases hw
          obtain ⟨a1, a2, a3⟩ := hv
          refine ⟨a1, a2, fun hn => ?_⟩
          obtain ⟨c1, c2, c3, c4⟩ := a3 hn
          refine ⟨c1, c2, c3, ?_⟩
          obtain ⟨_, _, hlt⟩ := live_lt_length hc
          rw [block_congr h hq, hc] at c4
          simp only [Option.map_some', Option.some.injEq] at c4
          rw [block_set_same h _ (hq.trans hb) (by
            obtain ⟨b', hb', hlt'⟩ := live_lt_length hc
            rw [hb] at hb'; cases hb'; exact hlt')]
          simp only [Option.map_some', Option.some.injEq, List.length_append, List.length_take,
            List.length_drop]
          omega
        · cases hw
      · cases hw
  · exact valid_of_block_eq hv (writeRange_frame hw s.v hq)

theorem copy_whole {h : Heap T} {src dst : Vector} (hs : Valid h src) (hd : Valid h dst)
    (hsep : src.v.blk = none ∨ src.v.blk ≠ dst.v.blk) (hn : dst.n = src.n) :
    ∃ h1, std_copy h src.begin src.end_ dst.begin = some h1 ∧
      Valid h1 dst ∧ Heap.block h1 src.v = h.block src.v ∧ elems h1 dst = elems h src ∧
      (∀ q : Ptr, q.blk ≠ dst.v.blk → Heap.block h1 q = h.block q) := by
  obtain ⟨h1, hcp, hv1, hkept, he1, hfr⟩ := std_copy_valid hs hd hsep 0 src.n 0 src.it_end
    (by rw [valid_end_off hs]; omega) (by omega) (by omega)
  refine ⟨h1, hcp, hv1, hkept, ?_, hfr⟩
  rw [he1]
  have hls := valid_length hs
  have hld := valid_length hd
  simp only [List.take_zero, List.nil_append, List.drop_zero, Nat.zero_add]
  rw [List.take_of_length_le (by omega), List.drop_of_length_le (by omega), List.append_nil]

theorem resize_cases [Zero T] (al : Allocator T) {h : Heap T} {self : Vector} (size : Nat)
    (fill : Bool) (hv : Valid h self) (hs : size < SIZE_T)
    (hnw : size * al.sizeof < SIZE_T) :
    resize al h self size fill = .throws .bad_alloc (h, self) ∨
    ∃ h1 s1, resize al h self size fill = .ok (h1, s1) ∧ Valid h1 s1 ∧
      (∀ (q : Ptr) (cells : List T), q.blk ≠ self.v.blk → h.block q = some cells →
        Heap.block h1 q = some cells ∧ s1.v.blk ≠ q.blk) := by
  by_cases hr : size ≠ self.n → size ≠ 0 → al.refuses size = false
  · obtain ⟨h1, s1, hres, hv1, _, _, _, _, hfr⟩ := resize_spec al size fill hv hs hr
    exact Or.inr ⟨h1, s1, hres, hv1, hfr⟩
  · left
    simp only [Classical.not_imp, Bool.not_eq_false] at hr
    obtain ⟨h1, h2, h3⟩ := hr
    unfold resize
    rw [if_neg h1, AllocateMemory_refused al h self size h2 hnw h3]

/-- Whatever is done to the buffer of `b`, a vector `a` that does not share it keeps its
own. -/
theorem kept_of_frame {h h1 : Heap T} {a b b1 : Vector} (ha : Valid h a)
    (hsep : Separate a b)
    (hfr : ∀ (q : Ptr) (cells : List T), q.blk ≠ b.v.blk → h.block q = some cells →
      Heap.block h1 q = some cells ∧ b1.v.blk ≠ q.blk) :
    Valid h1 a ∧ Separate a b1 ∧ ∀ j, subscript h1 a j = subscript (T := T) h a j := by
  have hk : Heap.block h1 a.v = h.block a.v :=
    block_kept ha hsep (fun q cells hq hc => (hfr q cells hq hc).1)
  refine ⟨valid_of_block_eq ha hk, ?_, subscript_of_block_eq hk⟩
  by_cases hn : a.n = 0
  · left; rw [(valid_null ha hn).1]; rfl
  · right
    have hb := (valid_block ha hn).2.1
    have hne : a.v.blk ≠ b.v.blk := by
      rcases hsep with hs | hs
      · obtain ⟨b', hb', _⟩ := live_lt_length hb
        rw [hs] at hb'; cases hb'
      · exact hs
    exact fun hc => (hfr a.v _ hne hb).2 hc.symm

end MoreLemmas
end Vector
end cda

/-! ## Requests whose byte count wraps: lemmas -/

namespace cda
namespace Vector
section WrapLemmas
variable {T : Type}

/-- A write of at least one cell that does not fit in the block it is aimed at is
outside the allocation. -/
theorem writeRange_outside {h : Heap T} {p : Ptr} {xs cells : List T}
    (hb : h.block p = some cells) (hx : xs.length ≠ 0)
    (hout : cells.length < p.off + xs.length) : h.writeRange p xs = none := by
  unfold Heap.writeRange
  rw [if_neg hx, hb]
  cases hp : p.blk with
  | none => rfl
  | some b =>
    dsimp only
    rw [if_neg (by omega)]

/-- When the block `AllocateMemory` obtained is shorter than the size asked for, which
is what a wrapped byte count gives, the zero fill of `resize` runs past its end. -/
theorem resize_undefined_of_short_block [Zero T] (al : Allocator T) {h h1 : Heap T}
    {self s1 : Vector} {size : Nat} {cells : List T} (hne : size ≠ self.n)
    (halloc : AllocateMemory al h self size = .ok (h1, s1)) (hgt : s1.n < size)
    (hb : h1.block s1.v = some cells) (hshort : cells.length < size) :
    resize al h self size true = .undefined := by
  have hw : std_fill_n h1 (s1.v.add s1.n) (size - s1.n) (0 : T) = none := by
    have hb2 : h1.block (s1.v.add s1.n) = some cells := hb
    unfold std_fill_n
    apply writeRange_outside hb2
    · rw [List.length_replicate]; omega
    · rw [List.length_replicate]
      show cells.length < s1.v.off + s1.n + (size - s1.n)
      omega
  unfold resize
  rw [if_neg hne, halloc]
  dsimp only
  rw [if_pos (by simpa using hgt), hw]

/-- When the buffer is shorter than `it_end - v`, `Fill` runs past its end. -/
theorem Fill_undefined_of_short_block {h : Heap T} {self : Vector} {cells : List T}
    (value : T) (hb : h.block self.v = some cells)
    (hshort : self.v.off + cells.length < self.it_end.off) :
    Fill h self value = .undefined := by
  have hw : std_fill h self.begin self.end_ value = none := by
    unfold std_fill begin end_
    apply writeRange_outside hb
    · rw [List.length_replicate]; omega
    · rw [List.length_replicate]; omega
  unfold Fill
  rw [hw]

/-- When the block the constructor `Vector(size, value)` obtained is shorter than
`it_end - v`, which is what a wrapped byte count gives, its `Fill` runs past the end. -/
theorem ctor_fill_undefined_of_short_block (al : Allocator T) {h h1 : Heap T} {s1 : Vector}
    {size : Nat} {cells : List T} (value : T)
    (halloc : AllocateMemory al h ⟨size, nullptr, nullptr⟩ size = .ok (h1, s1))
    (hb : h1.block s1.v = some cells)
    (hshort : s1.v.off + cells.length < s1.it_end.off) :
    ctor_fill al h size value = .undefined := by
  unfold ctor_fill
  rw [halloc]
  dsimp only
  rw [Fill_undefined_of_short_block value hb hshort]

end WrapLemmas

end Vector
end cda

/-! ## The claims -/

namespace cda
namespace Vector

/-- What `resize(newSize, true)` does when the request it makes (if any) is granted, the
byte count being a `size_t`: it returns with `Size() = newSize`, with element `i` equal to
the original element `i` for every `i < min old newSize`, and with element `i` equal to
`0` for every `old ≤ i < newSize`; when `newSize = old` nothing changes. The resulting
vector satisfies the class invariant again. -/
theorem resize_keeps_and_zero_fills {T : Type} [Zero T] (al : Allocator T) (h : Heap T)
    (self : Vector) (newSize : Nat) (hv : Valid h self) (hs : newSize < SIZE_T)
    (ha : newSize ≠ self.n → newSize ≠ 0 → al.refuses newSize = false) :
    ∃ h1 s1, resize al h self newSize true = .ok (h1, s1) ∧ Valid h1 s1 ∧
      s1.Size = newSize ∧
      (∀ i, i < min self.n newSize → subscript h1 s1 i = subscript h self i) ∧
      (∀ i, self.n ≤ i → i < newSize → subscript h1 s1 i = some (0 : T)) ∧
      (newSize = self.n → h1 = h ∧ s1 = self) := by
  obtain ⟨h1, s1, hres, hv1, hn1, hkeep, hzero, hsame, _⟩ :=
    resize_spec al newSize true hv hs ha
  refine ⟨h1, s1, hres, hv1, hn1, fun i hi => ?_, fun i hi1 hi2 => ?_, hsame⟩
  · rw [subscript_eq hv1, subscript_eq hv]
    exact hkeep i (by omega) (by omega)
  · rw [subscript_eq hv1]
    exact hzero rfl i hi1 hi2

/-- C1: `resize` asks `std::realloc` for `size * sizeof(T)` bytes, a `size_t` product
that wraps. On the vector `[1, 2, 3]` of 4-byte elements, `resize(2^62 + 1, true)` asks
for `4` bytes; the library grants them, the new block holds the one element `1`, and
`std::fill_n(v + 3, 2^62 - 2, 0)` writes outside it: undefined behaviour, where the claim
has a vector of `Size()` `2^62 + 1`. With a byte count that is a `size_t` the same
vector is resized as claimed: to `[1, 2, 3, 0, 0]` by `resize(5)`, to `[1, 2]` by
`resize(2)`, and `resize(3)` changes nothing. -/
theorem C1_resize_overruns_when_byte_count_wraps :
    Valid sample_heap sample_a ∧ elems sample_heap sample_a = [1, 2, 3] ∧
    sample_alloc.sizeof = 4 ∧ (4611686018427387905 : Nat) = 2 ^ 62 + 1 ∧
    4611686018427387905 < SIZE_T ∧
    size_t_mul 4611686018427387905 sample_alloc.sizeof = 4 ∧
    sample_alloc.declines 4 = false ∧
    AllocateMemory sample_alloc sample_heap sample_a 4611686018427387905 =
      .ok ([none, some [9], some [1]], ⟨3, ⟨some 2, 0⟩, ⟨some 2, 4611686018427387905⟩⟩) ∧
    resize sample_alloc sample_heap sample_a 4611686018427387905 true = .undefined ∧
    resize sample_alloc sample_heap sample_a 5 true =
      .ok ([none, some [9], some [1, 2, 3, 0, 0]], ⟨5, ⟨some 2, 0⟩, ⟨some 2, 5⟩⟩) ∧
    resize sample_alloc sample_heap sample_a 2 true =
      .ok ([none, some [9], some [1, 2]], ⟨2, ⟨some 2, 0⟩, ⟨some 2, 2⟩⟩) ∧
    resize sample_alloc sample_heap sample_a 3 true = .ok (sample_heap, sample_a) :=
  ⟨by decide, by decide, by decide, by decide, by decide, by decide, by decide, by decide,
    resize_undefined_of_short_block sample_alloc (by decide)
      (show AllocateMemory sample_alloc sample_heap sample_a 4611686018427387905 =
        .ok ([none, some [9], some [1]], ⟨3, ⟨some 2, 0⟩, ⟨some 2, 4611686018427387905⟩⟩)
        by decide)
      (by decide) (show Heap.block _ _ = some [1] by decide) (by decide),
    by decide, by decide, by decide⟩

/-- C2: `At(index)` throws `out_of_range` exactly when `index >= n`; otherwise it
returns the element at position `index`, the value the unchecked `operator[]` reads. -/
theorem C2_At_checked_access {T : Type} (h : Heap T) (self : Vector) (index : Nat)
    (hv : Valid h self) :
    (At h self index = .throws .out_of_range h ↔ index ≥ self.n) ∧
    (index < self.n →
      ∃ x, subscript h self index = some x ∧ At h self index = .ok x) := by
  constructor
  · unfold At
    constructor
    · intro hat
      by_contra hlt
      rw [if_neg hlt] at hat
      split at hat <;> cases hat
    · intro hge
      rw [if_pos hge]
  · intro hlt
    have hsub := subscript_eq hv index
    have hl := valid_length hv
    rw [List.getElem?_eq_getElem (by omega)] at hsub
    refine ⟨_, hsub, ?_⟩
    unfold At
    rw [if_neg (by omega), hsub]

/-- C2, at the vector `[1, 2, 3]` and index `1`. -/
theorem C2_At_witness :
    Valid sample_heap sample_a ∧ 1 < sample_a.n ∧
    ∃ x, subscript sample_heap sample_a 1 = some x ∧ At sample_heap sample_a 1 = .ok x :=
  ⟨by decide, by decide, (C2_At_checked_access sample_heap sample_a 1 (by decide)).2 (by decide)⟩

/-- C3: `Get(first_element, elements)` of the computational-physics Vector, when
`first_element + elements <= n` and the allocation it asks for (if any) is granted,
returns a vector of length exactly `elements` whose element `i` is
`v[first_element + i]`, and leaves the receiver with the buffer and the elements it
had. -/
theorem C3_Get_returns_the_range {T : Type} (al : Allocator T) (h : Heap T) (self : Vector)
    (first_element elements : Nat) (hv : Valid h self)
    (hle : first_element + elements ≤ self.n)
    (ha : elements ≠ 0 → al.refuses elements = false) :
    ∃ h1 r, Get al h self first_element elements = .ok (h1, r) ∧ Valid h1 r ∧
      r.Size = elements ∧
      (∀ i, i < elements → subscript h1 r i = subscript h self (first_element + i)) ∧
      Valid h1 self ∧ (∀ i, subscript h1 self i = subscript h self i) := by
  have hn := hv.1
  have hguard : ¬ size_t_sub self.n first_element < elements := by
    unfold size_t_sub SIZE_T at *
    omega
  unfold Get ctor_range
  rw [if_neg hguard]
  have hcnt : ((self.v.add first_element).add elements).off - (self.v.add first_element).off
      = elements := by
    simp [Ptr.add]
  rw [hcnt]
  obtain ⟨h1, s1, hal, hn1, hv1, _, hfresh, hframe⟩ :=
    AllocateMemory_ok al ⟨elements, nullptr, nullptr⟩ elements (Or.inl rfl)
      (by unfold SIZE_T at *; omega) ha
  rw [hal]
  dsimp only
  have hn1 : s1.n = elements := hn1
  have hs1 : ({ s1 with n := elements } : Vector) = s1 := by
    cases s1; simp only [Vector.mk.injEq, and_true]; exact hn1.symm
  rw [hs1] at hv1
  have hkept : Heap.block h1 self.v = h.block self.v := by
    refine block_kept hv ?_ hframe
    by_cases hb : self.v.blk = none
    · exact Or.inl hb
    · exact Or.inr hb
  have hvs1 : Valid h1 self := valid_of_block_eq hv hkept
  obtain ⟨h2, hcp, hv2, hkept2, he2, _⟩ := std_copy_valid hvs1 hv1 (sep_of_fresh hv hfresh)
    first_element elements 0 ((self.v.add first_element).add elements)
    (by simp [Ptr.add, valid_off hv]) hle (by rw [hn1]; omega)
  have hcp' : std_copy h1 (self.v.add first_element) ((self.v.add first_element).add elements)
      s1.begin = some h2 := hcp
  rw [hcp']
  have hkept3 : Heap.block h2 self.v = h.block self.v := hkept2.trans hkept
  refine ⟨h2, s1, rfl, hv2, hn1, fun i hi => ?_, valid_of_block_eq hv hkept3,
    subscript_of_block_eq hkept3⟩
  rw [subscript_eq hv2, subscript_eq hv, he2, elems_of_block_eq hkept]
  have hl := valid_length hv
  simp only [List.take_zero, List.nil_append]
  rw [List.getElem?_append_left (by simp; omega), List.getElem?_take_of_lt hi,
    List.getElem?_drop]

/-- C3, at the vector `[1, 2, 3]` and the range of two elements from position `1`. -/
theorem C3_Get_witness :
    Valid sample_heap sample_a ∧ 1 + 2 ≤ sample_a.n ∧
    (2 ≠ 0 → sample_alloc.refuses 2 = false) ∧
    ∃ h1 r, Get sample_alloc sample_heap sample_a 1 2 = .ok (h1, r) ∧ Valid h1 r ∧
      r.Size = 2 ∧
      (∀ i, i < 2 → subscript h1 r i = subscript sample_heap sample_a (1 + i)) ∧
      Valid h1 sample_a ∧ (∀ i, subscript h1 sample_a i = subscript sample_heap sample_a i) :=
  ⟨by decide, by decide, fun _ => rfl,
    C3_Get_returns_the_range sample_alloc sample_heap sample_a 1 2 (by decide) (by decide)
      (fun _ => rfl)⟩

/-- C4: on the vector `[1, 2, 3]` the call `Get(4, 1)` asks for elements past the end
(`4 + 1 > 3`), but the `size_t` difference `3 - 4` of the guard wraps to `2 ^ 64 - 1`, which
is not below `1`: no `out_of_range` is thrown and the cell `v[4]`, outside the buffer, is
read. -/
theorem C4_Get_guard_wraps_below_zero :
    4 + 1 > sample_a.n ∧ size_t_sub sample_a.n 4 = 18446744073709551615 ∧
    Get sample_alloc sample_heap sample_a 4 1 ≠ .throws .out_of_range sample_heap ∧
    Get sample_alloc sample_heap sample_a 4 1 = .undefined := by
  decide

/-- C5: on the vector `[1, 2, 3]` the call `Get(0, 1)` of the NumericalPDEs Vector
returns a vector with `Size() = 3`, not `1`: the temporary is built with
`n - first_element` elements, of which only the first `elements` are copied from the
source (the others hold whatever the allocator left there). -/
theorem C5_pde_Get_size_is_rest_of_vector :
    0 + 1 ≤ sample_a.n ∧
    ∃ h1 r, pde.Get sample_alloc sample_heap sample_a 0 1 = .ok (h1, r) ∧ r.Size = 3 ∧
      r.Size ≠ 1 ∧ elems h1 r = [1, 7, 7] :=
  ⟨by decide, [some [1, 2, 3], some [9], some [1, 7, 7]], ⟨3, ⟨some 2, 0⟩, ⟨some 2, 3⟩⟩,
    by decide, by decide, by decide, by decide⟩

/-- C6: `d.Set(first_element, s, elements)` with `first_element + elements <= n` and
`elements <= s.Size()`, for a source `s` that is another vector than `d`, returns with
the length of `d` still `n`, `d[first_element + i] = s[i]` for every `i < elements`,
every other element of `d` as it was, and `s` as it was. -/
theorem C6_Set_writes_only_the_range {T : Type} (h : Heap T) (d s : Vector)
    (first_element elements : Nat) (hd : Valid h d) (hs : Valid h s)
    (hsep : Separate s d)
    (hle : first_element + elements ≤ d.n) (hes : elements ≤ s.n) :
    ∃ h1, Set h d first_element s elements = .ok (h1, d) ∧ Valid h1 d ∧
      (∀ i, i < elements → subscript h1 d (first_element + i) = subscript h s i) ∧
      (∀ j, j < first_element ∨ first_element + elements ≤ j →
        subscript h1 d j = subscript h d j) ∧
      Valid h1 s ∧ (∀ i, subscript h1 s i = subscript h s i) := by
  have hn := hd.1
  have hguard : ¬ (size_t_add first_element elements > d.n ∨ elements > s.n) := by
    unfold size_t_add SIZE_T at *
    omega
  obtain ⟨h1, hcp, hv1, hkept, he1, _⟩ := std_copy_valid hs hd hsep 0 elements first_element
    (s.v.add elements) (by simp [Ptr.add, valid_off hs]) (by omega) hle
  have hcp' : std_copy h s.v (s.v.add elements) (d.v.add first_element) = some h1 := hcp
  unfold Set
  rw [if_neg hguard, hcp']
  have hld := valid_length hd
  have hls := valid_length hs
  refine ⟨h1, rfl, hv1, fun i hi => ?_, fun j hj => ?_, valid_of_block_eq hs hkept,
    subscript_of_block_eq hkept⟩
  · rw [subscript_eq hv1, subscript_eq hs, he1]
    rw [List.getElem?_append_left
        (by simp only [List.length_append, List.length_take, List.length_drop]; omega),
      List.getElem?_append_right (by simp only [List.length_take]; omega)]
    simp only [List.length_take, List.drop_zero]
    rw [List.getElem?_take_of_lt (by omega)]
    congr 1
    omega
  · rw [subscript_eq hv1, subscript_eq hd, he1]
    rcases hj with hj | hj
    · rw [List.append_assoc, List.getElem?_append_left (by simp; omega),
        List.getElem?_take_of_lt hj]
    · rw [List.getElem?_append_right (by simp; omega), List.getElem?_drop]
      congr 1
      simp
      omega

/-- C6, at the destination `[1, 2, 3]`, the source `[9]` and the range of one element
from position `2`. -/
theorem C6_Set_witness :
    Valid sample_heap sample_a ∧ Valid sample_heap sample_b ∧
    Separate sample_b sample_a ∧
    2 + 1 ≤ sample_a.n ∧ 1 ≤ sample_b.n ∧
    ∃ h1, Set sample_heap sample_a 2 sample_b 1 = .ok (h1, sample_a) ∧ Valid h1 sample_a ∧
      (∀ i, i < 1 → subscript h1 sample_a (2 + i) = subscript sample_heap sample_b i) ∧
      (∀ j, j < 2 ∨ 2 + 1 ≤ j → subscript h1 sample_a j = subscript sample_heap sample_a j) ∧
      Valid h1 sample_b ∧ (∀ i, subscript h1 sample_b i = subscript sample_heap sample_b i) :=
  ⟨by decide, by decide, by decide, by decide, by decide,
    C6_Set_writes_only_the_range sample_heap sample_a sample_b 2 1 (by decide) (by decide)
      (by decide) (by decide) (by decide)⟩

/-- C7: on the destination `[1, 2, 3]` and the source `[9]` the call
`Set(2 ^ 64 - 1, source, 1)` has `first_element + elements = 2 ^ 64 > 3`, but the
`size_t` sum of the guard wraps to `0`: no `out_of_range` is thrown and the copy writes
through `v + (2 ^ 64 - 1)`, outside the buffer. -/
theorem C7_Set_guard_sum_wraps :
    18446744073709551615 < SIZE_T ∧ 18446744073709551615 + 1 > sample_a.n ∧
    size_t_add 18446744073709551615 1 = 0 ∧
    (∀ s, Set sample_heap sample_a 18446744073709551615 sample_b 1 ≠
      .throws .out_of_range s) ∧
    Set sample_heap sample_a 18446744073709551615 sample_b 1 = .undefined := by
  refine ⟨by decide, by decide, by decide, fun s hs => ?_, by decide⟩
  have hu : Set sample_heap sample_a 18446744073709551615 sample_b 1 = .undefined := by decide
  rw [hu] at hs
  cases hs

/-- Copies are independent as long as the byte counts of the requests are `size_t`
values: for a vector `a` and another vector `b` in any prior state, copy construction
from `a` and the copy assignment `b = a` (the allocation they ask for granted) return a
vector with the `Size()` of `a` and the element of `a` at every index, in a buffer of its
own, with `a` as it was; assigning `a` to itself changes nothing; and an element write
(through `operator[]` or `At`), a `Fill` or a `resize` to a size whose byte count does not
wrap, applied to a vector `b` that does not share the buffer of `a`, leaves every element
of `a` as it was, whether the call returns or throws. The length of `a` is a data member
no call on `b` receives. -/
theorem copy_is_independent {T : Type} [Zero T] (al : Allocator T) (h : Heap T)
    (a b : Vector) (ha : Valid h a) (hb : Valid h b) (hsep : Separate a b)
    (hal : a.n ≠ 0 → al.refuses a.n = false) :
    (∃ h1 c, ctor_copy al h a = .ok (h1, c) ∧ Valid h1 c ∧ Valid h1 a ∧ Separate a c ∧
      c.Size = a.Size ∧ (∀ i, subscript h1 c i = subscript h a i) ∧
      (∀ i, subscript h1 a i = subscript h a i)) ∧
    (∃ h1 b1, assign_copy al h b (some a) = .ok (h1, b1) ∧ Valid h1 b1 ∧ Valid h1 a ∧
      Separate a b1 ∧ b1.Size = a.Size ∧ (∀ i, subscript h1 b1 i = subscript h a i) ∧
      (∀ i, subscript h1 a i = subscript h a i)) ∧
    assign_copy al h a none = .ok (h, a) ∧
    (∀ i x h1 b1, subscript_assign h b i x = .ok (h1, b1) →
      Valid h1 b1 ∧ Valid h1 a ∧ Separate a b1 ∧ ∀ j, subscript h1 a j = subscript h a j) ∧
    (∀ i x h1 b1,
      (At_assign h b i x = .ok (h1, b1) ∨ ∃ e, At_assign h b i x = .throws e (h1, b1)) →
      Valid h1 b1 ∧ Valid h1 a ∧ Separate a b1 ∧ ∀ j, subscript h1 a j = subscript h a j) ∧
    (∀ x h1 b1, Fill h b x = .ok (h1, b1) →
      Valid h1 b1 ∧ Valid h1 a ∧ Separate a b1 ∧ ∀ j, subscript h1 a j = subscript h a j) ∧
    (∀ size fill h1 b1, size < SIZE_T → size * al.sizeof < SIZE_T →
      (resize al h b size fill = .ok (h1, b1) ∨
        ∃ e, resize al h b size fill = .throws e (h1, b1)) →
      Valid h1 b1 ∧ Valid h1 a ∧ Separate a b1 ∧ ∀ j, subscript h1 a j = subscript h a j) := by
  have hwrite : ∀ (p : Ptr) (xs : List T) (h1 : Heap T), p.blk = b.v.blk →
      h.writeRange p xs = some h1 →
      Valid h1 b ∧ Valid h1 a ∧ Separate a b ∧ ∀ j, subscript h1 a j = subscript h a j := by
    intro p xs h1 hp hw
    have hfr : ∀ (q : Ptr) (cells : List T), q.blk ≠ b.v.blk → h.block q = some cells →
        Heap.block h1 q = some cells ∧ b.v.blk ≠ q.blk := by
      intro q cells hq hc
      refine ⟨?_, fun hcon => hq hcon.symm⟩
      rw [writeRange_frame hw q (by rw [hp]; exact hq)]; exact hc
    exact ⟨writeRange_keeps_valid hw hb, kept_of_frame ha hsep hfr⟩
  refine ⟨?_, ?_, rfl, ?_, ?_, ?_, ?_⟩
  · obtain ⟨h1, s1, halloc, hn1, hv1, _, hfresh, hframe⟩ :=
      AllocateMemory_ok al ⟨a.n, nullptr, nullptr⟩ a.n (Or.inl rfl) ha.1 hal
    have hn1 : s1.n = a.n := hn1
    have hs1 : ({ s1 with n := a.n } : Vector) = s1 := by
      cases s1; simp only [Vector.mk.injEq, and_true]; exact hn1.symm
    rw [hs1] at hv1
    have hk1 : Heap.block h1 a.v = h.block a.v := by
      refine block_kept ha ?_ hframe
      by_cases hbn : a.v.blk = none
      · exact Or.inl hbn
      · exact Or.inr hbn
    have hsep1 := sep_of_fresh ha hfresh
    obtain ⟨h2, hcp, hv2, hk2, he2, _⟩ :=
      copy_whole (valid_of_block_eq ha hk1) hv1 hsep1 hn1
    have hk := hk2.trans hk1
    unfold ctor_copy
    rw [halloc]
    dsimp only
    rw [hcp]
    refine ⟨h2, s1, rfl, hv2, valid_of_block_eq ha hk, hsep1, hn1, fun i => ?_,
      subscript_of_block_eq hk⟩
    rw [subscript_eq hv2, subscript_eq ha, he2, elems_of_block_eq hk1]
  · obtain ⟨h1, s1, hres, hv1, hn1, _, _, _, hfr⟩ :=
      resize_spec al a.n false hb ha.1 (fun _ h0 => hal h0)
    obtain ⟨hva1, hsep1, _⟩ := kept_of_frame ha hsep hfr
    have hk1 : Heap.block h1 a.v = h.block a.v :=
      block_kept ha hsep (fun q cells hq hc => (hfr q cells hq hc).1)
    obtain ⟨h2, hcp, hv2, hk2, he2, _⟩ := copy_whole hva1 hv1 hsep1 hn1
    have hk := hk2.trans hk1
    unfold assign_copy
    dsimp only
    rw [hres]
    dsimp only
    rw [hcp]
    refine ⟨h2, s1, rfl, hv2, valid_of_block_eq ha hk, hsep1, hn1, fun i => ?_,
      subscript_of_block_eq hk⟩
    rw [subscript_eq hv2, subscript_eq ha, he2, elems_of_block_eq hk1]
  · intro i x h1 b1 hres
    unfold subscript_assign Heap.write at hres
    split at hres
    · cases hres
    · rename_i h2 hw
      cases hres
      exact hwrite (b.v.add i) _ _ rfl hw
  · intro i x h1 b1 hres
    unfold At_assign Heap.write at hres
    split at hres
    · rcases hres with hres | ⟨e, hres⟩
      · cases hres
      · cases hres
        exact ⟨hb, ha, hsep, fun _ => rfl⟩
    · split at hres
      · rcases hres with hres | ⟨e, hres⟩ <;> cases hres
      · rename_i h2 hw
        rcases hres with hres | ⟨e, hres⟩
        · cases hres
          exact hwrite (b.v.add i) _ _ rfl hw
        · cases hres
  · intro x h1 b1 hres
    unfold Fill std_fill at hres
    split at hres
    · cases hres
    · rename_i h2 hw
      cases hres
      exact hwrite _ _ _ rfl hw
  · intro size fill h1 b1 hsz hnw hres
    rcases resize_cases al size fill hb hsz hnw with hthrow | ⟨h2, s2, hok, hv2, hfr⟩
    · rw [hthrow] at hres
      rcases hres with hres | ⟨e, hres⟩
      · cases hres
      · cases hres
        exact ⟨hb, ha, hsep, fun _ => rfl⟩
    · rw [hok] at hres
      rcases hres with hres | ⟨e, hres⟩
      · cases hres
        exact ⟨hv2, kept_of_frame ha hsep hfr⟩
      · cases hres

/-- C8: a `resize` applied to a copy asks `std::realloc` for `size * sizeof(T)` bytes, a
`size_t` product that wraps. The copy `b` of `a = [1, 2, 3]` (4-byte elements) is equal to
`a` and has a buffer of its own, but `b.resize(2^62 + 1)` asks for `4` bytes, gets a
block of one element and writes `2^62 - 2` zeros from `v + 3` on, outside it: undefined
behaviour, of which nothing follows for `a`. Copy assignment, an element write, `Fill`
and a `resize` with a byte count that is a `size_t` leave `a = [1, 2, 3]` as claimed. -/
theorem C8_resize_of_copy_overruns_when_byte_count_wraps :
    Valid sample_heap sample_a ∧ elems sample_heap sample_a = [1, 2, 3] ∧
    ctor_copy sample_alloc sample_heap sample_a =
      .ok ([some [1, 2, 3], some [9], some [1, 2, 3]], ⟨3, ⟨some 2, 0⟩, ⟨some 2, 3⟩⟩) ∧
    Valid ([some [1, 2, 3], some [9], some [1, 2, 3]] : Heap Int)
      ⟨3, ⟨some 2, 0⟩, ⟨some 2, 3⟩⟩ ∧
    Valid ([some [1, 2, 3], some [9], some [1, 2, 3]] : Heap Int) sample_a ∧
    Separate sample_a ⟨3, ⟨some 2, 0⟩, ⟨some 2, 3⟩⟩ ∧
    operator_eq ([some [1, 2, 3], some [9], some [1, 2, 3]] : Heap Int)
      ⟨3, ⟨some 2, 0⟩, ⟨some 2, 3⟩⟩ sample_a = some true ∧
    sample_alloc.sizeof = 4 ∧ (4611686018427387905 : Nat) = 2 ^ 62 + 1 ∧
    4611686018427387905 < SIZE_T ∧
    size_t_mul 4611686018427387905 sample_alloc.sizeof = 4 ∧
    AllocateMemory sample_alloc [some [1, 2, 3], some [9], some [1, 2, 3]]
        ⟨3, ⟨some 2, 0⟩, ⟨some 2, 3⟩⟩ 4611686018427387905 =
      .ok ([some [1, 2, 3], some [9], none, some [1]],
        ⟨3, ⟨some 3, 0⟩, ⟨some 3, 4611686018427387905⟩⟩) ∧
    resize sample_alloc [some [1, 2, 3], some [9], some [1, 2, 3]]
        ⟨3, ⟨some 2, 0⟩, ⟨some 2, 3⟩⟩ 4611686018427387905 true = .undefined ∧
    assign_copy sample_alloc sample_heap sample_b (some sample_a) =
      .ok ([some [1, 2, 3], none, some [1, 2, 3]], ⟨3, ⟨some 2, 0⟩, ⟨some 2, 3⟩⟩) ∧
    subscript_assign ([some [1, 2, 3], some [9], some [1, 2, 3]] : Heap Int)
        ⟨3, ⟨some 2, 0⟩, ⟨some 2, 3⟩⟩ 0 8 =
      .ok ([some [1, 2, 3], some [9], some [8, 2, 3]], ⟨3, ⟨some 2, 0⟩, ⟨some 2, 3⟩⟩) ∧
    Fill ([some [1, 2, 3], some [9], some [1, 2, 3]] : Heap Int)
        ⟨3, ⟨some 2, 0⟩, ⟨some 2, 3⟩⟩ 0 =
      .ok ([some [1, 2, 3], some [9], some [0, 0, 0]], ⟨3, ⟨some 2, 0⟩, ⟨some 2, 3⟩⟩) ∧
    resize sample_alloc [some [1, 2, 3], some [9], some [1, 2, 3]]
        ⟨3, ⟨some 2, 0⟩, ⟨some 2, 3⟩⟩ 5 true =
      .ok ([some [1, 2, 3], some [9], none, some [1, 2, 3, 0, 0]],
        ⟨5, ⟨some 3, 0⟩, ⟨some 3, 5⟩⟩) ∧
    elems ([some [1, 2, 3], some [9], some [8, 2, 3]] : Heap Int) sample_a = [1, 2, 3] ∧
    elems ([some [1, 2, 3], some [9], some [0, 0, 0]] : Heap Int) sample_a = [1, 2, 3] ∧
    elems ([some [1, 2, 3], some [9], none, some [1, 2, 3, 0, 0]] : Heap Int) sample_a =
      [1, 2, 3] :=
  ⟨by decide, by decide, by decide, by decide, by decide, by decide, by decide, by decide,
    by decide, by decide, by decide, by decide,
    resize_undefined_of_short_block sample_alloc (by decide)
      (show AllocateMemory sample_alloc [some [1, 2, 3], some [9], some [1, 2, 3]]
          ⟨3, ⟨some 2, 0⟩, ⟨some 2, 3⟩⟩ 4611686018427387905 =
        .ok ([some [1, 2, 3], some [9], none, some [1]],
          ⟨3, ⟨some 3, 0⟩, ⟨some 3, 4611686018427387905⟩⟩) by decide)
      (by decide) (show Heap.block _ _ = some [1] by decide) (by decide),
    by decide, by decide, by decide, by decide, by decide, by decide, by decide⟩

/-- C9: after the move construction `b(Move(a))` and after the move assignment
`b = Move(a)` to another vector `b`, the destination has the length and the elements `a`
had, and `a` has `Size() = 0`, `IsEmpty()` true and no buffer. -/
theorem C9_move_transfers_buffer {T : Type} (h : Heap T) (a b : Vector) (ha : Valid h a)
    (hb : Valid h b) (hsep : Separate a b) :
    ((ctor_move a).1.Size = a.Size ∧ Valid h (ctor_move a).1 ∧
      (∀ i, subscript h (ctor_move a).1 i = subscript h a i) ∧
      (ctor_move a).2.Size = 0 ∧ (ctor_move a).2.IsEmpty = true ∧
      (ctor_move a).2.v = nullptr ∧ (ctor_move a).2.it_end = nullptr ∧
      Valid h (ctor_move a).2) ∧
    (∃ h1 b1 a1, assign_move h b (some a) = some (h1, b1, some a1) ∧
      b1.Size = a.Size ∧ Valid h1 b1 ∧ (∀ i, subscript h1 b1 i = subscript h a i) ∧
      a1.Size = 0 ∧ a1.IsEmpty = true ∧ a1.v = nullptr ∧ a1.it_end = nullptr ∧
      Valid h1 a1) := by
  have hempty : ∀ (g : Heap T), Valid g ({ a with n := 0, v := nullptr, it_end := nullptr }) :=
    fun g => ⟨by decide, fun _ => ⟨rfl, rfl⟩, fun hn => absurd rfl hn⟩
  constructor
  · refine ⟨rfl, ?_, fun _ => rfl, rfl, rfl, rfl, rfl, hempty h⟩
    cases a; exact ha
  · obtain ⟨h1, hf⟩ := free_freeable (valid_freeable hb)
    obtain ⟨_, hfr⟩ := free_spec hf
    have hk : Heap.block h1 a.v = h.block a.v :=
      block_kept ha hsep (fun q cells hq hc => by rw [hfr q hq]; exact hc)
    refine ⟨h1, { b with v := a.v, it_end := a.it_end, n := a.n },
      { a with v := nullptr, it_end := nullptr, n := 0 }, ?_, rfl, ?_, ?_, rfl, rfl, rfl, rfl, ?_⟩
    · unfold assign_move
      rw [hf]
    · have := valid_of_block_eq ha hk
      cases a; exact this
    · intro i
      exact subscript_of_block_eq (s := a) hk i
    · cases a; exact hempty h1

/-- C9, at `[9] = Move([1, 2, 3])`. -/
theorem C9_move_witness :
    Valid sample_heap sample_a ∧ Valid sample_heap sample_b ∧ Separate sample_a sample_b ∧
    ∃ h1 b1 a1, assign_move sample_heap sample_b (some sample_a) = some (h1, b1, some a1) ∧
      b1.Size = sample_a.Size ∧ Valid h1 b1 ∧
      (∀ i, subscript h1 b1 i = subscript sample_heap sample_a i) ∧
      a1.Size = 0 ∧ a1.IsEmpty = true ∧ a1.v = nullptr ∧ a1.it_end = nullptr ∧ Valid h1 a1 :=
  ⟨by decide, by decide, by decide,
    (C9_move_transfers_buffer sample_heap sample_a sample_b (by decide) (by decide)
      (by decide)).2⟩

/-- What the constructor `Vector(size, value)` builds when the request it makes (if any)
is granted, the byte count being a `size_t`: a vector with `Size() = size` and
`At(i) = value` for every `i < size`, while `At(i)` throws `out_of_range` for every
`i >= size`. -/
theorem ctor_fill_holds_value {T : Type} (al : Allocator T) (h : Heap T) (size : Nat)
    (value : T) (hs : size < SIZE_T) (ha : size ≠ 0 → al.refuses size = false) :
    ∃ h1 r, ctor_fill al h size value = .ok (h1, r) ∧ Valid h1 r ∧ r.Size = size ∧
      (∀ i, i < size → At h1 r i = .ok value) ∧
      (∀ i, size ≤ i → At h1 r i = .throws .out_of_range h1) := by
  obtain ⟨h1, s1, hal, hn1, hv1, _, _, _⟩ :=
    AllocateMemory_ok al ⟨size, nullptr, nullptr⟩ size (Or.inl rfl) hs ha
  have hn1 : s1.n = size := hn1
  have hs1 : ({ s1 with n := size } : Vector) = s1 := by
    cases s1; simp only [Vector.mk.injEq, and_true]; exact hn1.symm
  rw [hs1] at hv1
  obtain ⟨h2, hw, hv2, he2, _⟩ := writeRange_valid hv1 0 (List.replicate size value)
    (by simp [hn1])
  have hfill : std_fill h1 s1.begin s1.end_ value = some h2 := by
    unfold std_fill begin end_
    rw [valid_end_off hv1, valid_off hv1, hn1]
    exact hw
  unfold ctor_fill Fill
  rw [hal]
  dsimp only
  rw [hfill]
  have hl1 := valid_length hv1
  have he2' : elems h2 s1 = List.replicate size value := by
    rw [he2]
    simp only [List.take_zero, List.nil_append, List.length_replicate, Nat.zero_add]
    rw [List.drop_of_length_le (by omega), List.append_nil]
  refine ⟨h2, s1, rfl, hv2, hn1, fun i hi => ?_, fun i hi => ?_⟩
  · apply At_of_valid hv2
    rw [he2', List.getElem?_replicate_of_lt hi]
  · exact At_out_of_range h2 s1 (by rw [hn1]; exact hi)

/-- C10: the constructor `Vector(size, value)` asks `std::realloc` for
`size * sizeof(T)` bytes, a `size_t` product that wraps. For 4-byte elements
`Vector(2^62, 5)` asks for `0` bytes; a library that answers a request of zero bytes with
a block gives an empty one, `it_end = v + 2^62` is set on it, and `Fill` writes from `v`
to `it_end`, outside the block: undefined behaviour, where the claim has a vector with
`At(i) = 5` for every `i < 2^62`. The object `Vector(2^62)` that the same allocation
leaves has `Size() = 2^62` and no cell, so that `At(0)` passes the range check and reads
outside the block. A library that declines the request of zero bytes makes the
constructor throw `bad_alloc`. With a byte count that is a `size_t`, `Vector(2, 5)` is
as claimed. -/
theorem C10_ctor_fill_overruns_when_byte_count_wraps :
    sample_alloc.sizeof = 4 ∧ (4611686018427387904 : Nat) = 2 ^ 62 ∧
    4611686018427387904 < SIZE_T ∧
    size_t_mul 4611686018427387904 sample_alloc.sizeof = 0 ∧
    sample_alloc.declines 0 = false ∧
    ctor_size sample_alloc sample_heap 4611686018427387904 =
      .ok ([some [1, 2, 3], some [9], some []],
        ⟨4611686018427387904, ⟨some 2, 0⟩, ⟨some 2, 4611686018427387904⟩⟩) ∧
    Size ⟨4611686018427387904, ⟨some 2, 0⟩, ⟨some 2, 4611686018427387904⟩⟩ =
      4611686018427387904 ∧
    elems ([some [1, 2, 3], some [9], some []] : Heap Int)
      ⟨4611686018427387904, ⟨some 2, 0⟩, ⟨some 2, 4611686018427387904⟩⟩ = [] ∧
    At ([some [1, 2, 3], some [9], some []] : Heap Int)
      ⟨4611686018427387904, ⟨some 2, 0⟩, ⟨some 2, 4611686018427387904⟩⟩ 0 = .undefined ∧
    ctor_fill sample_alloc sample_heap 4611686018427387904 5 = .undefined ∧
    zero_alloc.declines 0 = true ∧
    ctor_fill zero_alloc sample_heap 4611686018427387904 5 =
      .throws .bad_alloc sample_heap ∧
    ctor_fill sample_alloc sample_heap 2 5 =
      .ok ([some [1, 2, 3], some [9], some [5, 5]], ⟨2, ⟨some 2, 0⟩, ⟨some 2, 2⟩⟩) ∧
    At ([some [1, 2, 3], some [9], some [5, 5]] : Heap Int) ⟨2, ⟨some 2, 0⟩, ⟨some 2, 2⟩⟩ 0 =
      .ok 5 ∧
    At ([some [1, 2, 3], some [9], some [5, 5]] : Heap Int) ⟨2, ⟨some 2, 0⟩, ⟨some 2, 2⟩⟩ 1 =
      .ok 5 ∧
    At ([some [1, 2, 3], some [9], some [5, 5]] : Heap Int) ⟨2, ⟨some 2, 0⟩, ⟨some 2, 2⟩⟩ 2 =
      .throws .out_of_range [some [1, 2, 3], some [9], some [5, 5]] := by
  have hfill : ctor_fill sample_alloc sample_heap 4611686018427387904 5 = .undefined :=
    ctor_fill_undefined_of_short_block sample_alloc 5
      (show AllocateMemory sample_alloc sample_heap
          ⟨4611686018427387904, nullptr, nullptr⟩ 4611686018427387904 =
        .ok ([some [1, 2, 3], some [9], some []],
          ⟨4611686018427387904, ⟨some 2, 0⟩, ⟨some 2, 4611686018427387904⟩⟩) by decide)
      (show Heap.block _ _ = some [] by decide) (by decide)
  exact ⟨by decide, by decide, by decide, by decide, by decide, by decide, by decide,
    by decide, by decide, hfill, by decide, by decide, by decide, by decide, by decide,
    by decide⟩

end Vector
end cda

/-! ## Loops and operators: lemmas -/

namespace cda
namespace Vector
section LoopLemmas
variable {T : Type}

theorem iterate_inv {σ : Type} (body : Nat → σ → Option σ) (Inv : Nat → σ → Prop)
    (count : Nat) :
    ∀ (k : Nat) (s : σ), Inv k s →
      (∀ j s1, k ≤ j → j < k + count → Inv j s1 → ∃ s2, body j s1 = some s2 ∧ Inv (j + 1) s2) →
      ∃ s1, iterate body k count s = some s1 ∧ Inv (k + count) s1 := by
  induction count with
  | zero => intro k s h0 _; exact ⟨s, rfl, h0⟩
  | succ c ih =>
    intro k s h0 hstep
    obtain ⟨s2, hb, hi⟩ := hstep k s (Nat.le_refl k) (by omega) h0
    obtain ⟨s3, hit, hi3⟩ := ih (k + 1) s2 hi
      (fun j s1 hj1 hj2 hinv => hstep j s1 (by omega) (by omega) hinv)
    refine ⟨s3, ?_, ?_⟩
    · simp only [iterate, hb]; exact hit
    · have : k + 1 + c = k + (c + 1) := by omega
      rw [← this]; exact hi3

theorem steps_valid {h : Heap T} {s : Vector} (hv : Valid h s) :
    steps s.begin s.end_ = some s.n := by
  unfold steps begin end_
  by_cases hn : s.n = 0
  · obtain ⟨h1, h2, _⟩ := valid_null hv hn
    rw [h1, h2, hn]; rfl
  · obtain ⟨_, _, h3⟩ := hv
    obtain ⟨_, ho, he, _⟩ := h3 hn
    rw [he]
    simp [Ptr.add, ho]

theorem write_valid {h : Heap T} {s : Vector} (hv : Valid h s) (j : Nat) (x : T)
    (hj : j < s.n) :
    ∃ h1, h.write (s.v.add j) x = some h1 ∧ Valid h1 s ∧
      elems h1 s = (elems h s).set j x ∧
      (∀ q : Ptr, q.blk ≠ s.v.blk → Heap.block h1 q = h.block q) := by
  obtain ⟨h1, hw, hv1, he, hfr⟩ := writeRange_valid hv j [x] (by simp; omega)
  refine ⟨h1, hw, hv1, ?_, hfr⟩
  rw [he, List.set_eq_take_append_cons_drop, if_pos (by rw [valid_length hv]; exact hj)]
  simp

/-- A loop that in iteration `j` stores the `j`-th element of `Z` in `o[j]` leaves `o`
holding `Z`, and every other allocation as it was. -/
theorem write_loop_spec {h : Heap T} {o : Vector} (ho : Valid h o)
    (body : Nat → Heap T → Option (Heap T)) (Z : List T) (hZ : Z.length = o.n)
    (hbody : ∀ (j : Nat) (g : Heap T) (z : T), j < o.n → Valid g o →
      (∀ q : Ptr, q.blk ≠ o.v.blk → Heap.block g q = h.block q) →
      (∀ i, (elems g o)[i]? = if i < j then Z[i]? else (elems h o)[i]?) →
      Z[j]? = some z → body j g = g.write (o.v.add j) z) :
    ∃ h1, iterate body 0 o.n h = some h1 ∧ Valid h1 o ∧ elems h1 o = Z ∧
      (∀ q : Ptr, q.blk ≠ o.v.blk → Heap.block h1 q = h.block q) := by
  obtain ⟨h1, hit, hv1, hfr, hel⟩ := iterate_inv body
    (fun j g => Valid g o ∧ (∀ q : Ptr, q.blk ≠ o.v.blk → Heap.block g q = h.block q) ∧
      (∀ i, (elems g o)[i]? = if i < j then Z[i]? else (elems h o)[i]?))
    o.n 0 h ⟨ho, fun _ _ => rfl, fun i => by simp⟩
    (by
      intro j g _ hj ⟨hvg, hfg, heg⟩
      have hjn : j < o.n := by omega
      have hjZ : j < Z.length := by omega
      have hz : Z[j]? = some Z[j] := List.getElem?_eq_getElem hjZ
      obtain ⟨g1, hw, hvg1, heg1, hfg1⟩ := write_valid hvg j Z[j] hjn
      refine ⟨g1, ?_, hvg1, fun q hq => (hfg1 q hq).trans (hfg q hq), fun i => ?_⟩
      · rw [hbody j g _ hjn hvg hfg heg hz]; exact hw
      · rw [heg1, List.getElem?_set]
        have hlg := valid_length hvg
        by_cases hij : j = i
        · subst hij
          simp [hlg, hjn, hz]
        · rw [if_neg hij, heg i]
          by_cases hlt : i < j
          · rw [if_pos hlt, if_pos (by omega)]
          · rw [if_neg hlt, if_neg (by omega)])
  refine ⟨h1, hit, hv1, ?_, hfr⟩
  apply List.ext_getElem?
  intro i
  rw [hel i]
  simp only [Nat.zero_add]
  by_cases hi : i < o.n
  · rw [if_pos hi]
  · rw [if_neg hi, List.getElem?_eq_none (by rw [valid_length ho]; omega),
      List.getElem?_eq_none (by omega)]

/-- What an iteration reads from an operand `x` while the loop fills `o`: the element
`x` had when the loop started. -/
theorem read_in_loop {h g : Heap T} {x o : Vector} (Z : List T) (hx : Valid h x)
    (hvg : Valid g o) (hn : x.n = o.n)
    (hfg : ∀ q : Ptr, q.blk ≠ o.v.blk → Heap.block g q = h.block q)
    (j : Nat) (heg : ∀ i, (elems g o)[i]? = if i < j then Z[i]? else (elems h o)[i]?)
    (hs : (x.v.blk = none ∨ x.v.blk ≠ o.v.blk) ∨ x = o) :
    g.read (x.begin.add j) = (elems h x)[j]? := by
  rcases hs with hs | hs
  · have hk : Heap.block g x.v = h.block x.v := block_kept_of_write hx hs hfg
    have := subscript_eq (valid_of_block_eq hx hk) j
    rw [elems_of_block_eq hk] at this
    exact this
  · subst hs
    have := subscript_eq hvg j
    rw [heg j, if_neg (Nat.lt_irrefl j)] at this
    exact this

theorem binary_loop_spec (f : T → T → T) {h : Heap T} {a b o : Vector} (ha : Valid h a)
    (hb : Valid h b) (ho : Valid h o) (hab : a.n = b.n) (hao : a.n = o.n)
    (hsa : (a.v.blk = none ∨ a.v.blk ≠ o.v.blk) ∨ a = o)
    (hsb : (b.v.blk = none ∨ b.v.blk ≠ o.v.blk) ∨ b = o) :
    ∃ h1, iterate (binary_body f a.begin b.begin o.begin) 0 a.n h = some h1 ∧ Valid h1 o ∧
      elems h1 o = List.zipWith f (elems h a) (elems h b) ∧
      (∀ q : Ptr, q.blk ≠ o.v.blk → Heap.block h1 q = h.block q) := by
  have hla := valid_length ha
  have hlb := valid_length hb
  rw [hao]
  refine write_loop_spec ho _ _ (by simp [hla, hlb]; omega) ?_
  intro j g z hj hvg hfg heg hz
  unfold binary_body
  rw [read_in_loop _ ha hvg hao hfg j heg hsa, read_in_loop _ hb hvg (by omega) hfg j heg hsb]
  have hja : j < (elems h a).length := by omega
  have hjb : j < (elems h b).length := by omega
  rw [List.getElem?_eq_getElem hja, List.getElem?_eq_getElem hjb]
  simp only [List.getElem?_zipWith, List.getElem?_eq_getElem hja,
    List.getElem?_eq_getElem hjb] at hz
  simp only [Option.some.injEq] at hz
  show g.write (o.begin.add j) _ = _
  rw [hz]
  rfl

theorem unary_loop_spec (f : T → T) {h : Heap T} {a o : Vector} (ha : Valid h a)
    (ho : Valid h o) (hao : a.n = o.n)
    (hsa : (a.v.blk = none ∨ a.v.blk ≠ o.v.blk) ∨ a = o) :
    ∃ h1, iterate (unary_body f a.begin o.begin) 0 a.n h = some h1 ∧ Valid h1 o ∧
      elems h1 o = List.map f (elems h a) ∧
      (∀ q : Ptr, q.blk ≠ o.v.blk → Heap.block h1 q = h.block q) := by
  have hla := valid_length ha
  rw [hao]
  refine write_loop_spec ho _ _ (by simp [hla]; omega) ?_
  intro j g z hj hvg hfg heg hz
  unfold unary_body
  rw [read_in_loop _ ha hvg hao hfg j heg hsa]
  have hja : j < (elems h a).length := by omega
  rw [List.getElem?_eq_getElem hja]
  simp only [List.getElem?_map, List.getElem?_eq_getElem hja, Option.map_some',
    Option.some.injEq] at hz
  show g.write (o.begin.add j) _ = _
  rw [hz]
  rfl

end LoopLemmas
end Vector
end cda

namespace cda
namespace Vector
section OperatorLemmas
variable {T : Type}

theorem ctor_size_ok (al : Allocator T) (h : Heap T) (size : Nat) (hs : size < SIZE_T)
    (hr : size ≠ 0 → al.refuses size = false) :
    ∃ h1 r, ctor_size al h size = .ok (h1, r) ∧ Valid h1 r ∧ r.n = size ∧
      (∀ s : Vector, Valid h s →
        Heap.block h1 s.v = h.block s.v ∧ (s.v.blk = none ∨ s.v.blk ≠ r.v.blk)) := by
  obtain ⟨h1, s1, hal, hn1, hv1, _, hfresh, hframe⟩ :=
    AllocateMemory_ok al ⟨size, nullptr, nullptr⟩ size (Or.inl rfl) hs hr
  have hn1 : s1.n = size := hn1
  have hs1 : ({ s1 with n := size } : Vector) = s1 := by
    cases s1; simp only [Vector.mk.injEq, and_true]; exact hn1.symm
  rw [hs1] at hv1
  refine ⟨h1, s1, ?_, hv1, hn1, fun s hvs => ⟨?_, sep_of_fresh hvs hfresh⟩⟩
  · unfold ctor_size
    rw [hal]
  · refine block_kept hvs ?_ hframe
    by_cases hb : s.v.blk = none
    · exact Or.inl hb
    · exact Or.inr hb

theorem ctor_size_not_logic_error (al : Allocator T) (h : Heap T) (size : Nat)
    (s : Heap T) : ctor_size al h size ≠ .throws .logic_error s := by
  unfold ctor_size AllocateMemory
  intro hc
  split at hc
  · cases hc
  · rename_i e s1 heq
    cases hc
    split at heq
    · split at heq <;> cases heq
    · split at heq
      · cases heq
      · split at heq <;> cases heq
  · cases hc

theorem binary_new_spec (f : T → T → T) (al : Allocator T) {h : Heap T} {a b : Vector}
    (ha : Valid h a) (hb : Valid h b) (hab : a.n = b.n)
    (hr : a.n ≠ 0 → al.refuses a.n = false) :
    ∃ h2 r, binary_new f al h a b = .ok (h2, r) ∧ Valid h2 r ∧ r.n = a.n ∧
      elems h2 r = List.zipWith f (elems h a) (elems h b) ∧
      (∀ s : Vector, Valid h s →
        Heap.block h2 s.v = h.block s.v ∧ (s.v.blk = none ∨ s.v.blk ≠ r.v.blk)) := by
  obtain ⟨h1, r, hc, hv1, hn1, hkept⟩ := ctor_size_ok al h a.n ha.1 hr
  have ha1 := valid_of_block_eq ha (hkept a ha).1
  have hb1 := valid_of_block_eq hb (hkept b hb).1
  obtain ⟨h2, hit, hv2, he2, hfr⟩ := binary_loop_spec f ha1 hb1 hv1 hab hn1.symm
    (Or.inl (hkept a ha).2) (Or.inl (hkept b hb).2)
  refine ⟨h2, r, ?_, hv2, hn1, ?_, fun s hvs => ⟨?_, (hkept s hvs).2⟩⟩
  · unfold binary_new
    rw [if_neg (by simpa using hab), hc]
    dsimp only
    rw [steps_valid ha]
    dsimp only
    rw [hit]
  · rw [he2, elems_of_block_eq (hkept a ha).1, elems_of_block_eq (hkept b hb).1]
  · have hk1 := (hkept s hvs).1
    exact (block_kept_of_write (valid_of_block_eq hvs hk1) (hkept s hvs).2 hfr).trans hk1

theorem binary_assign_spec (f : T → T → T) {h : Heap T} {a b : Vector}
    (ha : Valid h a) (hb : Valid h b) (hab : a.n = b.n)
    (hsb : (b.v.blk = none ∨ b.v.blk ≠ a.v.blk) ∨ b = a) :
    ∃ h1, binary_assign f h a b = .ok (h1, a) ∧ Valid h1 a ∧
      elems h1 a = List.zipWith f (elems h a) (elems h b) ∧
      (∀ q : Ptr, q.blk ≠ a.v.blk → Heap.block h1 q = h.block q) := by
  obtain ⟨h1, hit, hv1, he1, hfr⟩ := binary_loop_spec f ha hb ha hab rfl (Or.inr rfl) hsb
  refine ⟨h1, ?_, hv1, he1, hfr⟩
  unfold binary_assign
  rw [if_neg (by simpa using hab), steps_valid ha]
  dsimp only
  rw [hit]

theorem unary_new_spec (f : T → T) (al : Allocator T) {h : Heap T} {a : Vector}
    (ha : Valid h a) (hr : a.n ≠ 0 → al.refuses a.n = false) :
    ∃ h2 r, unary_new f al h a = .ok (h2, r) ∧ Valid h2 r ∧ r.n = a.n ∧
      elems h2 r = List.map f (elems h a) ∧
      (∀ s : Vector, Valid h s →
        Heap.block h2 s.v = h.block s.v ∧ (s.v.blk = none ∨ s.v.blk ≠ r.v.blk)) := by
  obtain ⟨h1, r, hc, hv1, hn1, hkept⟩ := ctor_size_ok al h a.n ha.1 hr
  have ha1 := valid_of_block_eq ha (hkept a ha).1
  obtain ⟨h2, hit, hv2, he2, hfr⟩ := unary_loop_spec f ha1 hv1 hn1.symm
    (Or.inl (hkept a ha).2)
  refine ⟨h2, r, ?_, hv2, hn1, ?_, fun s hvs => ⟨?_, (hkept s hvs).2⟩⟩
  · unfold unary_new
    rw [hc]
    dsimp only
    rw [steps_valid ha]
    dsimp only
    rw [hit]
  · rw [he2, elems_of_block_eq (hkept a ha).1]
  · have hk1 := (hkept s hvs).1
    exact (block_kept_of_write (valid_of_block_eq hvs hk1) (hkept s hvs).2 hfr).trans hk1

theorem operator_dot_spec [Zero T] [Add T] [Mul T] {h : Heap T} {a b : Vector}
    (ha : Valid h a) (hb : Valid h b) (hab : a.n = b.n) :
    operator_dot h a b =
      .ok ((List.zipWith (fun x y => x * y) (elems h a) (elems h b)).foldl
        (fun acc p => acc + p) 0) := by
  have hla := valid_length ha
  have hlb := valid_length hb
  obtain ⟨v, hit, hv⟩ := iterate_inv (dot_body h a.begin b.begin)
    (fun j value => value = ((List.zipWith (fun x y => x * y) (elems h a) (elems h b)).take
      j).foldl (fun acc p => acc + p) 0) a.n 0 (0 : T) (by simp)
    (by
      intro j value _ hj hinv
      have hja : j < (elems h a).length := by omega
      have hjb : j < (elems h b).length := by omega
      have hra : h.read (a.begin.add j) = (elems h a)[j]? := subscript_eq ha j
      have hrb : h.read (b.begin.add j) = (elems h b)[j]? := subscript_eq hb j
      refine ⟨value + (elems h a)[j] * (elems h b)[j], ?_, ?_⟩
      · unfold dot_body
        rw [hra, hrb, List.getElem?_eq_getElem hja, List.getElem?_eq_getElem hjb]
      · show value + (elems h a)[j] * (elems h b)[j] = List.foldl (fun acc p => acc + p) 0
            (List.take (j + 1) (List.zipWith (fun x y => x * y) (elems h a) (elems h b)))
        rw [List.take_succ, List.foldl_append, ← hinv]
        simp [List.getElem?_zipWith, List.getElem?_eq_getElem hja,
          List.getElem?_eq_getElem hjb])
  unfold operator_dot
  rw [if_neg (by simpa using hab), steps_valid ha]
  dsimp only
  rw [hit, hv]
  simp only [Nat.zero_add]
  rw [List.take_of_length_le (by simp only [List.length_zipWith, hla, hlb]; omega)]

theorem equal_loop_spec [DecidableEq T] {h : Heap T} {a b : Vector} (ha : Valid h a)
    (hb : Valid h b) (hab : a.n = b.n) (c : Nat) :
    ∀ k, k + c = a.n → equal_loop h a.begin b.begin k c =
      some (decide ((elems h a).drop k = (elems h b).drop k)) := by
  have hla := valid_length ha
  have hlb := valid_length hb
  induction c with
  | zero =>
    intro k hk
    rw [List.drop_of_length_le (by omega), List.drop_of_length_le (by omega)]
    simp [equal_loop]
  | succ c ih =>
    intro k hk
    have hja : k < (elems h a).length := by omega
    have hjb : k < (elems h b).length := by omega
    have hra : h.read (a.begin.add k) = (elems h a)[k]? := subscript_eq ha k
    have hrb : h.read (b.begin.add k) = (elems h b)[k]? := subscript_eq hb k
    unfold equal_loop
    rw [hra, hrb, List.getElem?_eq_getElem hja, List.getElem?_eq_getElem hjb]
    dsimp only
    have hda : (elems h a).drop k = (elems h a)[k] :: (elems h a).drop (k + 1) :=
      List.drop_eq_getElem_cons hja
    have hdb : (elems h b).drop k = (elems h b)[k] :: (elems h b).drop (k + 1) :=
      List.drop_eq_getElem_cons hjb
    rw [hda, hdb]
    by_cases hxy : (elems h a)[k] = (elems h b)[k]
    · rw [if_neg (by simpa using hxy), ih (k + 1) (by omega)]
      simp only [List.cons.injEq, hxy, true_and]
    · rw [if_pos hxy]
      simp only [List.cons.injEq, hxy, false_and, decide_False]

theorem operator_eq_spec [DecidableEq T] {h : Heap T} {a b : Vector} (ha : Valid h a)
    (hb : Valid h b) : operator_eq h a b = some (decide (elems h a = elems h b)) := by
  unfold operator_eq
  by_cases hab : a.n = b.n
  · rw [if_neg (by simpa using hab), steps_valid ha]
    dsimp only
    rw [equal_loop_spec ha hb hab a.n 0 (by omega)]
    simp
  · rw [if_pos hab]
    have : elems h a ≠ elems h b := by
      intro hc
      apply hab
      rw [← valid_length ha, ← valid_length hb, hc]
    simp [this]

end OperatorLemmas
end Vector
end cda

/-! ## The claims on the operators -/

namespace cda
namespace Vector

theorem binary_new_logic_error_iff {T : Type} (f : T → T → T) (al : Allocator T) (h : Heap T)
    (a b : Vector) (s : Heap T) :
    binary_new f al h a b = .throws .logic_error s ↔ (a.n ≠ b.n ∧ s = h) := by
  unfold binary_new
  by_cases hab : a.n = b.n
  · rw [if_neg (by simpa using hab)]
    constructor
    · intro hc
      exfalso
      split at hc
      · split at hc
        · cases hc
        · split at hc <;> cases hc
      · rename_i e s1 heq
        cases hc
        exact ctor_size_not_logic_error al h a.n s heq
      · cases hc
    · intro hc; exact absurd hab hc.1
  · rw [if_pos hab]
    constructor
    · intro hc; cases hc; exact ⟨hab, rfl⟩
    · intro hc; rw [hc.2]

theorem binary_assign_logic_error_iff {T : Type} (f : T → T → T) (h : Heap T)
    (a b : Vector) (s : Heap T × Vector) :
    binary_assign f h a b = .throws .logic_error s ↔ (a.n ≠ b.n ∧ s = (h, a)) := by
  unfold binary_assign
  by_cases hab : a.n = b.n
  · rw [if_neg (by simpa using hab)]
    constructor
    · intro hc
      exfalso
      split at hc
      · cases hc
      · split at hc <;> cases hc
    · intro hc; exact absurd hab hc.1
  · rw [if_pos hab]
    constructor
    · intro hc; cases hc; exact ⟨hab, rfl⟩
    · intro hc; rw [hc.2]

/-- C11: each of `operator+`, `operator-`, `operator+=`, `operator-=` and the dot product
`operator*(const Vector &)` throws `logic_error` exactly when `a.Size() != b.Size()`, and
it throws before anything is written: the state at the throw is the state before the
call, so a failing compound form leaves its left operand as it was. -/
theorem C11_size_mismatch_throws_logic_error {T : Type} [Zero T] [Add T] [Sub T] [Mul T]
    (al : Allocator T) (h : Heap T) (a b : Vector) :
    (∀ s, operator_add al h a b = .throws .logic_error s ↔ (a.Size ≠ b.Size ∧ s = h)) ∧
    (∀ s, operator_sub al h a b = .throws .logic_error s ↔ (a.Size ≠ b.Size ∧ s = h)) ∧
    (∀ s, operator_add_assign h a b = .throws .logic_error s ↔
      (a.Size ≠ b.Size ∧ s = (h, a))) ∧
    (∀ s, operator_sub_assign h a b = .throws .logic_error s ↔
      (a.Size ≠ b.Size ∧ s = (h, a))) ∧
    (∀ s, operator_dot h a b = .throws .logic_error s ↔ (a.Size ≠ b.Size ∧ s = h)) := by
  refine ⟨fun s => binary_new_logic_error_iff _ al h a b s,
    fun s => binary_new_logic_error_iff _ al h a b s,
    fun s => binary_assign_logic_error_iff _ h a b s,
    fun s => binary_assign_logic_error_iff _ h a b s, fun s => ?_⟩
  unfold operator_dot Size
  by_cases hab : a.n = b.n
  · rw [if_neg (by simpa using hab)]
    constructor
    · intro hc
      exfalso
      split at hc
      · cases hc
      · split at hc <;> cases hc
    · intro hc; exact absurd hab hc.1
  · rw [if_pos hab]
    constructor
    · intro hc; cases hc; exact ⟨hab, rfl⟩
    · intro hc; rw [hc.2]

end Vector
end cda

namespace cda
namespace Vector

theorem getElem?_zipWith_of_some {T : Type} (f : T → T → T) {A B : List T} {i : Nat} {x y : T}
    (hx : A[i]? = some x) (hy : B[i]? = some y) : (List.zipWith f A B)[i]? = some (f x y) := by
  simp [List.getElem?_zipWith, hx, hy]

/-- What `operator+` and `operator-` share: the result has the length of the operands and
element `i` is `f(a[i], b[i])`; the operands keep their buffers. -/
theorem binary_new_pointwise {T : Type} (f : T → T → T) (al : Allocator T) {h : Heap T}
    {a b : Vector} (ha : Valid h a) (hb : Valid h b) (hab : a.n = b.n)
    (hr : a.n ≠ 0 → al.refuses a.n = false) :
    ∃ h1 r, binary_new f al h a b = .ok (h1, r) ∧ Valid h1 r ∧ r.Size = a.Size ∧
      (∀ i, i < a.n → ∃ x y, subscript h a i = some x ∧ subscript h b i = some y ∧
        subscript h1 r i = some (f x y)) ∧
      Valid h1 a ∧ Valid h1 b ∧ (∀ i, subscript h1 a i = subscript h a i) ∧
      (∀ i, subscript h1 b i = subscript h b i) := by
  obtain ⟨h1, r, hres, hv1, hn1, he1, hkept⟩ := binary_new_spec f al ha hb hab hr
  refine ⟨h1, r, hres, hv1, hn1, fun i hi => ?_, valid_of_block_eq ha (hkept a ha).1,
    valid_of_block_eq hb (hkept b hb).1, subscript_of_block_eq (hkept a ha).1,
    subscript_of_block_eq (hkept b hb).1⟩
  have hia : i < (elems h a).length := by rw [valid_length ha]; exact hi
  have hib : i < (elems h b).length := by rw [valid_length hb]; omega
  refine ⟨(elems h a)[i], (elems h b)[i], ?_, ?_, ?_⟩
  · rw [subscript_eq ha, List.getElem?_eq_getElem hia]
  · rw [subscript_eq hb, List.getElem?_eq_getElem hib]
  · rw [subscript_eq hv1, he1]
    exact getElem?_zipWith_of_some f (List.getElem?_eq_getElem hia)
      (List.getElem?_eq_getElem hib)

/-- What `operator+=` and `operator-=` share: the left operand ends up holding what the
non-compound form returns, and a right operand with a buffer of its own keeps it. -/
theorem binary_assign_pointwise {T : Type} (f : T → T → T) (al : Allocator T) {h : Heap T}
    {a b : Vector} (ha : Valid h a) (hb : Valid h b) (hab : a.n = b.n)
    (hr : a.n ≠ 0 → al.refuses a.n = false) (hsep : Separate b a) :
    ∃ h2, binary_assign f h a b = .ok (h2, a) ∧ Valid h2 a ∧
      (∀ h1 r, binary_new f al h a b = .ok (h1, r) →
        ∀ i, subscript h2 a i = subscript h1 r i) ∧
      Valid h2 b ∧ (∀ i, subscript h2 b i = subscript h b i) := by
  obtain ⟨h2, hres, hv2, he2, hfr⟩ := binary_assign_spec f ha hb hab (Or.inl hsep)
  have hkb : Heap.block h2 b.v = h.block b.v := block_kept_of_write hb hsep hfr
  refine ⟨h2, hres, hv2, fun h1 r hnew i => ?_, valid_of_block_eq hb hkb,
    subscript_of_block_eq hkb⟩
  obtain ⟨h1', r', hres', hv1, _, he1, _⟩ := binary_new_spec f al ha hb hab hr
  rw [hres'] at hnew
  cases hnew
  rw [subscript_eq hv2, subscript_eq hv1, he2, he1]

/-- C12: for vectors `a`, `b` of equal length `n` (allocation granted), `a + b` and
`a - b` return vectors of length `n` with `(a + b)[i] = a[i] + b[i]` and
`(a - b)[i] = a[i] - b[i]` for every `i < n`, and leave `a` and `b` as they were; when `b`
has a buffer of its own, `a += b` (`a -= b`) leaves `a` with the elements of the vector
`a + b` (`a - b`) returns, and `b` as it was. -/
theorem C12_elementwise_add_and_sub {T : Type} [Add T] [Sub T] (al : Allocator T)
    (h : Heap T) (a b : Vector) (ha : Valid h a) (hb : Valid h b) (hab : a.Size = b.Size)
    (hal : a.n ≠ 0 → al.refuses a.n = false) :
    (∃ h1 r, operator_add al h a b = .ok (h1, r) ∧ Valid h1 r ∧ r.Size = a.Size ∧
      (∀ i, i < a.n → ∃ x y, subscript h a i = some x ∧ subscript h b i = some y ∧
        subscript h1 r i = some (x + y)) ∧
      Valid h1 a ∧ Valid h1 b ∧ (∀ i, subscript h1 a i = subscript h a i) ∧
      (∀ i, subscript h1 b i = subscript h b i)) ∧
    (∃ h1 r, operator_sub al h a b = .ok (h1, r) ∧ Valid h1 r ∧ r.Size = a.Size ∧
      (∀ i, i < a.n → ∃ x y, subscript h a i = some x ∧ subscript h b i = some y ∧
        subscript h1 r i = some (x - y)) ∧
      Valid h1 a ∧ Valid h1 b ∧ (∀ i, subscript h1 a i = subscript h a i) ∧
      (∀ i, subscript h1 b i = subscript h b i)) ∧
    (Separate b a →
      (∃ h2, operator_add_assign h a b = .ok (h2, a) ∧ Valid h2 a ∧
        (∀ h1 r, operator_add al h a b = .ok (h1, r) →
          ∀ i, subscript h2 a i = subscript h1 r i) ∧
        Valid h2 b ∧ (∀ i, subscript h2 b i = subscript h b i)) ∧
      (∃ h2, operator_sub_assign h a b = .ok (h2, a) ∧ Valid h2 a ∧
        (∀ h1 r, operator_sub al h a b = .ok (h1, r) →
          ∀ i, subscript h2 a i = subscript h1 r i) ∧
        Valid h2 b ∧ (∀ i, subscript h2 b i = subscript h b i))) :=
  ⟨binary_new_pointwise _ al ha hb hab hal, binary_new_pointwise _ al ha hb hab hal,
    fun hsep => ⟨binary_assign_pointwise _ al ha hb hab hal hsep,
      binary_assign_pointwise _ al ha hb hab hal hsep⟩⟩

/-- C12, at `[1, 0, 0] += [0, 1, 0]`. -/
theorem C12_add_assign_witness :
    Valid unit_heap unit_x ∧ Valid unit_heap unit_y ∧ unit_x.Size = unit_y.Size ∧
    (unit_x.n ≠ 0 → sample_alloc.refuses unit_x.n = false) ∧ Separate unit_y unit_x ∧
    ∃ h2, operator_add_assign unit_heap unit_x unit_y = .ok (h2, unit_x) ∧ Valid h2 unit_x ∧
      (∀ h1 r, operator_add sample_alloc unit_heap unit_x unit_y = .ok (h1, r) →
        ∀ i, subscript h2 unit_x i = subscript h1 r i) ∧
      Valid h2 unit_y ∧ (∀ i, subscript h2 unit_y i = subscript unit_heap unit_y i) :=
  ⟨by decide, by decide, by decide, fun _ => rfl, by decide,
    ((C12_elementwise_add_and_sub sample_alloc unit_heap unit_x unit_y (by decide) (by decide)
      (by decide) (fun _ => rfl)).2.2 (by decide)).1⟩

end Vector
end cda

namespace cda
namespace Vector

theorem zipWith_add_assoc {T : Type} [AddSemigroup T] :
    ∀ (A B C : List T),
      List.zipWith (fun x y => x + y) (List.zipWith (fun x y => x + y) A B) C =
        List.zipWith (fun x y => x + y) A (List.zipWith (fun x y => x + y) B C)
  | [], _, _ => by simp
  | _ :: _, [], _ => by simp
  | _ :: _, _ :: _, [] => by simp
  | a :: A, b :: B, c :: C => by
    simp only [List.zipWith_cons_cons, List.cons.injEq]
    exact ⟨add_assoc a b c, zipWith_add_assoc A B C⟩

/-- C13: for vectors `a`, `b`, `c` of equal length over an addition that is commutative
and associative (exact integer or rational arithmetic), with the allocations granted,
`a + b == b + a` and `(a + b) + c == a + (b + c)` evaluate to `true` under the
container's `operator==`. -/
theorem C13_addition_commutes_and_associates {T : Type} [AddCommSemigroup T] [DecidableEq T]
    (al : Allocator T) (h : Heap T) (a b c : Vector) (ha : Valid h a) (hb : Valid h b)
    (hc : Valid h c) (hab : a.Size = b.Size) (hbc : b.Size = c.Size)
    (hal : a.n ≠ 0 → al.refuses a.n = false) :
    (∃ h1 r1 h2 r2, operator_add al h a b = .ok (h1, r1) ∧
      operator_add al h1 b a = .ok (h2, r2) ∧ operator_eq h2 r1 r2 = some true) ∧
    (∃ h1 t1 h2 r1 h3 t2 h4 r2, operator_add al h a b = .ok (h1, t1) ∧
      operator_add al h1 t1 c = .ok (h2, r1) ∧ operator_add al h2 b c = .ok (h3, t2) ∧
      operator_add al h3 a t2 = .ok (h4, r2) ∧ operator_eq h4 r1 r2 = some true) := by
  have hab : a.n = b.n := hab
  have hbc : b.n = c.n := hbc
  have halb : b.n ≠ 0 → al.refuses b.n = false := by rw [← hab]; exact hal
  constructor
  · obtain ⟨h1, r1, hres1, hv1, _, he1, hk1⟩ := binary_new_spec (fun x y => x + y) al ha hb hab hal
    have ha1 := valid_of_block_eq ha (hk1 a ha).1
    have hb1 := valid_of_block_eq hb (hk1 b hb).1
    obtain ⟨h2, r2, hres2, hv2, _, he2, hk2⟩ :=
      binary_new_spec (fun x y => x + y) al hb1 ha1 hab.symm halb
    have hv12 := valid_of_block_eq hv1 (hk2 r1 hv1).1
    refine ⟨h1, r1, h2, r2, hres1, hres2, ?_⟩
    rw [operator_eq_spec hv12 hv2, elems_of_block_eq (hk2 r1 hv1).1, he1, he2,
      elems_of_block_eq (hk1 a ha).1, elems_of_block_eq (hk1 b hb).1,
      List.zipWith_comm_of_comm _ (fun x y => add_comm x y)]
    simp
  · obtain ⟨h1, t1, hres1, hv1, hn1, he1, hk1⟩ :=
      binary_new_spec (fun x y => x + y) al ha hb hab hal
    have ha1 := valid_of_block_eq ha (hk1 a ha).1
    have hb1 := valid_of_block_eq hb (hk1 b hb).1
    have hc1 := valid_of_block_eq hc (hk1 c hc).1
    obtain ⟨h2, r1, hres2, hv2, _, he2, hk2⟩ :=
      binary_new_spec (fun x y => x + y) al hv1 hc1 (by omega) (by rw [hn1]; exact hal)
    have ha2 := valid_of_block_eq ha1 (hk2 a ha1).1
    have hb2 := valid_of_block_eq hb1 (hk2 b hb1).1
    have hc2 := valid_of_block_eq hc1 (hk2 c hc1).1
    obtain ⟨h3, t2, hres3, hv3, hn3, he3, hk3⟩ :=
      binary_new_spec (fun x y => x + y) al hb2 hc2 hbc halb
    have ha3 := valid_of_block_eq ha2 (hk3 a ha2).1
    have hr13 := valid_of_block_eq hv2 (hk3 r1 hv2).1
    obtain ⟨h4, r2, hres4, hv4, _, he4, hk4⟩ :=
      binary_new_spec (fun x y => x + y) al ha3 hv3 (by omega) hal
    have hr14 := valid_of_block_eq hr13 (hk4 r1 hr13).1
    refine ⟨h1, t1, h2, r1, h3, t2, h4, r2, hres1, hres2, hres3, hres4, ?_⟩
    rw [operator_eq_spec hr14 hv4, elems_of_block_eq (hk4 r1 hr13).1,
      elems_of_block_eq (hk3 r1 hv2).1, he2, he4, he3, he1,
      elems_of_block_eq (hk1 c hc).1,
      elems_of_block_eq (hk3 a ha2).1, elems_of_block_eq (hk2 a ha1).1,
      elems_of_block_eq (hk1 a ha).1,
      elems_of_block_eq (hk2 b hb1).1, elems_of_block_eq (hk1 b hb).1,
      elems_of_block_eq (hk2 c hc1).1, elems_of_block_eq (hk1 c hc).1,
      zipWith_add_assoc]
    simp

/-- C13, at the unit vectors `[1, 0, 0]`, `[0, 1, 0]`, `[0, 0, 1]`. -/
theorem C13_addition_witness :
    Valid unit_heap unit_x ∧ Valid unit_heap unit_y ∧ Valid unit_heap unit_z ∧
    unit_x.Size = unit_y.Size ∧ unit_y.Size = unit_z.Size ∧
    (unit_x.n ≠ 0 → sample_alloc.refuses unit_x.n = false) ∧
    ∃ h1 r1 h2 r2, operator_add sample_alloc unit_heap unit_x unit_y = .ok (h1, r1) ∧
      operator_add sample_alloc h1 unit_y unit_x = .ok (h2, r2) ∧
      operator_eq h2 r1 r2 = some true :=
  ⟨by decide, by decide, by decide, by decide, by decide, fun _ => rfl,
    (C13_addition_commutes_and_associates sample_alloc unit_heap unit_x unit_y unit_z
      (by decide) (by decide) (by decide) (by decide) (by decide) (fun _ => rfl)).1⟩

end Vector
end cda

namespace cda
namespace Vector

/-- Multiplying by a scalar and dividing by it again gives a vector equal to the first
one, for every element type on which `x * s / s = x`. -/
theorem mul_div_scalar_eq {T : Type} [Mul T] [Div T] [DecidableEq T] (al : Allocator T)
    {h : Heap T} {a : Vector} (s : T) (hcancel : ∀ x : T, x * s / s = x) (ha : Valid h a)
    (hal : a.n ≠ 0 → al.refuses a.n = false) :
    ∃ h1 p h2 q, operator_mul_scalar al h a s = .ok (h1, p) ∧
      operator_div_scalar al h1 p s = .ok (h2, q) ∧ operator_eq h2 q a = some true := by
  obtain ⟨h1, p, hres1, hv1, hn1, he1, hk1⟩ := unary_new_spec (fun x => x * s) al ha hal
  obtain ⟨h2, q, hres2, hv2, _, he2, hk2⟩ :=
    unary_new_spec (fun x => x / s) al hv1 (by rw [hn1]; exact hal)
  have ha1 := valid_of_block_eq ha (hk1 a ha).1
  have ha2 := valid_of_block_eq ha1 (hk2 a ha1).1
  refine ⟨h1, p, h2, q, hres1, hres2, ?_⟩
  rw [operator_eq_spec hv2 ha2, he2, he1, elems_of_block_eq (hk2 a ha1).1,
    elems_of_block_eq (hk1 a ha).1, List.map_map]
  have : ((fun x => x / s) ∘ fun x => x * s) = id := by
    funext x; exact hcancel x
  rw [this, List.map_id]
  simp

theorem CInt.mul_div_cancel (x s : CInt) (hs : s ≠ 0) : x * s / s = x := by
  have hv : s.val ≠ 0 := by
    intro hc
    apply hs
    cases s
    simp only at hc
    subst hc
    rfl
  cases x with
  | mk xv =>
    show (⟨Int.tdiv (xv * s.val) s.val⟩ : CInt) = ⟨xv⟩
    rw [Int.mul_tdiv_cancel xv hv]

/-- C14: for every vector `a` and every nonzero scalar `s`, with the allocations granted,
`(a * s) / s == a` evaluates to `true`, both over the rationals and over the integers
with the truncating division of C++ (no overflow). -/
theorem C14_mul_div_scalar_cancels :
    (∀ (al : Allocator ℚ) (h : Heap ℚ) (a : Vector) (s : ℚ), Valid h a → s ≠ 0 →
      (a.n ≠ 0 → al.refuses a.n = false) →
      ∃ h1 p h2 q, operator_mul_scalar al h a s = .ok (h1, p) ∧
        operator_div_scalar al h1 p s = .ok (h2, q) ∧ operator_eq h2 q a = some true) ∧
    (∀ (al : Allocator CInt) (h : Heap CInt) (a : Vector) (s : CInt), Valid h a → s ≠ 0 →
      (a.n ≠ 0 → al.refuses a.n = false) →
      ∃ h1 p h2 q, operator_mul_scalar al h a s = .ok (h1, p) ∧
        operator_div_scalar al h1 p s = .ok (h2, q) ∧ operator_eq h2 q a = some true) :=
  ⟨fun al _ _ s ha hs hal =>
      mul_div_scalar_eq al s (fun x => mul_div_cancel_right₀ x hs) ha hal,
    fun al _ _ s ha hs hal =>
      mul_div_scalar_eq al s (fun x => CInt.mul_div_cancel x s hs) ha hal⟩

/-- C14, at the `int` vector `[3, 4]` and the scalar `-2`. -/
theorem C14_mul_div_witness :
    Valid int_heap int_v ∧ (⟨-2⟩ : CInt) ≠ 0 ∧
    (int_v.n ≠ 0 → int_alloc.refuses int_v.n = false) ∧
    ∃ h1 p h2 q, operator_mul_scalar int_alloc int_heap int_v ⟨-2⟩ = .ok (h1, p) ∧
      operator_div_scalar int_alloc h1 p ⟨-2⟩ = .ok (h2, q) ∧
      operator_eq h2 q int_v = some true :=
  ⟨by decide, by decide, fun _ => rfl,
    C14_mul_div_scalar_cancels.2 int_alloc int_heap int_v ⟨-2⟩ (by decide) (by decide)
      (fun _ => rfl)⟩

/-- C16: for vectors `a`, `b` of equal length the dot product `operator*` returns the sum
of the products `a[i] * b[i]` over all positions (`0` for empty vectors), and
`SquareNorm()` of `a` is the dot product of `a` with itself, converted to `double`. -/
theorem C16_dot_product_is_sum_of_products {T D : Type} [AddMonoid T] [Mul T]
    (to_double : T → D) (h : Heap T) (a b : Vector) (ha : Valid h a) (hb : Valid h b)
    (hab : a.Size = b.Size) :
    operator_dot h a b =
      .ok (List.zipWith (fun x y => x * y) (elems h a) (elems h b)).sum ∧
    (a.Size = 0 → operator_dot h a b = .ok 0) ∧
    (∃ value, operator_dot h a a = .ok value ∧
      SquareNorm to_double h a = .ok (to_double value)) := by
  have hsum : ∀ l : List T, l.foldl (fun acc p => acc + p) 0 = l.sum := by
    intro l; rw [List.sum_eq_foldl]
  refine ⟨?_, fun h0 => ?_, ?_⟩
  · rw [operator_dot_spec ha hb hab, hsum]
  · rw [operator_dot_spec ha hb hab]
    have hl := valid_length ha
    have : elems h a = [] := List.length_eq_zero.mp (by rw [hl]; exact h0)
    rw [this]
    simp
  · refine ⟨_, operator_dot_spec ha ha rfl, ?_⟩
    unfold SquareNorm
    rw [operator_dot_spec ha ha rfl]

/-- C16, at the dot product of `[1, 2, 3]` with itself. -/
theorem C16_dot_product_witness :
    Valid sample_heap sample_a ∧ sample_a.Size = sample_a.Size ∧
    operator_dot sample_heap sample_a sample_a =
      .ok (List.zipWith (fun x y => x * y) (elems sample_heap sample_a)
        (elems sample_heap sample_a)).sum :=
  ⟨by decide, rfl,
    (C16_dot_product_is_sum_of_products (fun x : Int => x) sample_heap sample_a sample_a
      (by decide) (by decide) rfl).1⟩

end Vector
end cda

namespace cda
namespace Vector

theorem cross_component_spec {T : Type} [Mul T] [Sub T] {g : Heap T} {a b o : Vector}
    (ha : Valid g a) (hb : Valid g b) (ho : Valid g o) (i j k : Nat) (hi : i < o.n)
    (aj bk ak bj : T) (h1 : (elems g a)[j]? = some aj) (h2 : (elems g b)[k]? = some bk)
    (h3 : (elems g a)[k]? = some ak) (h4 : (elems g b)[j]? = some bj) :
    ∃ g1, cross_component a b o i j k g = some g1 ∧ Valid g1 o ∧
      elems g1 o = (elems g o).set i (aj * bk - ak * bj) ∧
      (∀ q : Ptr, q.blk ≠ o.v.blk → Heap.block g1 q = g.block q) := by
  obtain ⟨g1, hw, hv1, he1, hfr⟩ := write_valid ho i (aj * bk - ak * bj) hi
  refine ⟨g1, ?_, hv1, he1, hfr⟩
  unfold cross_component
  rw [subscript_eq ha, subscript_eq hb, subscript_eq ha, subscript_eq hb, h1, h2, h3, h4]
  exact hw

theorem CrossProduct3D_spec {T : Type} [Mul T] [Sub T] (al : Allocator T) {h : Heap T}
    {a b : Vector} (ha : Valid h a) (hb : Valid h b) (a0 a1 a2 b0 b1 b2 : T)
    (hea : elems h a = [a0, a1, a2]) (heb : elems h b = [b0, b1, b2])
    (hal : al.refuses 3 = false) :
    ∃ h1 r, CrossProduct3D al h a b = .ok (h1, r) ∧ Valid h1 r ∧ r.Size = 3 ∧
      elems h1 r = [a1 * b2 - a2 * b1, a2 * b0 - a0 * b2, a0 * b1 - a1 * b0] ∧
      (∀ s : Vector, Valid h s →
        Heap.block h1 s.v = h.block s.v ∧ (s.v.blk = none ∨ s.v.blk ≠ r.v.blk)) := by
  have hna : a.n = 3 := by rw [← valid_length ha, hea]; rfl
  have hnb : b.n = 3 := by rw [← valid_length hb, heb]; rfl
  obtain ⟨g0, r, hc, hv0, hn0, hkept⟩ := ctor_size_ok al h a.n ha.1
    (by rw [hna]; exact fun _ => hal)
  rw [hna] at hn0
  have hka := hkept a ha
  have hkb := hkept b hb
  have ha0 := valid_of_block_eq ha hka.1
  have hb0 := valid_of_block_eq hb hkb.1
  have hea0 : elems g0 a = [a0, a1, a2] := by rw [elems_of_block_eq hka.1, hea]
  have heb0 : elems g0 b = [b0, b1, b2] := by rw [elems_of_block_eq hkb.1, heb]
  obtain ⟨g1, hs1, hv1, he1, hf1⟩ := cross_component_spec ha0 hb0 hv0 0 1 2 (by omega)
    a1 b2 a2 b1 (by rw [hea0]; rfl) (by rw [heb0]; rfl)
    (by rw [hea0]; rfl) (by rw [heb0]; rfl)
  have hka1 := block_kept_of_write ha0 hka.2 hf1
  have hkb1 := block_kept_of_write hb0 hkb.2 hf1
  have ha1 := valid_of_block_eq ha0 hka1
  have hb1 := valid_of_block_eq hb0 hkb1
  have hea1 : elems g1 a = [a0, a1, a2] := by rw [elems_of_block_eq hka1, hea0]
  have heb1 : elems g1 b = [b0, b1, b2] := by rw [elems_of_block_eq hkb1, heb0]
  obtain ⟨g2, hs2, hv2, he2, hf2⟩ := cross_component_spec ha1 hb1 hv1 1 2 0 (by omega)
    a2 b0 a0 b2 (by rw [hea1]; rfl) (by rw [heb1]; rfl)
    (by rw [hea1]; rfl) (by rw [heb1]; rfl)
  have hka2 := block_kept_of_write ha1 hka.2 hf2
  have hkb2 := block_kept_of_write hb1 hkb.2 hf2
  have ha2 := valid_of_block_eq ha1 hka2
  have hb2 := valid_of_block_eq hb1 hkb2
  have hea2 : elems g2 a = [a0, a1, a2] := by rw [elems_of_block_eq hka2, hea1]
  have heb2 : elems g2 b = [b0, b1, b2] := by rw [elems_of_block_eq hkb2, heb1]
  obtain ⟨g3, hs3, hv3, he3, hf3⟩ := cross_component_spec ha2 hb2 hv2 2 0 1 (by omega)
    a0 b1 a1 b0 (by rw [hea2]; rfl) (by rw [heb2]; rfl)
    (by rw [hea2]; rfl) (by rw [heb2]; rfl)
  refine ⟨g3, r, ?_, hv3, hn0, ?_, fun s hvs => ⟨?_, (hkept s hvs).2⟩⟩
  · unfold CrossProduct3D
    rw [if_neg (by omega), hc]
    dsimp only
    rw [hs1]
    dsimp only
    rw [hs2]
    dsimp only
    rw [hs3]
  · have hl0 := valid_length hv0
    rw [hn0] at hl0
    rw [he3, he2, he1]
    match hm : elems g0 r, hl0 with
    | [x, y, z], _ => rfl
  · have hk0 := (hkept s hvs).1
    have hs0 := valid_of_block_eq hvs hk0
    have hk1 := block_kept_of_write hs0 (hkept s hvs).2 hf1
    have hs1' := valid_of_block_eq hs0 hk1
    have hk2 := block_kept_of_write hs1' (hkept s hvs).2 hf2
    have hs2' := valid_of_block_eq hs1' hk2
    have hk3 := block_kept_of_write hs2' (hkept s hvs).2 hf3
    exact hk3.trans (hk2.trans (hk1.trans hk0))

/-- C15: `a.CrossProduct3D(b)` throws `logic_error` exactly when `a.Size() != b.Size()`
or `a.Size() != 3`, before anything is written; otherwise (allocation granted) it returns
the vector of length 3 holding
`[a1 * b2 - a2 * b1, a2 * b0 - a0 * b2, a0 * b1 - a1 * b0]`. -/
theorem C15_cross_product_formula {T : Type} [Mul T] [Sub T] (al : Allocator T) (h : Heap T)
    (a b : Vector) (ha : Valid h a) (hb : Valid h b) (hal : al.refuses 3 = false) :
    (∀ s, CrossProduct3D al h a b = .throws .logic_error s ↔
      ((a.Size ≠ b.Size ∨ a.Size ≠ 3) ∧ s = h)) ∧
    (a.Size = 3 → b.Size = 3 →
      ∃ a0 a1 a2 b0 b1 b2 h1 r, elems h a = [a0, a1, a2] ∧ elems h b = [b0, b1, b2] ∧
        CrossProduct3D al h a b = .ok (h1, r) ∧ Valid h1 r ∧ r.Size = 3 ∧
        elems h1 r = [a1 * b2 - a2 * b1, a2 * b0 - a0 * b2, a0 * b1 - a1 * b0]) := by
  constructor
  · intro s
    unfold CrossProduct3D Size
    by_cases hg : a.n ≠ b.n ∨ a.n ≠ 3
    · rw [if_pos hg]
      constructor
      · intro hc; cases hc; exact ⟨hg, rfl⟩
      · intro hc; rw [hc.2]
    · rw [if_neg hg]
      constructor
      · intro hc
        exfalso
        split at hc
        · split at hc
          · cases hc
          · split at hc
            · cases hc
            · split at hc <;> cases hc
        · rename_i e s1 heq
          cases hc
          exact ctor_size_not_logic_error al h a.n s heq
        · cases hc
      · intro hc; exact absurd hc.1 hg
  · intro hna hnb
    have hla := valid_length ha
    have hlb := valid_length hb
    have hna : a.n = 3 := hna
    have hnb : b.n = 3 := hnb
    rw [hna] at hla
    rw [hnb] at hlb
    match hma : elems h a, hla, hmb : elems h b, hlb with
    | [a0, a1, a2], _, [b0, b1, b2], _ =>
      obtain ⟨h1, r, hres, hv1, hn1, he1, _⟩ :=
        CrossProduct3D_spec al ha hb a0 a1 a2 b0 b1 b2 hma hmb hal
      exact ⟨a0, a1, a2, b0, b1, b2, h1, r, rfl, rfl, hres, hv1, hn1, he1⟩

/-- C15, at `CrossProduct3D([1, 0, 0], [0, 1, 0]) == [0, 0, 1]`. -/
theorem C15_cross_product_witness :
    Valid unit_heap unit_x ∧ Valid unit_heap unit_y ∧ sample_alloc.refuses 3 = false ∧
    ∃ h1 r, CrossProduct3D sample_alloc unit_heap unit_x unit_y = .ok (h1, r) ∧
      elems h1 r = [0, 0, 1] ∧ operator_eq h1 r unit_z = some true := by
  refine ⟨by decide, by decide, rfl, ?_⟩
  obtain ⟨a0, a1, a2, b0, b1, b2, h1, r, hea, heb, hres, _, _, he⟩ :=
    (C15_cross_product_formula sample_alloc unit_heap unit_x unit_y (by decide) (by decide)
      rfl).2 rfl rfl
  have hx : elems unit_heap unit_x = [1, 0, 0] := by decide
  have hy : elems unit_heap unit_y = [0, 1, 0] := by decide
  rw [hx] at hea
  rw [hy] at heb
  cases hea
  cases heb
  have hdec : CrossProduct3D sample_alloc unit_heap unit_x unit_y =
      .ok ([some [1, 0, 0], some [0, 1, 0], some [0, 0, 1], some [0, 0, 1]],
        ⟨3, ⟨some 3, 0⟩, ⟨some 3, 3⟩⟩) := by decide
  rw [hdec] at hres
  cases hres
  exact ⟨_, _, hdec, by decide, by decide⟩

end Vector
end cda

namespace cda
namespace Vector

theorem ctor_fill_spec {T : Type} (al : Allocator T) (h : Heap T) (size : Nat) (value : T)
    (hs : size < SIZE_T) (ha : size ≠ 0 → al.refuses size = false) :
    ∃ h1 r, ctor_fill al h size value = .ok (h1, r) ∧ Valid h1 r ∧ r.n = size ∧
      elems h1 r = List.replicate size value ∧
      (∀ s : Vector, Valid h s →
        Heap.block h1 s.v = h.block s.v ∧ (s.v.blk = none ∨ s.v.blk ≠ r.v.blk)) := by
  obtain ⟨h1, s1, hal, hn1, hv1, _, hfresh, hframe⟩ :=
    AllocateMemory_ok al ⟨size, nullptr, nullptr⟩ size (Or.inl rfl) hs ha
  have hn1 : s1.n = size := hn1
  have hs1 : ({ s1 with n := size } : Vector) = s1 := by
    cases s1; simp only [Vector.mk.injEq, and_true]; exact hn1.symm
  rw [hs1] at hv1
  obtain ⟨h2, hw, hv2, he2, hfr2⟩ := writeRange_valid hv1 0 (List.replicate size value)
    (by simp [hn1])
  have hfill : std_fill h1 s1.begin s1.end_ value = some h2 := by
    unfold std_fill begin end_
    rw [valid_end_off hv1, valid_off hv1, hn1]
    exact hw
  have hl1 := valid_length hv1
  refine ⟨h2, s1, ?_, hv2, hn1, ?_, fun s hvs => ?_⟩
  · unfold ctor_fill Fill
    rw [hal]
    dsimp only
    rw [hfill]
  · rw [he2]
    simp only [List.take_zero, List.nil_append, List.length_replicate, Nat.zero_add]
    rw [List.drop_of_length_le (by omega), List.append_nil]
  · have hk1 : Heap.block h1 s.v = h.block s.v := by
      refine block_kept hvs ?_ hframe
      by_cases hb : s.v.blk = none
      · exact Or.inl hb
      · exact Or.inr hb
    have hsep := sep_of_fresh hvs hfresh
    exact ⟨(block_kept_of_write (valid_of_block_eq hvs hk1) hsep hfr2).trans hk1, hsep⟩

theorem dot_self_eq_sum {T : Type} [AddMonoid T] [Mul T] {h : Heap T} {v : Vector}
    (hv : Valid h v) :
    operator_dot h v v = .ok ((elems h v).map fun x => x * x).sum := by
  rw [operator_dot_spec hv hv rfl, List.zipWith_same, List.sum_eq_foldl]

end Vector
end cda

namespace cda
namespace Vector

theorem sum_squares_div (N : ℝ) (A : List ℝ) :
    ((A.map fun x => x / N).map fun x => x * x).sum =
      (A.map fun x => x * x).sum / (N * N) := by
  induction A with
  | nil => simp
  | cons a A ih =>
    simp only [List.map_cons, List.sum_cons, ih]
    rw [add_div, div_mul_div_comm]

theorem sum_squares_pos {A : List ℝ} {x : ℝ} (hx : x ∈ A) (h0 : x ≠ 0) :
    0 < (A.map fun x => x * x).sum := by
  have hle : x * x ≤ (A.map fun x => x * x).sum := by
    apply List.single_le_sum
    · intro y hy
      obtain ⟨z, _, rfl⟩ := List.mem_map.mp hy
      exact mul_self_nonneg z
    · exact List.mem_map.mpr ⟨x, hx, rfl⟩
  have hpos : 0 < x * x := mul_self_pos.mpr h0
  linarith

/-- C18, as amended: for a vector of reals with at least one element different from `0`
(the element type is the floating type itself, so no conversion changes `Norm()`), in
exact arithmetic and with the allocation granted, `Norm()` of `Unitary()` returns `1`. -/
theorem C18_unitary_of_real_vector_has_norm_one (al : Allocator ℝ) (h : Heap ℝ) (v : Vector)
    (hv : Valid h v) (hne : ∃ i x, subscript h v i = some x ∧ x ≠ 0)
    (hal : v.n ≠ 0 → al.refuses v.n = false) :
    ∃ h1 u, Unitary (fun x : ℝ => x) Real.sqrt (fun x : ℝ => x) al h v = .ok (h1, u) ∧
      Norm (fun x : ℝ => x) Real.sqrt h1 u = .ok 1 := by
  obtain ⟨i, x, hsub, hx0⟩ := hne
  rw [subscript_eq hv] at hsub
  have hmem : x ∈ elems h v := List.mem_iff_getElem?.mpr ⟨i, hsub⟩
  have hS := sum_squares_pos hmem hx0
  obtain ⟨h1, u, hres, hvu, _, heu, _⟩ := unary_new_spec
    (fun y : ℝ => y / Real.sqrt ((elems h v).map fun x => x * x).sum) al hv hal
  refine ⟨h1, u, ?_, ?_⟩
  · unfold Unitary Norm SquareNorm
    rw [dot_self_eq_sum hv]
    exact hres
  · unfold Norm SquareNorm
    rw [dot_self_eq_sum hvu, heu, sum_squares_div, Real.mul_self_sqrt (le_of_lt hS),
      div_self (ne_of_gt hS)]
    dsimp only
    rw [Real.sqrt_one]

/-- C18, as amended, at the real vector `[3, 4]`. -/
theorem C18_unitary_witness :
    Valid ([some [3, 4]] : Heap ℝ) int_v ∧
    (∃ i x, subscript ([some [3, 4]] : Heap ℝ) int_v i = some x ∧ x ≠ 0) ∧
    ∃ h1 u, Unitary (fun x : ℝ => x) Real.sqrt (fun x : ℝ => x) ⟨8, by decide, fun _ => false, true, fun _ => 0⟩
        ([some [3, 4]] : Heap ℝ) int_v = .ok (h1, u) ∧
      Norm (fun x : ℝ => x) Real.sqrt h1 u = .ok 1 :=
  ⟨by decide, ⟨0, 3, rfl, by norm_num⟩,
    C18_unitary_of_real_vector_has_norm_one ⟨8, by decide, fun _ => false, true, fun _ => 0⟩ [some [3, 4]] int_v
      (by decide) ⟨0, 3, rfl, by norm_num⟩ (fun _ => rfl)⟩

/-- C18, as stated, fails for an integer element type: on the `int` vector `[3, 4]`,
`Norm()` is `5.0`, `Unitary()` divides by `5` with the truncating division of `int` and
returns `[0, 0]`, whose `Norm()` is `0`, not `1`. -/
theorem C18_unitary_of_int_vector_has_norm_zero :
    (∃ x, subscript int_heap int_v 0 = some x ∧ x ≠ 0) ∧
    ∃ h1 u, Unitary (fun x : CInt => (x.val : ℝ)) Real.sqrt
        (fun r : ℝ => (⟨if 0 ≤ r then ⌊r⌋ else ⌈r⌉⟩ : CInt)) int_alloc int_heap int_v =
          .ok (h1, u) ∧
      elems h1 u = [⟨0⟩, ⟨0⟩] ∧
      Norm (fun x : CInt => (x.val : ℝ)) Real.sqrt h1 u = .ok 0 ∧
      Norm (fun x : CInt => (x.val : ℝ)) Real.sqrt h1 u ≠ .ok 1 := by
  have hdot : operator_dot int_heap int_v int_v = .ok (⟨25⟩ : CInt) := by decide
  have hsqrt : Real.sqrt (((25 : Int) : ℝ)) = 5 := by
    rw [show (((25 : Int) : ℝ)) = 5 * 5 by norm_num]
    exact Real.sqrt_mul_self (by norm_num)
  have hconv : (⟨if (0 : ℝ) ≤ 5 then ⌊(5 : ℝ)⌋ else ⌈(5 : ℝ)⌉⟩ : CInt) = ⟨5⟩ := by
    rw [if_pos (by norm_num)]
    congr 1
    exact Int.floor_eq_iff.mpr ⟨by norm_num, by norm_num⟩
  have hdiv : operator_div_scalar int_alloc int_heap int_v (⟨5⟩ : CInt) =
      .ok ([some [⟨3⟩, ⟨4⟩], some [⟨0⟩, ⟨0⟩]], ⟨2, ⟨some 1, 0⟩, ⟨some 1, 2⟩⟩) := by decide
  have hdot2 : operator_dot ([some [⟨3⟩, ⟨4⟩], some [⟨0⟩, ⟨0⟩]] : Heap CInt)
      ⟨2, ⟨some 1, 0⟩, ⟨some 1, 2⟩⟩ ⟨2, ⟨some 1, 0⟩, ⟨some 1, 2⟩⟩ = .ok (⟨0⟩ : CInt) := by
    decide
  have hnorm : Norm (fun x : CInt => (x.val : ℝ)) Real.sqrt
      ([some [⟨3⟩, ⟨4⟩], some [⟨0⟩, ⟨0⟩]] : Heap CInt) ⟨2, ⟨some 1, 0⟩, ⟨some 1, 2⟩⟩ =
        .ok 0 := by
    unfold Norm SquareNorm
    rw [hdot2]
    dsimp only
    rw [Int.cast_zero, Real.sqrt_zero]
  refine ⟨⟨⟨3⟩, by decide, by decide⟩, _, _, ?_, by decide, hnorm, ?_⟩
  · unfold Unitary Norm SquareNorm
    rw [hdot]
    dsimp only
    rw [hsqrt, hconv]
    exact hdiv
  · rw [hnorm]
    intro hc
    simp at hc

end Vector
end cda

namespace cda
namespace Vector

theorem assign_copy_spec {T : Type} [Zero T] (al : Allocator T) {h : Heap T} {a b : Vector}
    (ha : Valid h a) (hb : Valid h b) (hsep : Separate a b)
    (hal : a.n ≠ 0 → al.refuses a.n = false) :
    ∃ h2 b1, assign_copy al h b (some a) = .ok (h2, b1) ∧ Valid h2 b1 ∧ b1.n = a.n ∧
      elems h2 b1 = elems h a ∧
      (∀ s : Vector, Valid h s → Separate s b →
        Heap.block h2 s.v = h.block s.v ∧ (s.v.blk = none ∨ s.v.blk ≠ b1.v.blk)) := by
  obtain ⟨h1, s1, hres, hv1, hn1, _, _, _, hfr⟩ :=
    resize_spec al a.n false hb ha.1 (fun _ h0 => hal h0)
  have hkept1 : ∀ s : Vector, Valid h s → Separate s b →
      Heap.block h1 s.v = h.block s.v ∧ (s.v.blk = none ∨ s.v.blk ≠ s1.v.blk) := by
    intro s hvs hss
    exact ⟨block_kept hvs hss (fun q cells hq hc => (hfr q cells hq hc).1),
      (kept_of_frame hvs hss hfr).2.1⟩
  have hka := hkept1 a ha hsep
  obtain ⟨h2, hcp, hv2, hk2, he2, hfr2⟩ := copy_whole (valid_of_block_eq ha hka.1) hv1 hka.2 hn1
  refine ⟨h2, s1, ?_, hv2, hn1, ?_, fun s hvs hss => ?_⟩
  · unfold assign_copy
    dsimp only
    rw [hres]
    dsimp only
    rw [hcp]
  · rw [he2, elems_of_block_eq hka.1]
  · have hks := hkept1 s hvs hss
    exact ⟨(block_kept_of_write (valid_of_block_eq hvs hks.1) hks.2 hfr2).trans hks.1, hks.2⟩

theorem zipWith_pow_succ {T : Type} [Monoid T] (A : List T) (k : Nat) :
    List.zipWith (fun x y => x * y) (A.map fun x => x ^ k) A = A.map fun x => x ^ (k + 1) := by
  rw [List.zipWith_map_left, List.zipWith_same]
  apply List.map_congr_left
  intro x _
  exact (pow_succ x k).symm

/-- The rounds `i, ..., power` of the loop of `PowElements`, started with `new_vector`
holding the powers `i - 1`, end with `new_vector` holding the powers `power`, as long as
`power + 1` is a `size_t`. -/
theorem pow_loop_spec {T : Type} [Monoid T] {v nv : Vector} (power : Nat) (A : List T)
    (hp : power + 1 < SIZE_T) (hn : v.n = nv.n) (hsep : Separate v nv) :
    ∀ (d i : Nat) (h : Heap T), i + d = power + 1 → 1 ≤ i → Valid h v → Valid h nv →
      elems h v = A → elems h nv = A.map (fun x => x ^ (i - 1)) →
      ∃ h2, (∀ fuel, d < fuel → pow_loop v nv power fuel i h = some (some h2)) ∧
        Valid h2 nv ∧ elems h2 nv = A.map (fun x => x ^ power) ∧
        (∀ q : Ptr, q.blk ≠ nv.v.blk → Heap.block h2 q = h.block q) := by
  intro d
  induction d with
  | zero =>
    intro i h hid hi hv hnv _ henv
    have hip : i - 1 = power := by omega
    refine ⟨h, fun fuel hf => ?_, hnv, by rw [henv, hip], fun _ _ => rfl⟩
    obtain ⟨f, rfl⟩ : ∃ f, fuel = f + 1 := ⟨fuel - 1, by omega⟩
    unfold pow_loop
    rw [if_neg (by omega)]
  | succ d ih =>
    intro i h hid hi hv hnv hev henv
    obtain ⟨h1, hit, hv1, he1, hfr1⟩ := binary_loop_spec (fun x y : T => x * y) hnv hv hnv
      hn.symm rfl (Or.inr rfl) (Or.inl hsep)
    have hk1 : Heap.block h1 v.v = h.block v.v := block_kept_of_write hv hsep hfr1
    have he1' : elems h1 nv = A.map (fun x => x ^ (i + 1 - 1)) := by
      rw [he1, henv, hev]
      have : i + 1 - 1 = (i - 1) + 1 := by omega
      rw [this]
      exact zipWith_pow_succ A (i - 1)
    obtain ⟨h2, hrun, hv2, he2, hfr2⟩ := ih (i + 1) h1 (by omega) (by omega)
      (valid_of_block_eq hv hk1) hv1 (by rw [elems_of_block_eq hk1, hev]) he1'
    refine ⟨h2, fun fuel hf => ?_, hv2, he2, fun q hq => (hfr2 q hq).trans (hfr1 q hq)⟩
    obtain ⟨f, rfl⟩ : ∃ f, fuel = f + 1 := ⟨fuel - 1, by omega⟩
    unfold pow_loop
    rw [if_pos (by omega), steps_valid hv]
    dsimp only
    rw [hn, hit]
    dsimp only
    have hmod : (i + 1) % SIZE_T = i + 1 := Nat.mod_eq_of_lt (by omega)
    rw [hmod]
    exact hrun f (by omega)

/-- With `power` the largest `size_t`, the test `i <= power` never fails: the loop of
`PowElements` is still running after any number of rounds. -/
theorem pow_loop_never_ends {T : Type} [Mul T] {v nv : Vector} (hn : v.n = nv.n)
    (hsep : Separate v nv) :
    ∀ (fuel i : Nat) (h : Heap T), i < SIZE_T → Valid h v → Valid h nv →
      pow_loop v nv (SIZE_T - 1) fuel i h = none := by
  intro fuel
  induction fuel with
  | zero => intro i h _ _ _; rfl
  | succ f ih =>
    intro i h hi hv hnv
    obtain ⟨h1, hit, hv1, _, hfr1⟩ := binary_loop_spec (fun x y : T => x * y) hnv hv hnv
      hn.symm rfl (Or.inr rfl) (Or.inl hsep)
    have hk1 : Heap.block h1 v.v = h.block v.v := block_kept_of_write hv hsep hfr1
    unfold pow_loop
    rw [if_pos (by omega), steps_valid hv]
    dsimp only
    rw [hn, hit]
    dsimp only
    exact ih _ h1 (Nat.mod_lt _ (by unfold SIZE_T; omega)) (valid_of_block_eq hv hk1) hv1

end Vector
end cda

namespace cda
namespace Vector

/-- For every `power` below the largest `size_t`, `PowElements(power)` returns, given
enough fuel and the allocation granted, a vector of the same length whose elements are
the `power`-th powers; the receiver keeps its buffer. -/
theorem PowElements_spec {T : Type} [Zero T] [Monoid T] (al : Allocator T) {h : Heap T}
    {v : Vector} (power : Nat) (hv : Valid h v) (hp : power + 1 < SIZE_T)
    (hal : v.n ≠ 0 → al.refuses v.n = false) :
    ∃ fuel h2 r, (∀ f, fuel ≤ f → PowElements al h v power f = some (.ok (h2, r))) ∧
      Valid h2 r ∧ r.n = v.n ∧ elems h2 r = (elems h v).map (fun x => x ^ power) ∧
      Heap.block h2 v.v = h.block v.v := by
  obtain ⟨h0, nv, hc, hnv, hn0, hkept0⟩ := ctor_size_ok al h 0 (by decide)
    (fun hne => absurd rfl hne)
  have hk0 := hkept0 v hv
  have hv0 := valid_of_block_eq hv hk0.1
  by_cases hp0 : power = 0
  · obtain ⟨h1, ones, hres1, hvo, hno, heo, hkept1⟩ :=
      ctor_fill_spec al h0 v.n (1 : T) hv.1 hal
    have hnull : nv.v = nullptr := (valid_null hnv hn0).1
    have hk1 := hkept1 v hv0
    refine ⟨0, h1, ⟨ones.n, ones.v, ones.it_end⟩, fun f _ => ?_, ?_, hno, ?_, hk1.1.trans hk0.1⟩
    · unfold PowElements Ones_of_size assign_move
      rw [hc]
      dsimp only
      rw [if_pos hp0, hres1]
      dsimp only
      rw [hnull]
      simp [std_free]
    · cases ones; exact hvo
    · have hl := valid_length hv
      have : elems h1 (⟨ones.n, ones.v, ones.it_end⟩ : Vector) = elems h1 ones := rfl
      rw [this, heo, hp0]
      simp only [pow_zero]
      rw [← hl]
      exact (List.map_const' (elems h v) (1 : T)).symm
  · obtain ⟨h1, nv1, hres1, hv1, hn1, he1, hkept1⟩ := assign_copy_spec al hv0 hnv hk0.2 hal
    have hk1 := hkept1 v hv0 hk0.2
    have hvv1 := valid_of_block_eq hv0 hk1.1
    obtain ⟨h2, hrun, hv2, he2, hfr2⟩ := pow_loop_spec power (elems h v) hp hn1.symm hk1.2
      (power - 1) 2 h1 (by omega) (by omega) hvv1 hv1
      (by rw [elems_of_block_eq hk1.1, elems_of_block_eq hk0.1])
      (by
        rw [he1, elems_of_block_eq hk0.1]
        simp)
    refine ⟨power, h2, nv1, fun f hf => ?_, hv2, hn1, he2, ?_⟩
    · unfold PowElements
      rw [hc]
      dsimp only
      rw [if_neg hp0, hres1]
      dsimp only
      rw [hrun f (by omega)]
    · exact (block_kept_of_write hvv1 hk1.2 hfr2).trans (hk1.1.trans hk0.1)

/-- With `power` the largest `size_t`, `PowElements(power)` has not returned after any
number of rounds of its loop. -/
theorem PowElements_never_returns {T : Type} [Zero T] [One T] [Mul T] (al : Allocator T)
    {h : Heap T} {v : Vector} (hv : Valid h v) (hal : v.n ≠ 0 → al.refuses v.n = false)
    (fuel : Nat) : PowElements al h v (SIZE_T - 1) fuel = none := by
  obtain ⟨h0, nv, hc, hnv, hn0, hkept0⟩ := ctor_size_ok al h 0 (by decide)
    (fun hne => absurd rfl hne)
  have hk0 := hkept0 v hv
  have hv0 := valid_of_block_eq hv hk0.1
  obtain ⟨h1, nv1, hres1, hv1, hn1, _, hkept1⟩ := assign_copy_spec al hv0 hnv hk0.2 hal
  have hk1 := hkept1 v hv0 hk0.2
  unfold PowElements
  rw [hc]
  dsimp only
  rw [if_neg (by decide), hres1]
  dsimp only
  rw [pow_loop_never_ends hn1.symm hk1.2 fuel 2 h1 (by decide)
    (valid_of_block_eq hv0 hk1.1) hv1]

/-- C19: on the vector `[1, 2, 3]` the call `PowElements(2 ^ 64 - 1)` never returns: in
`for (size_t i = 2; i <= power; ++i)` the test holds for every `size_t` value of `i`, and
`++i` wraps, so the loop is still running after any number of rounds. For every smaller
`power` the call returns the element-wise powers (`PowElements_spec`), as it does here
for the powers `0`, `1` and `3`. -/
theorem C19_PowElements_never_returns_at_size_max :
    (∀ fuel, PowElements sample_alloc sample_heap sample_a 18446744073709551615 fuel = none) ∧
    (∃ h1 r, PowElements sample_alloc sample_heap sample_a 0 0 = some (.ok (h1, r)) ∧
      elems h1 r = [1, 1, 1]) ∧
    (∃ h1 r, PowElements sample_alloc sample_heap sample_a 1 1 = some (.ok (h1, r)) ∧
      elems h1 r = [1, 2, 3]) ∧
    (∃ h1 r, PowElements sample_alloc sample_heap sample_a 3 3 = some (.ok (h1, r)) ∧
      elems h1 r = [1, 8, 27]) := by
  refine ⟨fun fuel => ?_,
    ⟨[some [1, 2, 3], some [9], some [1, 1, 1]], ⟨3, ⟨some 2, 0⟩, ⟨some 2, 3⟩⟩,
      by decide, by decide⟩,
    ⟨[some [1, 2, 3], some [9], some [1, 2, 3]], ⟨3, ⟨some 2, 0⟩, ⟨some 2, 3⟩⟩,
      by decide, by decide⟩,
    ⟨[some [1, 2, 3], some [9], some [1, 8, 27]], ⟨3, ⟨some 2, 0⟩, ⟨some 2, 3⟩⟩,
      by decide, by decide⟩⟩
  exact PowElements_never_returns sample_alloc (by decide) (fun _ => by decide) fuel

end Vector
end cda

/-! ## The claims on `Sort()` -/

namespace cda
namespace pde
open Vector
section SortLemmas
variable {T : Type} [LinearOrder T]

theorem carry_perm : ∀ (x : T) (ys : List T), (carry x ys).Perm (x :: ys)
  | _, [] => List.Perm.refl _
  | x, y :: ys => by
    unfold carry
    by_cases hxy : x > y
    · rw [if_pos hxy]
      exact ((carry_perm x ys).cons y).trans (List.Perm.swap x y ys)
    · rw [if_neg hxy]
      exact (carry_perm y ys).cons x

theorem carry_unchanged : ∀ (x : T) (ys : List T), carry_changed x ys = false →
    carry x ys = x :: ys ∧ List.Chain (fun a b => a ≤ b) x ys
  | _, [] => fun _ => ⟨rfl, List.Chain.nil⟩
  | x, y :: ys => by
    intro hc
    unfold carry_changed at hc
    unfold carry
    by_cases hxy : x > y
    · rw [if_pos hxy] at hc; cases hc
    · rw [if_neg hxy] at hc
      rw [if_neg hxy]
      obtain ⟨h1, h2⟩ := carry_unchanged y ys hc
      exact ⟨by rw [h1], List.Chain.cons (le_of_not_lt hxy) h2⟩

theorem carry_changed_of_chain : ∀ (x : T) (ys : List T),
    List.Chain (fun a b => a ≤ b) x ys → carry_changed x ys = false
  | _, [] => fun _ => rfl
  | x, y :: ys => by
    intro hc
    cases hc with
    | cons hxy hrest =>
      unfold carry_changed
      rw [if_neg (not_lt_of_le hxy)]
      exact carry_changed_of_chain y ys hrest

theorem inversions_carry : ∀ (x : T) (ys : List T),
    inversions (carry x ys) + (if carry_changed x ys = true then 1 else 0) ≤
      inversions (x :: ys)
  | _, [] => by simp [carry, carry_changed, inversions]
  | x, y :: ys => by
    have ih1 := inversions_carry x ys
    have ih2 := inversions_carry y ys
    unfold carry carry_changed
    have hR : inversions (x :: y :: ys) = (y :: ys).countP (fun z => decide (z < x)) +
        (ys.countP (fun z => decide (z < y)) + inversions ys) := rfl
    have hx : inversions (x :: ys) = ys.countP (fun z => decide (z < x)) + inversions ys := rfl
    have hy : inversions (y :: ys) = ys.countP (fun z => decide (z < y)) + inversions ys := rfl
    by_cases hxy : x > y
    · rw [if_pos hxy, if_pos hxy, if_pos rfl]
      have hL : inversions (y :: carry x ys) =
          (carry x ys).countP (fun z => decide (z < y)) + inversions (carry x ys) := rfl
      have hcount : (carry x ys).countP (fun z => decide (z < y)) =
          ys.countP (fun z => decide (z < y)) := by
        rw [(carry_perm x ys).countP_eq, List.countP_cons_of_neg]
        simpa using le_of_lt hxy
      have hc2 : (y :: ys).countP (fun z => decide (z < x)) =
          ys.countP (fun z => decide (z < x)) + 1 :=
        List.countP_cons_of_pos _ _ (by simpa using hxy)
      rw [hL, hR, hcount, hc2]
      rw [hx] at ih1
      omega
    · rw [if_neg hxy, if_neg hxy]
      have hL : inversions (x :: carry y ys) =
          (carry y ys).countP (fun z => decide (z < x)) + inversions (carry y ys) := rfl
      have hcount : (carry y ys).countP (fun z => decide (z < x)) =
          (y :: ys).countP (fun z => decide (z < x)) := (carry_perm y ys).countP_eq _
      rw [hL, hR, hcount]
      rw [hy] at ih2
      omega

end SortLemmas
end pde
end cda

namespace cda
namespace pde
open Vector
section SortHeapLemmas
variable {T : Type} [LinearOrder T]

theorem ptr_add_add (p : Ptr) (k : Nat) : (p.add 1).add k = p.add (k + 1) := by
  show Ptr.mk p.blk (p.off + 1 + k) = Ptr.mk p.blk (p.off + (k + 1))
  congr 1
  omega

theorem set_swap_neighbours {S : Type} (x y : S) (ys : List S) :
    ∀ done : List S, ((done ++ x :: y :: ys).set (done.length + 1) x).set done.length y =
      done ++ y :: x :: ys
  | [] => rfl
  | d :: done => by
    simp only [List.cons_append, List.length_cons, List.set_cons_succ, List.cons.injEq,
      true_and]
    exact set_swap_neighbours x y ys done

/-- The inner loop of `Sort()` from iteration `done.length` on, with `x` carried forward
and `todo` still to visit, does on the buffer what `carry` does on the list. -/
theorem Sort_iterate_spec {v : Vector} :
    ∀ (todo done : List T) (x : T) (g : Heap T) (c0 : Bool), Valid g v →
      elems g v = done ++ x :: todo →
      ∃ g1, iterate (Sort_body v) done.length todo.length (g, c0) =
          some (g1, c0 || carry_changed x todo) ∧
        Valid g1 v ∧ elems g1 v = done ++ carry x todo ∧
        (carry_changed x todo = false → g1 = g) ∧
        (∀ q : Ptr, q.blk ≠ v.v.blk → Heap.block g1 q = g.block q) := by
  intro todo
  induction todo with
  | nil =>
    intro done x g c0 hv he
    exact ⟨g, by simp [iterate, carry_changed], hv, he, fun _ => rfl, fun _ _ => rfl⟩
  | cons y ys ih =>
    intro done x g c0 hv he
    have hl := valid_length hv
    have hlen : (elems g v).length = done.length + (ys.length + 2) := by
      rw [he]; simp
    have hr1 : g.read ((Begin v).add done.length) = some x := by
      have := subscript_eq hv done.length
      rw [he, List.getElem?_append_right (Nat.le_refl _)] at this
      simpa using this
    have hr2 : g.read (((Begin v).add 1).add done.length) = some y := by
      rw [ptr_add_add]
      have := subscript_eq hv (done.length + 1)
      rw [he, List.getElem?_append_right (by omega)] at this
      simpa using this
    by_cases hxy : x > y
    · obtain ⟨g1, hw1, hv1, he1, hf1⟩ := write_valid hv (done.length + 1) x (by omega)
      obtain ⟨g2, hw2, hv2, he2, hf2⟩ := write_valid hv1 done.length y (by omega)
      have he2' : elems g2 v = (done ++ [y]) ++ x :: ys := by
        rw [he2, he1, he, set_swap_neighbours]
        simp
      obtain ⟨g3, hit, hv3, he3, _, hf3⟩ := ih (done ++ [y]) x g2 true hv2 he2'
      refine ⟨g3, ?_, hv3, ?_, ?_, fun q hq => ((hf3 q hq).trans (hf2 q hq)).trans (hf1 q hq)⟩
      · have hstep : Sort_body v done.length (g, c0) = some (g2, true) := by
          unfold Sort_body
          dsimp only
          rw [hr1, hr2]
          dsimp only
          rw [if_pos hxy, ptr_add_add]
          have hw1' : g.write ((Begin v).add (done.length + 1)) x = some g1 := hw1
          rw [hw1']
          dsimp only
          have hw2' : g1.write ((Begin v).add done.length) y = some g2 := hw2
          rw [hw2']
        have hlen' : (done ++ [y]).length = done.length + 1 := by simp
        rw [hlen'] at hit
        simp only [List.length_cons, iterate, hstep, hit, carry_changed, if_pos hxy,
          Bool.true_or, Bool.or_true]
      · rw [he3]
        simp [carry, if_pos hxy]
      · intro hc
        simp [carry_changed, if_pos hxy] at hc
    · have he' : elems g v = (done ++ [x]) ++ y :: ys := by
        rw [he]; simp
      obtain ⟨g3, hit, hv3, he3, hsame, hf3⟩ := ih (done ++ [x]) y g c0 hv he'
      refine ⟨g3, ?_, hv3, ?_, ?_, hf3⟩
      · have hstep : Sort_body v done.length (g, c0) = some (g, c0) := by
          unfold Sort_body
          dsimp only
          rw [hr1, hr2]
          dsimp only
          rw [if_neg hxy]
        have hlen' : (done ++ [x]).length = done.length + 1 := by simp
        rw [hlen'] at hit
        simp only [List.length_cons, iterate, hstep, hit, carry_changed, if_neg hxy]
      · rw [he3]
        simp [carry, if_neg hxy]
      · intro hc
        apply hsame
        simpa [carry_changed, if_neg hxy] using hc

theorem Sort_pass_spec {h : Heap T} {v : Vector} (hv : Valid h v) (x : T) (xs : List T)
    (he : elems h v = x :: xs) :
    ∃ g1, Sort_pass h v = some (g1, carry_changed x xs) ∧ Valid g1 v ∧
      elems g1 v = carry x xs ∧ (carry_changed x xs = false → g1 = h) ∧
      (∀ q : Ptr, q.blk ≠ v.v.blk → Heap.block g1 q = h.block q) := by
  have hl := valid_length hv
  rw [he] at hl
  have hn : v.n ≠ 0 := by
    intro h0; rw [h0] at hl; cases hl
  obtain ⟨g1, hit, hv1, he1, hsame, hf1⟩ := Sort_iterate_spec xs [] x h false hv (by simpa using he)
  refine ⟨g1, ?_, hv1, by simpa using he1, hsame, hf1⟩
  unfold Sort_pass
  have hsteps : Vector.steps ((Begin v).add 1) (End v) = some xs.length := by
    obtain ⟨_, _, h3⟩ := hv
    obtain ⟨_, ho, hend, _⟩ := h3 hn
    unfold Vector.steps Begin End
    rw [hend]
    have hlen : v.n = xs.length + 1 := by simpa using hl.symm
    simp only [Ptr.add, ho, hlen]
    simp
  rw [hsteps]
  dsimp only
  simpa using hit

end SortHeapLemmas
end pde
end cda

namespace cda
namespace pde
open Vector

theorem Sort_spec {T : Type} [LinearOrder T] {v : Vector} (hn : v.n ≠ 0) :
    ∀ (m : Nat) (h : Heap T), Valid h v → inversions (elems h v) ≤ m →
      ∃ h1, (∀ fuel, m < fuel → Sort_ v fuel h = some (some h1)) ∧ Valid h1 v ∧
        List.Sorted (fun a b => a ≤ b) (elems h1 v) ∧ (elems h1 v).Perm (elems h v) ∧
        (List.Sorted (fun a b => a ≤ b) (elems h v) → h1 = h) ∧
        (∀ q : Ptr, q.blk ≠ v.v.blk → Heap.block h1 q = h.block q) := by
  intro m
  induction m with
  | zero =>
    intro h hv hm
    have hl := valid_length hv
    match he : elems h v, hl with
    | [], hl' => exact absurd hl'.symm hn
    | x :: xs, _ =>
      obtain ⟨g1, hpass, hv1, he1, hsame, hf1⟩ := Sort_pass_spec hv x xs he
      have hinv := inversions_carry x xs
      rw [he] at hm
      have hch : carry_changed x xs = false := by
        by_contra hc
        rw [if_pos (by simpa using hc)] at hinv
        omega
      obtain ⟨hcarry, hchain⟩ := carry_unchanged x xs hch
      have hg : g1 = h := hsame hch
      subst hg
      refine ⟨g1, fun fuel hf => ?_, hv1, ?_, List.Perm.of_eq he, fun _ => rfl, fun _ _ => rfl⟩
      · obtain ⟨f, rfl⟩ : ∃ f, fuel = f + 1 := ⟨fuel - 1, by omega⟩
        unfold Sort_
        rw [hpass, hch]
        simp
      · rw [he]
        exact List.chain_iff_pairwise.mp hchain
  | succ m ih =>
    intro h hv hm
    have hl := valid_length hv
    match he : elems h v, hl with
    | [], hl' => exact absurd hl'.symm hn
    | x :: xs, _ =>
      obtain ⟨g1, hpass, hv1, he1, hsame, hf1⟩ := Sort_pass_spec hv x xs he
      have hinv := inversions_carry x xs
      rw [he] at hm
      by_cases hch : carry_changed x xs = true
      · rw [if_pos hch] at hinv
        obtain ⟨h1, hrun, hvh1, hsorted, hperm, _, hf2⟩ := ih g1 hv1 (by rw [he1]; omega)
        refine ⟨h1, fun fuel hf => ?_, hvh1, hsorted, ?_, fun hs => ?_,
          fun q hq => (hf2 q hq).trans (hf1 q hq)⟩
        · obtain ⟨f, rfl⟩ : ∃ f, fuel = f + 1 := ⟨fuel - 1, by omega⟩
          unfold Sort_
          rw [hpass, hch]
          simp only [if_true]
          exact hrun f (by omega)
        · rw [he1] at hperm
          exact hperm.trans (carry_perm x xs)
        · exfalso
          have := carry_changed_of_chain x xs (List.chain_iff_pairwise.mpr hs)
          rw [this] at hch
          cases hch
      · have hch : carry_changed x xs = false := by simpa using hch
        obtain ⟨hcarry, hchain⟩ := carry_unchanged x xs hch
        have hg : g1 = h := hsame hch
        subst hg
        refine ⟨g1, fun fuel hf => ?_, hv1, ?_, List.Perm.of_eq he, fun _ => rfl, fun _ _ => rfl⟩
        · obtain ⟨f, rfl⟩ : ∃ f, fuel = f + 1 := ⟨fuel - 1, by omega⟩
          unfold Sort_
          rw [hpass, hch]
          simp
        · rw [he]
          exact List.chain_iff_pairwise.mp hchain

end pde

namespace Vector

/-- C20: on a vector of length at least `1` over a totally ordered element type, the
pass-until-no-swap `Sort()` of the NumericalPDEs Vector terminates (every run with enough
fuel returns the same heap) and leaves the vector in ascending order, `v[i] <= v[i+1]` at
all adjacent positions, with the same length and the same multiset of elements; sorting a
vector that is already sorted, or has a single element, changes nothing. -/
theorem C20_Sort_terminates_sorted {T : Type} [LinearOrder T] (h : Heap T) (v : Vector)
    (hv : Valid h v) (hn : v.Size ≥ 1) :
    ∃ fuel h1, (∀ f, fuel ≤ f → pde.Sort_ v f h = some (some h1)) ∧ Valid h1 v ∧
      (elems h1 v).length = v.Size ∧
      (∀ i x y, subscript h1 v i = some x → subscript h1 v (i + 1) = some y → x ≤ y) ∧
      List.Sorted (fun a b => a ≤ b) (elems h1 v) ∧ (elems h1 v).Perm (elems h v) ∧
      (List.Sorted (fun a b => a ≤ b) (elems h v) → h1 = h) ∧ (v.Size = 1 → h1 = h) := by
  have hn0 : v.n ≠ 0 := by
    have : v.n ≥ 1 := hn
    omega
  obtain ⟨h1, hrun, hv1, hsorted, hperm, hsame, _⟩ :=
    pde.Sort_spec hn0 (pde.inversions (elems h v)) h hv (Nat.le_refl _)
  refine ⟨pde.inversions (elems h v) + 1, h1, fun f hf => hrun f (by omega), hv1,
    valid_length hv1, fun i x y hx hy => ?_, hsorted, hperm, hsame, fun h1n => ?_⟩
  · rw [subscript_eq hv1] at hx hy
    obtain ⟨hi, hxe⟩ := List.getElem?_eq_some.mp hx
    obtain ⟨hj, hye⟩ := List.getElem?_eq_some.mp hy
    rw [← hxe, ← hye]
    exact List.pairwise_iff_getElem.mp hsorted i (i + 1) hi hj (by omega)
  · apply hsame
    have hl := valid_length hv
    have h1n : v.n = 1 := h1n
    rw [h1n] at hl
    match he : elems h v, hl with
    | [x], _ => exact List.sorted_singleton x

/-- C20, at `Sort([3, 1, 2])`, which yields `[1, 2, 3]`. -/
theorem C20_Sort_witness :
    Valid sort_heap sample_a ∧ sample_a.Size ≥ 1 ∧
    pde.Sort_ sample_a 2 sort_heap = some (some [some [1, 2, 3], some [5]]) ∧
    ∃ fuel h1, (∀ f, fuel ≤ f → pde.Sort_ sample_a f sort_heap = some (some h1)) ∧
      Valid h1 sample_a ∧ (elems h1 sample_a).length = sample_a.Size ∧
      (∀ i x y, subscript h1 sample_a i = some x → subscript h1 sample_a (i + 1) = some y →
        x ≤ y) ∧
      List.Sorted (fun a b => a ≤ b) (elems h1 sample_a) ∧
      (elems h1 sample_a).Perm (elems sort_heap sample_a) ∧
      (List.Sorted (fun a b => a ≤ b) (elems sort_heap sample_a) → h1 = sort_heap) ∧
      (sample_a.Size = 1 → h1 = sort_heap) :=
  ⟨by decide, by decide, by decide,
    C20_Sort_terminates_sorted sort_heap sample_a (by decide) (by decide)⟩

end Vector
end cda

namespace cda
namespace Vector

/-! ## Claims on `HasDuplicate`: lemmas -/

section DuplicateLemmas
variable {T : Type}

theorem ptr_add_ne_iff (p : Ptr) (i j : Nat) : p.add i ≠ p.add j ↔ i ≠ j := by
  unfold Ptr.add
  constructor
  · intro hne hij; exact hne (by rw [hij])
  · intro hne heq
    have : p.off + i = p.off + j := congrArg Ptr.off heq
    omega

theorem duplicate_inner_spec (close : T → T → Bool) {h : Heap T} {s : Vector} (L : List T)
    (hread : ∀ k, h.read (s.begin.add k) = L[k]?) (i : Nat) (hi : i < L.length) :
    ∀ (c j : Nat), j + c = L.length →
      ∃ b, duplicate_inner close h s i j c = some b ∧
        (b = true ↔ ∃ k x y, j ≤ k ∧ k ≠ i ∧ L[i]? = some x ∧ L[k]? = some y ∧
          close x y = true) := by
  intro c
  induction c with
  | zero =>
    intro j hj
    refine ⟨false, rfl, ?_⟩
    constructor
    · intro hb; cases hb
    · rintro ⟨k, x, y, hjk, _, _, hy, _⟩
      have := (List.getElem?_eq_some_iff.mp hy).1
      omega
  | succ c ih =>
    intro j hj
    have hjL : j < L.length := by omega
    obtain ⟨b, hb, hiff⟩ := ih (j + 1) (by omega)
    unfold duplicate_inner
    by_cases hij : i = j
    · rw [if_neg (by rw [hij]; exact fun hne => hne rfl)]
      refine ⟨b, hb, hiff.trans ?_⟩
      constructor
      · rintro ⟨k, x, y, hjk, hk⟩
        exact ⟨k, x, y, by omega, hk⟩
      · rintro ⟨k, x, y, hjk, hki, hk⟩
        exact ⟨k, x, y, by omega, hki, hk⟩
    · have hri : h.read (s.begin.add i) = some L[i] := by
        rw [hread i, List.getElem?_eq_getElem hi]
      have hrj : h.read (s.begin.add j) = some L[j] := by
        rw [hread j, List.getElem?_eq_getElem hjL]
      rw [if_pos ((ptr_add_ne_iff _ _ _).mpr hij), hri, hrj]
      dsimp only
      by_cases hc : close L[i] L[j] = true
      · rw [if_pos hc]
        exact ⟨true, rfl, fun _ => ⟨j, L[i], L[j], Nat.le_refl _, fun hji => hij hji.symm,
          List.getElem?_eq_getElem hi, List.getElem?_eq_getElem hjL, hc⟩, fun _ => rfl⟩
      · rw [if_neg hc]
        refine ⟨b, hb, hiff.trans ?_⟩
        constructor
        · rintro ⟨k, x, y, hjk, hk⟩
          exact ⟨k, x, y, by omega, hk⟩
        · rintro ⟨k, x, y, hjk, hki, hx, hy, hxy⟩
          by_cases hkj : k = j
          · exfalso
            rw [List.getElem?_eq_getElem hi] at hx
            rw [hkj, List.getElem?_eq_getElem hjL] at hy
            cases hx; cases hy
            exact hc hxy
          · exact ⟨k, x, y, by omega, hki, hx, hy, hxy⟩

theorem duplicate_outer_spec (close : T → T → Bool) {h : Heap T} {s : Vector} (L : List T)
    (hread : ∀ k, h.read (s.begin.add k) = L[k]?) :
    ∀ (c i : Nat), i + c = L.length →
      ∃ b, duplicate_outer close h s L.length i c = some b ∧
        (b = true ↔ ∃ k1 k2 x y, i ≤ k1 ∧ k2 ≠ k1 ∧ L[k1]? = some x ∧ L[k2]? = some y ∧
          close x y = true) := by
  intro c
  induction c with
  | zero =>
    intro i hi
    refine ⟨false, rfl, ?_⟩
    constructor
    · intro hb; cases hb
    · rintro ⟨k1, _, x, _, hik, _, hx, _⟩
      have := (List.getElem?_eq_some_iff.mp hx).1
      omega
  | succ c ih =>
    intro i hi
    have hiL : i < L.length := by omega
    obtain ⟨b1, hb1, hiff1⟩ := duplicate_inner_spec close L hread i hiL L.length 0 (by omega)
    obtain ⟨b, hb, hiff⟩ := ih (i + 1) (by omega)
    unfold duplicate_outer
    rw [hb1]
    cases b1 with
    | true =>
      dsimp only
      obtain ⟨k, x, y, _, hki, hx, hy, hxy⟩ := hiff1.mp rfl
      exact ⟨true, rfl, fun _ => ⟨i, k, x, y, Nat.le_refl _, hki, hx, hy, hxy⟩, fun _ => rfl⟩
    | false =>
      dsimp only
      refine ⟨b, hb, hiff.trans ?_⟩
      constructor
      · rintro ⟨k1, k2, x, y, hik, hk⟩
        exact ⟨k1, k2, x, y, by omega, hk⟩
      · rintro ⟨k1, k2, x, y, hik, hne, hx, hy, hxy⟩
        by_cases hk1 : k1 = i
        · exfalso
          have : false = true := hiff1.mpr ⟨k2, x, y, Nat.zero_le _, by omega, hk1 ▸ hx, hy, hxy⟩
          cases this
        · exact ⟨k1, k2, x, y, by omega, hne, hx, hy, hxy⟩

/-- On a valid vector the scan for duplicates returns, and it returns `true` exactly when
two different positions hold elements that are `close`. -/
theorem duplicate_scan_spec (close : T → T → Bool) {h : Heap T} {s : Vector}
    (hv : Valid h s) :
    ∃ b, duplicate_scan close h s = some b ∧
      (b = true ↔ ∃ i j x y, i ≠ j ∧ subscript h s i = some x ∧ subscript h s j = some y ∧
        close x y = true) := by
  have hread : ∀ k, h.read (s.begin.add k) = (elems h s)[k]? := fun k => subscript_eq hv k
  obtain ⟨b, hb, hiff⟩ := duplicate_outer_spec close (elems h s) hread (elems h s).length 0
    (by omega)
  unfold duplicate_scan
  rw [steps_valid hv]
  dsimp only
  rw [← valid_length hv]
  refine ⟨b, hb, hiff.trans ?_⟩
  constructor
  · rintro ⟨k1, k2, x, y, _, hne, hx, hy, hxy⟩
    exact ⟨k1, k2, x, y, fun hk => hne hk.symm, by rw [subscript_eq hv]; exact hx,
      by rw [subscript_eq hv]; exact hy, hxy⟩
  · rintro ⟨k1, k2, x, y, hne, hx, hy, hxy⟩
    rw [subscript_eq hv] at hx hy
    exact ⟨k1, k2, x, y, Nat.zero_le _, fun hk => hne hk.symm, hx, hy, hxy⟩

end DuplicateLemmas

/-- C21: on a valid vector `HasDuplicate()` returns, and it returns `true` exactly when
two different positions hold equal elements; in particular it returns `false` on a
vector of length `0` or `1`. -/
theorem C21_HasDuplicate_iff_two_positions_equal {T : Type} [DecidableEq T] {h : Heap T}
    {v : Vector} (hv : Valid h v) :
    ∃ b, HasDuplicate h v = some b ∧
      (b = true ↔ ∃ i j x, i ≠ j ∧ subscript h v i = some x ∧ subscript h v j = some x) ∧
      (v.Size ≤ 1 → b = false) := by
  obtain ⟨b, hb, hiff⟩ := duplicate_scan_spec (fun x y : T => decide (x = y)) hv
  have hiff2 : b = true ↔
      ∃ i j x, i ≠ j ∧ subscript h v i = some x ∧ subscript h v j = some x := by
    rw [hiff]
    constructor
    · rintro ⟨i, j, x, y, hne, hx, hy, hxy⟩
      have hxy2 : x = y := of_decide_eq_true hxy
      exact ⟨i, j, x, hne, hx, hxy2 ▸ hy⟩
    · rintro ⟨i, j, x, hne, hx, hy⟩
      exact ⟨i, j, x, x, hne, hx, hy, decide_eq_true rfl⟩
  refine ⟨b, hb, hiff2, ?_⟩
  intro hn
  cases hbb : b with
  | false => rfl
  | true =>
    exfalso
    obtain ⟨i, j, x, hne, hx, hy⟩ := hiff2.mp hbb
    rw [subscript_eq hv] at hx hy
    have h1 := (List.getElem?_eq_some_iff.mp hx).1
    have h2 := (List.getElem?_eq_some_iff.mp hy).1
    rw [valid_length hv] at h1 h2
    unfold Size at hn
    omega

/-- C21, at `[1, 2, 3]` (no duplicate), `[1, 2, 2]` (a duplicate), the empty vector and
the vector `[9]` of length one. -/
theorem C21_HasDuplicate_witness :
    Valid dup_heap sample_a ∧
    (∃ b, HasDuplicate dup_heap sample_a = some b ∧
      (b = true ↔ ∃ i j x, i ≠ j ∧ subscript dup_heap sample_a i = some x ∧
        subscript dup_heap sample_a j = some x) ∧ (sample_a.Size ≤ 1 → b = false)) ∧
    HasDuplicate sample_heap sample_a = some false ∧
    HasDuplicate dup_heap sample_a = some true ∧
    HasDuplicate dup_heap empty_v = some false ∧
    HasDuplicate sample_heap sample_b = some false :=
  ⟨by decide, C21_HasDuplicate_iff_two_positions_equal (by decide), by decide, by decide,
    by decide, by decide⟩

/-- C22: with `std::sqrt(d * d)` equal to `|d|`, `HasDuplicate(accuracy)` on a valid
vector returns, and it returns `true` exactly when two different positions hold elements
whose distance is strictly below `accuracy`. -/
theorem C22_HasDuplicate_accuracy_iff_two_positions_close {T : Type} [LinearOrderedRing T]
    (sqrt : T → T) (hsqrt : ∀ d : T, sqrt (d * d) = |d|) {h : Heap T} {v : Vector}
    (hv : Valid h v) (accuracy : T) :
    ∃ b, HasDuplicate_accuracy sqrt h v accuracy = some b ∧
      (b = true ↔ ∃ i j x y, i ≠ j ∧ subscript h v i = some x ∧ subscript h v j = some y ∧
        |x - y| < accuracy) := by
  obtain ⟨b, hb, hiff⟩ := duplicate_scan_spec
    (fun x y : T => decide (sqrt ((x - y) * (x - y)) < accuracy)) hv
  refine ⟨b, hb, hiff.trans ?_⟩
  constructor
  · rintro ⟨i, j, x, y, hne, hx, hy, hxy⟩
    have h1 := of_decide_eq_true hxy
    rw [hsqrt] at h1
    exact ⟨i, j, x, y, hne, hx, hy, h1⟩
  · rintro ⟨i, j, x, y, hne, hx, hy, hxy⟩
    refine ⟨i, j, x, y, hne, hx, hy, decide_eq_true ?_⟩
    rw [hsqrt]; exact hxy

end Vector
end cda

namespace cda
namespace Vector

/-- C22, at the vector `[1.0, 1.0009]` of reals with `std::sqrt` the real square root:
`true` for the accuracy `0.01`, `false` for `0.0001`. -/
theorem C22_HasDuplicate_accuracy_witness :
    (∀ d : ℝ, Real.sqrt (d * d) = |d|) ∧
    Valid ([some [(1 : ℝ), 1.0009]] : Heap ℝ) ⟨2, ⟨some 0, 0⟩, ⟨some 0, 2⟩⟩ ∧
    HasDuplicate_accuracy Real.sqrt ([some [(1 : ℝ), 1.0009]] : Heap ℝ)
      ⟨2, ⟨some 0, 0⟩, ⟨some 0, 2⟩⟩ 0.01 = some true ∧
    HasDuplicate_accuracy Real.sqrt ([some [(1 : ℝ), 1.0009]] : Heap ℝ)
      ⟨2, ⟨some 0, 0⟩, ⟨some 0, 2⟩⟩ 0.0001 = some false := by
  have hv : Valid ([some [(1 : ℝ), 1.0009]] : Heap ℝ) ⟨2, ⟨some 0, 0⟩, ⟨some 0, 2⟩⟩ := by
    decide
  have hsub : ∀ i x, subscript ([some [(1 : ℝ), 1.0009]] : Heap ℝ)
      ⟨2, ⟨some 0, 0⟩, ⟨some 0, 2⟩⟩ i = some x →
      (i = 0 ∧ x = 1) ∨ (i = 1 ∧ x = 1.0009) := by
    intro i x hx
    match i, hx with
    | 0, hx => left; exact ⟨rfl, (Option.some.inj hx).symm⟩
    | 1, hx => right; exact ⟨rfl, (Option.some.inj hx).symm⟩
    | k + 2, hx => cases hx
  refine ⟨Real.sqrt_mul_self_eq_abs, hv, ?_, ?_⟩
  · obtain ⟨b, hb, hiff⟩ := C22_HasDuplicate_accuracy_iff_two_positions_close Real.sqrt
      Real.sqrt_mul_self_eq_abs hv 0.01
    rw [hb, hiff.mpr ⟨0, 1, 1, 1.0009, by decide, rfl, rfl, by rw [abs_lt]; constructor <;> norm_num⟩]
  · obtain ⟨b, hb, hiff⟩ := C22_HasDuplicate_accuracy_iff_two_positions_close Real.sqrt
      Real.sqrt_mul_self_eq_abs hv 0.0001
    rw [hb]
    cases hbb : b with
    | false => rfl
    | true =>
      exfalso
      obtain ⟨i, j, x, y, hne, hx, hy, hxy⟩ := hiff.mp hbb
      rw [abs_lt] at hxy
      rcases hsub i x hx with ⟨hi, hx1⟩ | ⟨hi, hx1⟩ <;>
        rcases hsub j y hy with ⟨hj, hy1⟩ | ⟨hj, hy1⟩
      · omega
      · rw [hx1, hy1] at hxy; norm_num at hxy
      · rw [hx1, hy1] at hxy; norm_num at hxy
      · omega

end Vector
end cda

namespace cda
namespace Vector

/-! ## Claims on `Random`: lemmas -/

/-- What `Random(min, max)` stores: element `k` becomes the `k`-th sample times `max`,
plus `min`. -/
theorem Random_spec {T D : Type} [Add D] [Mul D] (to_double : T → D) (of_double : D → T)
    (drand48 : Nat → D) {h : Heap T} {v : Vector} (hv : Valid h v) (min max : T) :
    ∃ h1, Random to_double of_double drand48 h v min max = .ok (h1, v) ∧ Valid h1 v ∧
      elems h1 v = (List.range v.n).map
        (fun k => of_double (drand48 k * to_double max + to_double min)) ∧
      (∀ q : Ptr, q.blk ≠ v.v.blk → Heap.block h1 q = h.block q) := by
  obtain ⟨h1, hit, hv1, he1, hf1⟩ := write_loop_spec hv
    (Random_body to_double of_double drand48 v.begin min max)
    ((List.range v.n).map (fun k => of_double (drand48 k * to_double max + to_double min)))
    (by simp)
    (by
      intro j g z hj _ _ _ hz
      rw [List.getElem?_map, List.getElem?_range hj] at hz
      cases hz
      rfl)
  refine ⟨h1, ?_, hv1, he1, hf1⟩
  unfold Random
  rw [steps_valid hv]
  dsimp only
  rw [hit]

theorem Random_of_size_spec {T D : Type} [Add D] [Mul D] (to_double : T → D)
    (of_double : D → T) (drand48 : Nat → D) (al : Allocator T) (h : Heap T) (size : Nat)
    (hs : size < SIZE_T) (hr : size ≠ 0 → al.refuses size = false) (min max : T) :
    ∃ h1 r, Random_of_size to_double of_double drand48 al h size min max = .ok (h1, r) ∧
      Valid h1 r ∧ r.n = size ∧
      elems h1 r = (List.range size).map
        (fun k => of_double (drand48 k * to_double max + to_double min)) := by
  obtain ⟨h1, r, hc, hv1, hn1, _⟩ := ctor_size_ok al h size hs hr
  obtain ⟨h2, hr2, hv2, he2, _⟩ := Random_spec to_double of_double drand48 hv1 min max
  refine ⟨h2, r, ?_, hv2, hn1, by rw [he2, hn1]⟩
  unfold Random_of_size
  rw [hc]
  dsimp only
  rw [hr2]

/-- C23: `Random(min, max)` stores `u * max + min` for the sample `u`, not a value of
`[min, max)`: with `min = 1`, `max = 2` and the sample `u = 9/10` every element of the
vector of length two becomes `14/5`, which is not below `max`; so do the elements of the
vector the static `Random(1, 1, 2)` returns and those the member of the NumericalPDEs
Vector stores. (The element type and `double` are taken as the rationals.) -/
theorem C23_Random_stores_sample_times_max_plus_min :
    (1 : ℚ) < 2 ∧ (0 : ℚ) ≤ 9 / 10 ∧ (9 / 10 : ℚ) < 1 ∧
    (∃ h1, Random (fun x : ℚ => x) (fun x : ℚ => x) (fun _ => 9 / 10) rat_heap int_v 1 2 =
        .ok (h1, int_v) ∧ elems h1 int_v = [14 / 5, 14 / 5]) ∧
    (∃ h1, pde.Random (fun x : ℚ => x) (fun x : ℚ => x) (fun _ => 9 / 10) rat_heap int_v 1 2 =
        .ok (h1, int_v) ∧ elems h1 int_v = [14 / 5, 14 / 5]) ∧
    (∃ h1 r, Random_of_size (fun x : ℚ => x) (fun x : ℚ => x) (fun _ => 9 / 10)
        ⟨8, by decide, fun _ => false, true, fun _ => 0⟩ rat_heap 1 1 2 = .ok (h1, r) ∧ elems h1 r = [14 / 5]) ∧
    ¬ ((14 / 5 : ℚ) < 2) := by
  have hv : Valid rat_heap int_v := by decide
  have hl : (List.range int_v.n).map
      (fun _ => ((9 / 10 : ℚ) * 2 + 1)) = [14 / 5, 14 / 5] := by
    show [((9 / 10 : ℚ) * 2 + 1), ((9 / 10 : ℚ) * 2 + 1)] = [14 / 5, 14 / 5]
    norm_num
  obtain ⟨h1, hr, _, he, _⟩ := Random_spec (fun x : ℚ => x) (fun x : ℚ => x)
    (fun _ => 9 / 10) hv 1 2
  obtain ⟨h2, r, hr2, _, _, he2⟩ := Random_of_size_spec (fun x : ℚ => x) (fun x : ℚ => x)
    (fun _ => 9 / 10) ⟨8, by decide, fun _ => false, true, fun _ => 0⟩ rat_heap 1 (by decide) (fun _ => rfl) 1 2
  refine ⟨by norm_num, by norm_num, by norm_num, ⟨h1, hr, he.trans hl⟩,
    ⟨h1, hr, he.trans hl⟩, ⟨h2, r, hr2, he2.trans ?_⟩, by norm_num⟩
  show [((9 / 10 : ℚ) * 2 + 1)] = [14 / 5]
  norm_num

end Vector
end cda

namespace cda
namespace pde
open Vector

/-! ## Claims on the reductions: lemmas -/

section ScanLemmas
variable {T : Type}

/-- A counted loop whose `j`-th iteration applies `f` to the `j`-th element of `xs` is
the fold of `f` over `xs`. -/
theorem iterate_fold {σ S : Type} (body : Nat → σ → Option σ) (f : σ → S → σ) (xs : List S)
    (hbody : ∀ (j : Nat) (acc : σ) (hj : j < xs.length), body j acc = some (f acc xs[j]))
    (a : σ) : Vector.iterate body 0 xs.length a = some (xs.foldl f a) := by
  obtain ⟨r, hit, hr⟩ := iterate_inv body (fun k acc => acc = (xs.take k).foldl f a)
    xs.length 0 a rfl
    (by
      intro j acc _ hj hacc
      have hjx : j < xs.length := by omega
      refine ⟨f acc xs[j], hbody j acc hjx, ?_⟩
      show f acc xs[j] = List.foldl f a (List.take (j + 1) xs)
      rw [List.take_succ, List.foldl_append, ← hacc, List.getElem?_eq_getElem hjx]
      rfl)
  rw [hit, hr]
  simp

/-- On a valid vector holding `x :: xs` a scan returns the fold of its step over `xs`,
started at `g x`. -/
theorem scan_spec (g : T → T) (pick : T → T → T) {h : Heap T} {v : Vector}
    (hv : Valid h v) (x : T) (xs : List T) (he : elems h v = x :: xs) :
    scan g pick h v = some (xs.foldl (fun acc y => pick acc (g y)) (g x)) := by
  have hl := valid_length hv
  rw [he] at hl
  have hn : v.n ≠ 0 := by
    intro h0; rw [h0] at hl; cases hl
  have hlen : v.n = xs.length + 1 := by simpa using hl.symm
  have hsteps : Vector.steps ((Begin v).add 1) (End v) = some xs.length := by
    obtain ⟨_, _, h3⟩ := hv
    obtain ⟨_, ho, hend, _⟩ := h3 hn
    unfold Vector.steps Begin End
    rw [hend]
    simp only [Ptr.add, ho, hlen]
    simp
  have hfirst : h.read (Begin v) = some x := by
    have h0 : subscript h v 0 = some x := by rw [subscript_eq hv, he]; simp
    exact h0
  have hread : ∀ (j : Nat) (hj : j < xs.length),
      h.read (((Begin v).add 1).add j) = some xs[j] := by
    intro j hj
    have h1 : subscript h v (j + 1) = some xs[j] := by
      rw [subscript_eq hv, he, List.getElem?_cons_succ, List.getElem?_eq_getElem hj]
    rw [ptr_add_add]
    exact h1
  unfold scan
  rw [hfirst]
  dsimp only
  rw [hsteps]
  dsimp only
  apply iterate_fold
  intro j acc hj
  dsimp only
  rw [hread j hj]

/-- A scan of a vector in which element `0` is no cell of the buffer is undefined. -/
theorem scan_no_first (g : T → T) (pick : T → T → T) {h : Heap T} {v : Vector}
    (hfirst : h.read (Begin v) = none) : scan g pick h v = none := by
  unfold scan
  rw [hfirst]

/-- An empty vector, with no buffer or with a buffer of no cells, has no element `0`. -/
theorem read_empty {h : Heap T} {v : Vector}
    (hbuf : v.v = nullptr ∨ h.block v.v = some []) : h.read v.v = none := by
  unfold Heap.read
  rcases hbuf with hb | hb
  · rw [hb]; rfl
  · rw [hb]; rfl

theorem foldl_greater [LinearOrder T] (g : T → T) :
    ∀ (xs : List T) (a : T),
      (xs.foldl (fun acc y => if g y > acc then g y else acc) a = a ∨
        ∃ y ∈ xs, xs.foldl (fun acc y => if g y > acc then g y else acc) a = g y) ∧
      a ≤ xs.foldl (fun acc y => if g y > acc then g y else acc) a ∧
      ∀ y ∈ xs, g y ≤ xs.foldl (fun acc y => if g y > acc then g y else acc) a
  | [], a => ⟨Or.inl rfl, le_refl _, fun _ hy => by cases hy⟩
  | x :: xs, a => by
    obtain ⟨h1, h2, h3⟩ := foldl_greater g xs (if g x > a then g x else a)
    rw [List.foldl_cons]
    have hle : a ≤ (if g x > a then g x else a) ∧ g x ≤ (if g x > a then g x else a) := by
      by_cases hc : g x > a
      · rw [if_pos hc]; exact ⟨le_of_lt hc, le_refl _⟩
      · rw [if_neg hc]; exact ⟨le_refl _, le_of_not_lt hc⟩
    refine ⟨?_, le_trans hle.1 h2, ?_⟩
    · rcases h1 with h1 | ⟨y, hy, h1⟩
      · by_cases hc : g x > a
        · rw [if_pos hc] at h1
          exact Or.inr ⟨x, List.mem_cons_self _ _, by rw [if_pos hc]; exact h1⟩
        · rw [if_neg hc] at h1
          exact Or.inl (by rw [if_neg hc]; exact h1)
      · exact Or.inr ⟨y, List.mem_cons_of_mem _ hy, h1⟩
    · intro y hy
      rcases List.mem_cons.mp hy with hy | hy
      · rw [hy]; exact le_trans hle.2 h2
      · exact h3 y hy

theorem foldl_less [LinearOrder T] (g : T → T) :
    ∀ (xs : List T) (a : T),
      (xs.foldl (fun acc y => if g y < acc then g y else acc) a = a ∨
        ∃ y ∈ xs, xs.foldl (fun acc y => if g y < acc then g y else acc) a = g y) ∧
      xs.foldl (fun acc y => if g y < acc then g y else acc) a ≤ a ∧
      ∀ y ∈ xs, xs.foldl (fun acc y => if g y < acc then g y else acc) a ≤ g y
  | [], a => ⟨Or.inl rfl, le_refl _, fun _ hy => by cases hy⟩
  | x :: xs, a => by
    obtain ⟨h1, h2, h3⟩ := foldl_less g xs (if g x < a then g x else a)
    rw [List.foldl_cons]
    have hle : (if g x < a then g x else a) ≤ a ∧ (if g x < a then g x else a) ≤ g x := by
      by_cases hc : g x < a
      · rw [if_pos hc]; exact ⟨le_of_lt hc, le_refl _⟩
      · rw [if_neg hc]; exact ⟨le_refl _, le_of_not_lt hc⟩
    refine ⟨?_, le_trans h2 hle.1, ?_⟩
    · rcases h1 with h1 | ⟨y, hy, h1⟩
      · by_cases hc : g x < a
        · rw [if_pos hc] at h1
          exact Or.inr ⟨x, List.mem_cons_self _ _, by rw [if_pos hc]; exact h1⟩
        · rw [if_neg hc] at h1
          exact Or.inl (by rw [if_neg hc]; exact h1)
      · exact Or.inr ⟨y, List.mem_cons_of_mem _ hy, h1⟩
    · intro y hy
      rcases List.mem_cons.mp hy with hy | hy
      · rw [hy]; exact le_trans h2 hle.2
      · exact h3 y hy

/-- The scan that keeps the greater of `g` of the elements: on a valid vector of length
at least `1` it returns `g` of an element, which is at least `g` of every element. -/
theorem scan_greater_spec [LinearOrder T] (g : T → T) {h : Heap T} {v : Vector}
    (hv : Valid h v) (hn : v.n ≠ 0) :
    ∃ m, scan g (fun acc x => if x > acc then x else acc) h v = some m ∧
      (∃ i x, subscript h v i = some x ∧ m = g x) ∧
      ∀ i x, subscript h v i = some x → g x ≤ m := by
  have hl := valid_length hv
  match he : elems h v, hl with
  | [], hl' => exact absurd hl'.symm hn
  | x :: xs, _ =>
    obtain ⟨h1, h2, h3⟩ := foldl_greater g xs (g x)
    refine ⟨_, scan_spec g _ hv x xs he, ?_, ?_⟩
    · rcases h1 with h1 | ⟨y, hy, h1⟩
      · exact ⟨0, x, by rw [subscript_eq hv, he]; simp, h1⟩
      · obtain ⟨i, hi⟩ := List.mem_iff_getElem?.mp hy
        exact ⟨i + 1, y, by rw [subscript_eq hv, he, List.getElem?_cons_succ]; exact hi, h1⟩
    · intro i y hy
      rw [subscript_eq hv, he] at hy
      rcases List.mem_cons.mp (List.mem_iff_getElem?.mpr ⟨i, hy⟩) with hy | hy
      · rw [hy]; exact h2
      · exact h3 y hy

theorem scan_less_spec [LinearOrder T] (g : T → T) {h : Heap T} {v : Vector}
    (hv : Valid h v) (hn : v.n ≠ 0) :
    ∃ m, scan g (fun acc x => if x < acc then x else acc) h v = some m ∧
      (∃ i x, subscript h v i = some x ∧ m = g x) ∧
      ∀ i x, subscript h v i = some x → m ≤ g x := by
  have hl := valid_length hv
  match he : elems h v, hl with
  | [], hl' => exact absurd hl'.symm hn
  | x :: xs, _ =>
    obtain ⟨h1, h2, h3⟩ := foldl_less g xs (g x)
    refine ⟨_, scan_spec g _ hv x xs he, ?_, ?_⟩
    · rcases h1 with h1 | ⟨y, hy, h1⟩
      · exact ⟨0, x, by rw [subscript_eq hv, he]; simp, h1⟩
      · obtain ⟨i, hi⟩ := List.mem_iff_getElem?.mp hy
        exact ⟨i + 1, y, by rw [subscript_eq hv, he, List.getElem?_cons_succ]; exact hi, h1⟩
    · intro i y hy
      rw [subscript_eq hv, he] at hy
      rcases List.mem_cons.mp (List.mem_iff_getElem?.mpr ⟨i, hy⟩) with hy | hy
      · rw [hy]; exact h2
      · exact h3 y hy

/-- The loop of `Sort()` on a vector of length `0`: the cursor starts at `Begin() + 1`,
past `End()`, which it never meets. -/
theorem Sort_empty_undefined [LT T] [DecidableRel (fun x y : T => x < y)] (h : Heap T)
    (v : Vector) (hend : v.it_end = v.v) (fuel : Nat) :
    Sort_ v (fuel + 1) h = some none := by
  have hsteps : Vector.steps ((Begin v).add 1) (End v) = none := by
    unfold Vector.steps Begin End Ptr.add
    rw [hend]
    simp
  unfold Sort_ Sort_pass
  rw [hsteps]

end ScanLemmas
end pde
end cda

namespace cda
namespace Vector

/-- C27: on a valid vector of length at least `1` of the NumericalPDEs Vector, each scan
returns: `MaximumElement()` an element that is `>=` every element, `MinimumElement()` an
element that is `<=` every element, `AbsoluteMaximumElement()` the absolute value of an
element that is `>=` every `|v[i]|`, `AbsoluteMinimumElement()` the absolute value of an
element that is `<=` every `|v[i]|`. The four members are `const` and only read: they
return a value and no new heap. -/
theorem C27_scans_return_the_extremes {T : Type} [LinearOrderedRing T] (h : Heap T)
    (v : Vector) (hv : Valid h v) (hn : v.Size ≥ 1) :
    (∃ m, pde.MaximumElement h v = some m ∧ (∃ i, subscript h v i = some m) ∧
      ∀ i x, subscript h v i = some x → x ≤ m) ∧
    (∃ m, pde.MinimumElement h v = some m ∧ (∃ i, subscript h v i = some m) ∧
      ∀ i x, subscript h v i = some x → m ≤ x) ∧
    (∃ m, pde.AbsoluteMaximumElement (fun x => |x|) h v = some m ∧
      (∃ i x, subscript h v i = some x ∧ m = |x|) ∧
      ∀ i x, subscript h v i = some x → |x| ≤ m) ∧
    (∃ m, pde.AbsoluteMinimumElement (fun x => |x|) h v = some m ∧
      (∃ i x, subscript h v i = some x ∧ m = |x|) ∧
      ∀ i x, subscript h v i = some x → m ≤ |x|) := by
  have hn0 : v.n ≠ 0 := by
    have : v.n ≥ 1 := hn
    omega
  refine ⟨?_, ?_, pde.scan_greater_spec (fun x => |x|) hv hn0,
    pde.scan_less_spec (fun x => |x|) hv hn0⟩
  · obtain ⟨m, hm, ⟨i, x, hx, hmx⟩, hall⟩ := pde.scan_greater_spec (fun x : T => x) hv hn0
    exact ⟨m, hm, ⟨i, by rw [hx, hmx]⟩, hall⟩
  · obtain ⟨m, hm, ⟨i, x, hx, hmx⟩, hall⟩ := pde.scan_less_spec (fun x : T => x) hv hn0
    exact ⟨m, hm, ⟨i, by rw [hx, hmx]⟩, hall⟩

/-- C27, at the vector `[-4, 1, 3]`: the maximum is `3`, the minimum `-4`, the largest
absolute value `4` and the smallest `1`. -/
theorem C27_scans_witness :
    Valid abs_heap sample_a ∧ sample_a.Size ≥ 1 ∧
    pde.MaximumElement abs_heap sample_a = some 3 ∧
    pde.MinimumElement abs_heap sample_a = some (-4) ∧
    pde.AbsoluteMaximumElement (fun x : Int => |x|) abs_heap sample_a = some 4 ∧
    pde.AbsoluteMinimumElement (fun x : Int => |x|) abs_heap sample_a = some 1 ∧
    (∃ m, pde.AbsoluteMaximumElement (fun x : Int => |x|) abs_heap sample_a = some m ∧
      (∃ i x, subscript abs_heap sample_a i = some x ∧ m = |x|) ∧
      ∀ i x, subscript abs_heap sample_a i = some x → |x| ≤ m) :=
  ⟨by decide, by decide, by decide, by decide, by decide, by decide,
    (C27_scans_return_the_extremes abs_heap sample_a (by decide) (by decide)).2.2.1⟩

/-- C28, as the code has it: on a vector of length `0`, whose buffer is null or has no
cell, element `0` is outside the buffer, and each reduction, which starts by reading it,
is undefined; none of them has a check that throws. -/
theorem C28_reductions_of_empty_vector_are_undefined {T : Type} [LT T]
    [DecidableRel (fun x y : T => x < y)] [Add T] (abs : T → T) (h : Heap T) (v : Vector)
    (hn : v.Size = 0)
    (hbuf : v.v = nullptr ∨ (h.block v.v).map List.length = some v.Size) :
    subscript h v 0 = none ∧
    pde.MaximumElement h v = none ∧ pde.MinimumElement h v = none ∧
    pde.AbsoluteMaximumElement abs h v = none ∧ pde.AbsoluteMinimumElement abs h v = none ∧
    pde.Sum h v = none ∧ SumAllEments h v = none := by
  have hbuf2 : v.v = nullptr ∨ h.block v.v = some [] := by
    rcases hbuf with hb | hb
    · exact Or.inl hb
    · right
      rw [hn] at hb
      cases hc : h.block v.v with
      | none => rw [hc] at hb; cases hb
      | some cells =>
        rw [hc] at hb
        have hlen : cells.length = 0 := Option.some.inj hb
        rw [List.length_eq_zero.mp hlen]
  have hfirst : h.read v.v = none := pde.read_empty hbuf2
  refine ⟨hfirst, pde.scan_no_first _ _ hfirst, pde.scan_no_first _ _ hfirst,
    pde.scan_no_first _ _ hfirst, pde.scan_no_first _ _ hfirst,
    pde.scan_no_first _ _ hfirst, ?_⟩
  unfold SumAllEments begin
  rw [hfirst]

/-- C28 as amended, at the empty vector without a buffer and at the empty vector whose
buffer is an allocation without cells. -/
theorem C28_reductions_witness :
    empty_v.Size = 0 ∧
    (empty_v.v = nullptr ∨ (dup_heap.block empty_v.v).map List.length = some empty_v.Size) ∧
    (subscript dup_heap empty_v 0 = none ∧
      pde.MaximumElement dup_heap empty_v = none ∧ pde.MinimumElement dup_heap empty_v = none ∧
      pde.AbsoluteMaximumElement (fun x : Int => |x|) dup_heap empty_v = none ∧
      pde.AbsoluteMinimumElement (fun x : Int => |x|) dup_heap empty_v = none ∧
      pde.Sum dup_heap empty_v = none ∧ SumAllEments dup_heap empty_v = none) ∧
    empty_pde_v.Size = 0 ∧
    (empty_pde_v.v = nullptr ∨
      (dup_heap.block empty_pde_v.v).map List.length = some empty_pde_v.Size) ∧
    pde.Sum dup_heap empty_pde_v = none :=
  ⟨rfl, Or.inl rfl,
    C28_reductions_of_empty_vector_are_undefined (fun x : Int => |x|) dup_heap empty_v rfl
      (Or.inl rfl),
    rfl, Or.inr rfl,
    (C28_reductions_of_empty_vector_are_undefined (fun x : Int => |x|) dup_heap empty_pde_v
      rfl (Or.inr rfl)).2.2.2.2.2.1⟩

/-- C28 as claimed fails: `MaximumElement()` and `SumAllEments()` on the empty vector do
not throw, they read element `0`, which the empty vector does not have. -/
theorem C28_MaximumElement_of_empty_vector_reads_element_zero :
    empty_v.Size = 0 ∧ empty_v.v = nullptr ∧ (dup_heap.read empty_v.begin) = none ∧
    pde.MaximumElement dup_heap empty_v = none ∧ SumAllEments dup_heap empty_v = none :=
  ⟨rfl, rfl, rfl, rfl, rfl⟩

/-- C29: on the empty vector the cursor of the inner loop of `Sort()` starts at
`Begin() + 1`, which is past `End()`, so the test `it != End()` holds and the body
dereferences positions that are not below `Size() = 0`: the run is undefined, whether the
empty vector has no buffer or a buffer without cells. On the vectors `[1, 2]` and
`[3, 1, 2]` the run reads inside the buffer and returns. -/
theorem C29_Sort_of_empty_vector_runs_past_end :
    empty_pde_v.Size = 0 ∧ empty_v.Size = 0 ∧
    steps ((pde.Begin empty_pde_v).add 1) (pde.End empty_pde_v) = none ∧
    subscript dup_heap empty_pde_v 0 = none ∧ subscript dup_heap empty_pde_v 1 = none ∧
    (∀ fuel, pde.Sort_ empty_pde_v (fuel + 1) dup_heap = some none) ∧
    (∀ fuel, pde.Sort_ empty_v (fuel + 1) dup_heap = some none) ∧
    pde.Sort_ sample_c 1 dup_heap = some (some dup_heap) ∧
    pde.Sort_ sample_a 2 sort_heap = some (some [some [1, 2, 3], some [5]]) :=
  ⟨rfl, rfl, by decide, by decide, by decide,
    fun fuel => pde.Sort_empty_undefined dup_heap empty_pde_v rfl fuel,
    fun fuel => pde.Sort_empty_undefined dup_heap empty_v rfl fuel, by decide, by decide⟩

end Vector
end cda

namespace cda
namespace Vector

/-! ## The invariant of the data members: lemmas -/

section InvariantLemmas
variable {T : Type}

/-- The class invariant gives the invariant of the data members. -/
theorem valid_I1 {h : Heap T} {s : Vector} (hv : Valid h s) : I1 s := by
  refine ⟨?_, steps_valid hv⟩
  constructor
  · intro hnull
    by_contra hn
    obtain ⟨_, _, h3⟩ := hv
    obtain ⟨hb, _⟩ := h3 hn
    rw [hnull] at hb
    exact hb rfl
  · intro hn
    exact (valid_null hv hn).1

theorem valid_empty (h : Heap T) : Valid h ⟨0, nullptr, nullptr⟩ :=
  ⟨by decide, fun _ => ⟨rfl, rfl⟩, fun hn => absurd rfl hn⟩

theorem with_n_self (s : Vector) : { s with n := s.n } = s := rfl

/-- An allocation for a new object either is refused, and the constructor throws
`bad_alloc` with the heap as it was, or it yields a valid vector of the length asked
for, leaving every other vector as it was. -/
theorem ctor_alloc_cases (al : Allocator T) (h : Heap T) (size : Nat) (hs : size < SIZE_T)
    (hnw : size * al.sizeof < SIZE_T) :
    AllocateMemory al h ⟨size, nullptr, nullptr⟩ size =
      .throws .bad_alloc (h, ⟨size, nullptr, nullptr⟩) ∨
    ∃ h1 s1, AllocateMemory al h ⟨size, nullptr, nullptr⟩ size = .ok (h1, s1) ∧
      Valid h1 s1 ∧ s1.n = size ∧
      (∀ s : Vector, Valid h s → Valid h1 s ∧ elems h1 s = elems h s ∧
        (s.v.blk = none ∨ s.v.blk ≠ s1.v.blk)) := by
  by_cases hr : size ≠ 0 → al.refuses size = false
  · right
    obtain ⟨h1, s1, hal, hn1, hv1, _, hfresh, hframe⟩ :=
      AllocateMemory_ok al ⟨size, nullptr, nullptr⟩ size (Or.inl rfl) hs hr
    have hn1 : s1.n = size := hn1
    have hv1 : Valid h1 s1 := by
      rw [← hn1, with_n_self] at hv1
      exact hv1
    refine ⟨h1, s1, hal, hv1, hn1, fun s hsv => ?_⟩
    have hsep := sep_of_fresh (p := s1.v) hsv hfresh
    have hk : Heap.block h1 s.v = h.block s.v := by
      by_cases hn : s.n = 0
      · have h0 := (valid_null hsv hn).1
        rw [block_null h (by rw [h0]; rfl), block_null h1 (by rw [h0]; rfl)]
      · obtain ⟨_, hb, _⟩ := valid_block hsv hn
        rw [hb]
        apply hframe s.v _ _ hb
        obtain ⟨_, _, h3⟩ := hsv
        exact (h3 hn).1
    exact ⟨valid_of_block_eq hsv hk, elems_of_block_eq hk, hsep⟩
  · left
    simp only [Classical.not_imp, Bool.not_eq_false] at hr
    exact AllocateMemory_refused al h _ size hr.1 hnw hr.2

theorem ctor_size_cases (al : Allocator T) (h : Heap T) (size : Nat) (hs : size < SIZE_T)
    (hnw : size * al.sizeof < SIZE_T) :
    ctor_size al h size = .throws .bad_alloc h ∨
    ∃ h1 r, ctor_size al h size = .ok (h1, r) ∧ Valid h1 r ∧ r.n = size := by
  unfold ctor_size
  rcases ctor_alloc_cases al h size hs hnw with hc | ⟨h1, s1, hc, hv1, hn1, _⟩
  · rw [hc]; exact Or.inl rfl
  · rw [hc]; exact Or.inr ⟨h1, s1, rfl, hv1, hn1⟩

theorem ctor_fill_cases (al : Allocator T) (h : Heap T) (size : Nat) (value : T)
    (hs : size < SIZE_T) (hnw : size * al.sizeof < SIZE_T) :
    ctor_fill al h size value = .throws .bad_alloc h ∨
    ∃ h1 r, ctor_fill al h size value = .ok (h1, r) ∧ Valid h1 r ∧ r.n = size := by
  unfold ctor_fill
  rcases ctor_alloc_cases al h size hs hnw with hc | ⟨h1, s1, hc, hv1, hn1, _⟩
  · rw [hc]; exact Or.inl rfl
  · rw [hc]
    right
    obtain ⟨h2, hw, hv2, _, _⟩ := writeRange_valid hv1 0
      (List.replicate (s1.it_end.off - s1.v.off) value)
      (by rw [List.length_replicate, valid_end_off hv1, valid_off hv1]; omega)
    refine ⟨h2, s1, ?_, hv2, hn1⟩
    dsimp only
    unfold Fill std_fill begin end_
    have hw2 : h1.writeRange s1.v (List.replicate (s1.it_end.off - s1.v.off) value) = some h2 :=
      hw
    rw [hw2]

theorem ctor_copy_cases (al : Allocator T) {h : Heap T} {w : Vector} (hw : Valid h w)
    (hnw : w.n * al.sizeof < SIZE_T) :
    ctor_copy al h w = .throws .bad_alloc h ∨
    ∃ h1 r, ctor_copy al h w = .ok (h1, r) ∧ Valid h1 r ∧ r.n = w.n ∧ Valid h1 w := by
  unfold ctor_copy
  rcases ctor_alloc_cases al h w.n hw.1 hnw with hc | ⟨h1, s1, hc, hv1, hn1, hkept⟩
  · rw [hc]; exact Or.inl rfl
  · rw [hc]
    right
    obtain ⟨hw1, _, hsep⟩ := hkept w hw
    obtain ⟨h2, hcp, hv2, hb2, _, _⟩ := copy_whole hw1 hv1 hsep hn1
    refine ⟨h2, s1, ?_, hv2, hn1, valid_of_block_eq hw1 hb2⟩
    dsimp only
    rw [hcp]

theorem ctor_range_cases (al : Allocator T) {h : Heap T} {w : Vector} (hw : Valid h w)
    (off k : Nat) (hle : off + k ≤ w.n) (hnw : k * al.sizeof < SIZE_T) :
    ctor_range al h (w.v.add off) ((w.v.add off).add k) = .throws .bad_alloc h ∨
    ∃ h1 r, ctor_range al h (w.v.add off) ((w.v.add off).add k) = .ok (h1, r) ∧
      Valid h1 r ∧ r.n = k ∧ Valid h1 w := by
  have hk : ((w.v.add off).add k).off - (w.v.add off).off = k := by
    show w.v.off + off + k - (w.v.off + off) = k
    omega
  have hks : k < SIZE_T := by
    have := hw.1
    omega
  unfold ctor_range
  rw [hk]
  rcases ctor_alloc_cases al h k hks hnw with hc | ⟨h1, s1, hc, hv1, hn1, hkept⟩
  · rw [hc]; exact Or.inl rfl
  · rw [hc]
    right
    obtain ⟨hw1, _, hsep⟩ := hkept w hw
    obtain ⟨h2, hcp, hv2, hb2, _, _⟩ := std_copy_valid hw1 hv1 hsep off k 0
      ((w.v.add off).add k)
      (by show w.v.off + off + k = off + k; rw [valid_off hw]; omega) hle (by omega)
    refine ⟨h2, s1, ?_, hv2, hn1, valid_of_block_eq hw1 hb2⟩
    dsimp only
    have hcp2 : std_copy h1 (w.v.add off) ((w.v.add off).add k) s1.begin = some h2 := hcp
    rw [hcp2]

theorem ctor_array_cases (al : Allocator T) (h : Heap T) (values : List T)
    (hs : values.length < SIZE_T) (hnw : values.length * al.sizeof < SIZE_T) :
    ctor_array al h values = .throws .bad_alloc h ∨
    ∃ h1 r, ctor_array al h values = .ok (h1, r) ∧ Valid h1 r ∧ r.n = values.length ∧
      elems h1 r = values := by
  unfold ctor_array
  rcases ctor_alloc_cases al h values.length hs hnw with hc | ⟨h1, s1, hc, hv1, hn1, _⟩
  · rw [hc]; exact Or.inl rfl
  · rw [hc]
    right
    obtain ⟨h2, hw, hv2, he2, _⟩ := writeRange_valid hv1 0 values (by omega)
    refine ⟨h2, s1, ?_, hv2, hn1, ?_⟩
    · dsimp only
      have hw2 : h1.writeRange s1.begin values = some h2 := hw
      rw [hw2]
    · rw [he2]
      have hl := valid_length hv1
      simp only [List.take_zero, List.nil_append, Nat.zero_add]
      rw [List.drop_of_length_le (by omega)]
      simp

theorem resize_outcome [Zero T] (al : Allocator T) {h : Heap T} {self : Vector} (size : Nat)
    (fill : Bool) (hv : Valid h self) (hs : size < SIZE_T)
    (hnw : size * al.sizeof < SIZE_T) :
    resize al h self size fill = .throws .bad_alloc (h, self) ∨
    ∃ h1 s1, resize al h self size fill = .ok (h1, s1) ∧ Valid h1 s1 ∧ s1.n = size ∧
      (∀ (q : Ptr) (cells : List T), q.blk ≠ self.v.blk → h.block q = some cells →
        Heap.block h1 q = some cells ∧ s1.v.blk ≠ q.blk) := by
  by_cases hr : size ≠ self.n → size ≠ 0 → al.refuses size = false
  · obtain ⟨h1, s1, hres, hv1, hn1, _, _, _, hfr⟩ := resize_spec al size fill hv hs hr
    exact Or.inr ⟨h1, s1, hres, hv1, hn1, hfr⟩
  · left
    simp only [Classical.not_imp, Bool.not_eq_false] at hr
    obtain ⟨h1, h2, h3⟩ := hr
    unfold resize
    rw [if_neg h1, AllocateMemory_refused al h self size h2 hnw h3]

theorem Clear_spec (al : Allocator T) {h : Heap T} {self : Vector} (hv : Valid h self) :
    ∃ h1 s1, Clear al h self = .ok (h1, s1) ∧ Valid h1 s1 ∧ s1.n = 0 ∧ s1.v = nullptr := by
  obtain ⟨h1, s1, hal, hn1, hv1, _, _, _⟩ := AllocateMemory_ok al { self with n := 0 } 0
    (show Freeable h self.v from valid_freeable hv) (by decide) (fun h0 => absurd rfl h0)
  have hn1 : s1.n = 0 := hn1
  have hv1 : Valid h1 s1 := by
    rw [← hn1, with_n_self] at hv1
    exact hv1
  exact ⟨h1, s1, hal, hv1, hn1, (valid_null hv1 hn1).1⟩

theorem copy_cases [Zero T] (al : Allocator T) {h : Heap T} {self w : Vector}
    (hv : Valid h self) (hw : Valid h w) (hsep : Separate w self) (off k : Nat)
    (hle : off + k ≤ w.n) (hnw : k * al.sizeof < SIZE_T) :
    copy al h self k (w.v.add off) = .throws .bad_alloc (h, self) ∨
    ∃ h1 s1, copy al h self k (w.v.add off) = .ok (h1, s1) ∧ Valid h1 s1 ∧ s1.n = k ∧
      Valid h1 w := by
  have hks : k < SIZE_T := by
    have := hw.1
    omega
  unfold copy
  rcases resize_outcome al k true hv hks hnw with hc | ⟨h1, s1, hc, hv1, hn1, hfr⟩
  · rw [hc]; exact Or.inl rfl
  · rw [hc]
    right
    obtain ⟨hw1, hsep1, _⟩ := kept_of_frame hw hsep hfr
    obtain ⟨h2, hcp, hv2, hb2, _, _⟩ := std_copy_valid hw1 hv1 hsep1 off k 0
      ((w.v.add off).add k)
      (by show w.v.off + off + k = off + k; rw [valid_off hw]; omega) hle (by omega)
    refine ⟨h2, s1, ?_, hv2, hn1, valid_of_block_eq hw1 hb2⟩
    dsimp only
    have hcp2 : std_copy h1 (w.v.add off) ((w.v.add off).add k) s1.v = some h2 := hcp
    rw [hcp2]

theorem assign_copy_cases [Zero T] (al : Allocator T) {h : Heap T} {self w : Vector}
    (hv : Valid h self) (hw : Valid h w) (hsep : Separate w self)
    (hnw : w.n * al.sizeof < SIZE_T) :
    assign_copy al h self (some w) = .throws .bad_alloc (h, self) ∨
    ∃ h1 s1, assign_copy al h self (some w) = .ok (h1, s1) ∧ Valid h1 s1 ∧ s1.n = w.n ∧
      Valid h1 w := by
  unfold assign_copy
  dsimp only
  rcases resize_outcome al w.n false hv hw.1 hnw with hc | ⟨h1, s1, hc, hv1, hn1, hfr⟩
  · rw [hc]; exact Or.inl rfl
  · rw [hc]
    right
    obtain ⟨hw1, hsep1, _⟩ := kept_of_frame hw hsep hfr
    obtain ⟨h2, hcp, hv2, hb2, _, _⟩ := copy_whole hw1 hv1 hsep1 hn1
    refine ⟨h2, s1, ?_, hv2, hn1, valid_of_block_eq hw1 hb2⟩
    dsimp only
    rw [hcp]

theorem assign_move_spec {h : Heap T} {self w : Vector} (hv : Valid h self)
    (hw : Valid h w) (hsep : Separate w self) :
    ∃ h1 s1 w1, assign_move h self (some w) = some (h1, s1, some w1) ∧ Valid h1 s1 ∧
      s1.n = w.n ∧ Valid h1 w1 ∧ w1.n = 0 := by
  obtain ⟨h1, hf⟩ := free_freeable (valid_freeable hv)
  obtain ⟨_, hframe⟩ := free_spec hf
  have hk : Heap.block h1 w.v = h.block w.v := by
    rcases hsep with hs | hs
    · rw [block_null h hs, block_null h1 hs]
    · exact hframe w.v hs
  refine ⟨h1, _, _, ?_, valid_of_block_eq hw hk, rfl, valid_empty h1, rfl⟩
  unfold assign_move
  dsimp only
  rw [hf]

end InvariantLemmas
end Vector
end cda

namespace cda
namespace Vector

/-- The invariant is established and kept as long as the byte counts of the requests are
`size_t` values: from valid vectors `self` and `w` that do not share a buffer, every
constructor (size, size and fill value, copy, move, array, range) either throws
`bad_alloc`, leaving the heap as it was, or yields a vector that satisfies the class
invariant and with it `I1`: the buffer pointer is null exactly when the length is `0`,
and `end() - begin()` is the length. Every mutating operation (`resize`, `Clear`, `copy`,
copy assignment, move assignment) either throws `bad_alloc` with the receiver as it was,
or leaves the receiver, and the argument, with the invariant. After `Clear()` the length
is `0`, `IsEmpty()` is true and the buffer is null. -/
theorem invariant_kept_when_requests_fit {T : Type} [Zero T] (al : Allocator T)
    (h : Heap T) (self w : Vector) (size : Nat) (fill : Bool) (value : T) (values : List T)
    (off k : Nat) (hself : Valid h self) (hw : Valid h w) (hsep : Separate w self)
    (hs : size < SIZE_T) (hvals : values.length < SIZE_T) (hle : off + k ≤ w.Size)
    (hsb : size * al.sizeof < SIZE_T) (hvb : values.length * al.sizeof < SIZE_T)
    (hwb : w.n * al.sizeof < SIZE_T) :
    (I1 self ∧ I1 w) ∧
    (ctor_size al h size = .throws .bad_alloc h ∨
      ∃ h1 r, ctor_size al h size = .ok (h1, r) ∧ Valid h1 r ∧ I1 r ∧ r.Size = size) ∧
    (ctor_fill al h size value = .throws .bad_alloc h ∨
      ∃ h1 r, ctor_fill al h size value = .ok (h1, r) ∧ Valid h1 r ∧ I1 r ∧ r.Size = size) ∧
    (ctor_copy al h w = .throws .bad_alloc h ∨
      ∃ h1 r, ctor_copy al h w = .ok (h1, r) ∧ Valid h1 r ∧ I1 r ∧ r.Size = w.Size ∧
        Valid h1 w) ∧
    (Valid h (ctor_move w).1 ∧ I1 (ctor_move w).1 ∧ Valid h (ctor_move w).2 ∧
      I1 (ctor_move w).2 ∧ (ctor_move w).2.Size = 0) ∧
    (ctor_array al h values = .throws .bad_alloc h ∨
      ∃ h1 r, ctor_array al h values = .ok (h1, r) ∧ Valid h1 r ∧ I1 r ∧
        r.Size = values.length) ∧
    (ctor_range al h (w.v.add off) ((w.v.add off).add k) = .throws .bad_alloc h ∨
      ∃ h1 r, ctor_range al h (w.v.add off) ((w.v.add off).add k) = .ok (h1, r) ∧
        Valid h1 r ∧ I1 r ∧ r.Size = k ∧ Valid h1 w) ∧
    (resize al h self size fill = .throws .bad_alloc (h, self) ∨
      ∃ h1 s1, resize al h self size fill = .ok (h1, s1) ∧ Valid h1 s1 ∧ I1 s1 ∧
        s1.Size = size) ∧
    (∃ h1 s1, Clear al h self = .ok (h1, s1) ∧ Valid h1 s1 ∧ I1 s1 ∧ s1.Size = 0 ∧
      s1.IsEmpty = true ∧ s1.v = nullptr) ∧
    (copy al h self k (w.v.add off) = .throws .bad_alloc (h, self) ∨
      ∃ h1 s1, copy al h self k (w.v.add off) = .ok (h1, s1) ∧ Valid h1 s1 ∧ I1 s1 ∧
        s1.Size = k ∧ Valid h1 w) ∧
    (assign_copy al h self (some w) = .throws .bad_alloc (h, self) ∨
      ∃ h1 s1, assign_copy al h self (some w) = .ok (h1, s1) ∧ Valid h1 s1 ∧ I1 s1 ∧
        s1.Size = w.Size ∧ Valid h1 w) ∧
    assign_copy al h self none = .ok (h, self) ∧
    (∃ h1 s1 w1, assign_move h self (some w) = some (h1, s1, some w1) ∧ Valid h1 s1 ∧
      I1 s1 ∧ s1.Size = w.Size ∧ Valid h1 w1 ∧ I1 w1 ∧ w1.Size = 0) ∧
    assign_move h self none = some (h, self, none) := by
  have hkb : k * al.sizeof < SIZE_T :=
    lt_of_le_of_lt (Nat.mul_le_mul_right _ (le_trans (Nat.le_add_left k off) hle)) hwb
  refine ⟨⟨valid_I1 hself, valid_I1 hw⟩, ?_, ?_, ?_, ?_, ?_, ?_, ?_, ?_, ?_, ?_, rfl, ?_, rfl⟩
  · rcases ctor_size_cases al h size hs hsb with hc | ⟨h1, r, hc, hv, hn⟩
    · exact Or.inl hc
    · exact Or.inr ⟨h1, r, hc, hv, valid_I1 hv, hn⟩
  · rcases ctor_fill_cases al h size value hs hsb with hc | ⟨h1, r, hc, hv, hn⟩
    · exact Or.inl hc
    · exact Or.inr ⟨h1, r, hc, hv, valid_I1 hv, hn⟩
  · rcases ctor_copy_cases al hw hwb with hc | ⟨h1, r, hc, hv, hn, hw1⟩
    · exact Or.inl hc
    · exact Or.inr ⟨h1, r, hc, hv, valid_I1 hv, hn, hw1⟩
  · exact ⟨hw, valid_I1 hw, valid_empty h, valid_I1 (valid_empty h), rfl⟩
  · rcases ctor_array_cases al h values hvals hvb with hc | ⟨h1, r, hc, hv, hn, _⟩
    · exact Or.inl hc
    · exact Or.inr ⟨h1, r, hc, hv, valid_I1 hv, hn⟩
  · rcases ctor_range_cases al hw off k hle hkb with hc | ⟨h1, r, hc, hv, hn, hw1⟩
    · exact Or.inl hc
    · exact Or.inr ⟨h1, r, hc, hv, valid_I1 hv, hn, hw1⟩
  · rcases resize_outcome al size fill hself hs hsb with hc | ⟨h1, s1, hc, hv, hn, _⟩
    · exact Or.inl hc
    · exact Or.inr ⟨h1, s1, hc, hv, valid_I1 hv, hn⟩
  · obtain ⟨h1, s1, hc, hv, hn, hnull⟩ := Clear_spec al hself
    refine ⟨h1, s1, hc, hv, valid_I1 hv, hn, ?_, hnull⟩
    unfold IsEmpty
    rw [hn]
    rfl
  · rcases copy_cases al hself hw hsep off k hle hkb with hc | ⟨h1, s1, hc, hv, hn, hw1⟩
    · exact Or.inl hc
    · exact Or.inr ⟨h1, s1, hc, hv, valid_I1 hv, hn, hw1⟩
  · rcases assign_copy_cases al hself hw hsep hwb with hc | ⟨h1, s1, hc, hv, hn, hw1⟩
    · exact Or.inl hc
    · exact Or.inr ⟨h1, s1, hc, hv, valid_I1 hv, hn, hw1⟩
  · obtain ⟨h1, s1, w1, hc, hv, hn, hv1, hn1⟩ := assign_move_spec hself hw hsep
    exact ⟨h1, s1, w1, hc, hv, valid_I1 hv, hn, hv1, valid_I1 hv1, hn1⟩

/-- C24: the invariant is not kept when the byte count `size * sizeof(T)` of a request,
a `size_t` product, wraps. For 4-byte elements: `Vector(2^62)` asks for `0` bytes and
returns an object of length `2^62` on an empty block, which does not satisfy the class
invariant, its buffer having no cell; `Vector(2^62, 5)` and `resize(2^62 + 1)` on
`[1, 2, 3]` write outside the block they obtained (undefined behaviour); and with a
library that answers `realloc(v, 0)` by releasing `v` and returning null,
`resize(2^62)` on `[1, 2, 3]` throws `bad_alloc` after the buffer has been released,
which leaves the length `3` and `v` pointing at no allocation. With byte counts that are
`size_t` values the invariant is kept: `Clear()` leaves the length `0`, `IsEmpty()` true
and the buffer null, and the array constructor, `resize(2)` and the copy assignment yield
vectors with the invariant. -/
theorem C24_invariant_broken_when_byte_count_wraps :
    sample_alloc.sizeof = 4 ∧ (4611686018427387904 : Nat) = 2 ^ 62 ∧
    4611686018427387904 < SIZE_T ∧
    size_t_mul 4611686018427387904 sample_alloc.sizeof = 0 ∧
    size_t_mul 4611686018427387905 sample_alloc.sizeof = 4 ∧
    ctor_size sample_alloc sample_heap 4611686018427387904 =
      .ok ([some [1, 2, 3], some [9], some []],
        ⟨4611686018427387904, ⟨some 2, 0⟩, ⟨some 2, 4611686018427387904⟩⟩) ∧
    ¬ Valid ([some [1, 2, 3], some [9], some []] : Heap Int)
      ⟨4611686018427387904, ⟨some 2, 0⟩, ⟨some 2, 4611686018427387904⟩⟩ ∧
    subscript ([some [1, 2, 3], some [9], some []] : Heap Int)
      ⟨4611686018427387904, ⟨some 2, 0⟩, ⟨some 2, 4611686018427387904⟩⟩ 0 = none ∧
    ctor_fill sample_alloc sample_heap 4611686018427387904 5 = .undefined ∧
    Valid sample_heap sample_a ∧
    resize sample_alloc sample_heap sample_a 4611686018427387905 true = .undefined ∧
    zero_alloc.declines 0 = true ∧ zero_alloc.zero_frees = true ∧
    resize zero_alloc sample_heap sample_a 4611686018427387904 true =
      .throws .bad_alloc ([none, some [9]], sample_a) ∧
    ¬ Valid ([none, some [9]] : Heap Int) sample_a ∧
    Heap.block ([none, some [9]] : Heap Int) sample_a.v = none ∧
    Valid sample_heap sample_b ∧
    Clear sample_alloc sample_heap sample_b =
      .ok ([some [1, 2, 3], none], ⟨0, nullptr, nullptr⟩) ∧
    Valid ([some [1, 2, 3], none] : Heap Int) ⟨0, nullptr, nullptr⟩ ∧
    I1 ⟨0, nullptr, nullptr⟩ ∧ IsEmpty ⟨0, nullptr, nullptr⟩ = true ∧
    ctor_array sample_alloc sample_heap [4, 5] =
      .ok ([some [1, 2, 3], some [9], some [4, 5]], ⟨2, ⟨some 2, 0⟩, ⟨some 2, 2⟩⟩) ∧
    Valid ([some [1, 2, 3], some [9], some [4, 5]] : Heap Int) ⟨2, ⟨some 2, 0⟩, ⟨some 2, 2⟩⟩ ∧
    I1 ⟨2, ⟨some 2, 0⟩, ⟨some 2, 2⟩⟩ ∧
    resize sample_alloc sample_heap sample_b 2 true =
      .ok ([some [1, 2, 3], none, some [9, 0]], ⟨2, ⟨some 2, 0⟩, ⟨some 2, 2⟩⟩) ∧
    Valid ([some [1, 2, 3], none, some [9, 0]] : Heap Int) ⟨2, ⟨some 2, 0⟩, ⟨some 2, 2⟩⟩ ∧
    assign_copy sample_alloc sample_heap sample_b (some sample_a) =
      .ok ([some [1, 2, 3], none, some [1, 2, 3]], ⟨3, ⟨some 2, 0⟩, ⟨some 2, 3⟩⟩) ∧
    Valid ([some [1, 2, 3], none, some [1, 2, 3]] : Heap Int) ⟨3, ⟨some 2, 0⟩, ⟨some 2, 3⟩⟩ ∧
    I1 ⟨3, ⟨some 2, 0⟩, ⟨some 2, 3⟩⟩ := by
  have hfill : ctor_fill sample_alloc sample_heap 4611686018427387904 5 = .undefined :=
    ctor_fill_undefined_of_short_block sample_alloc 5
      (show AllocateMemory sample_alloc sample_heap
          ⟨4611686018427387904, nullptr, nullptr⟩ 4611686018427387904 =
        .ok ([some [1, 2, 3], some [9], some []],
          ⟨4611686018427387904, ⟨some 2, 0⟩, ⟨some 2, 4611686018427387904⟩⟩) by decide)
      (show Heap.block _ _ = some [] by decide) (by decide)
  have hres : resize sample_alloc sample_heap sample_a 4611686018427387905 true =
      .undefined :=
    resize_undefined_of_short_block sample_alloc (by decide)
      (show AllocateMemory sample_alloc sample_heap sample_a 4611686018427387905 =
        .ok ([none, some [9], some [1]], ⟨3, ⟨some 2, 0⟩, ⟨some 2, 4611686018427387905⟩⟩)
        by decide)
      (by decide) (show Heap.block _ _ = some [1] by decide) (by decide)
  have hkept : Valid sample_heap sample_b ∧
      Clear sample_alloc sample_heap sample_b =
        .ok ([some [1, 2, 3], none], ⟨0, nullptr, nullptr⟩) ∧
      Valid ([some [1, 2, 3], none] : Heap Int) ⟨0, nullptr, nullptr⟩ ∧
      I1 ⟨0, nullptr, nullptr⟩ ∧ IsEmpty ⟨0, nullptr, nullptr⟩ = true ∧
      ctor_array sample_alloc sample_heap [4, 5] =
        .ok ([some [1, 2, 3], some [9], some [4, 5]], ⟨2, ⟨some 2, 0⟩, ⟨some 2, 2⟩⟩) ∧
      Valid ([some [1, 2, 3], some [9], some [4, 5]] : Heap Int)
        ⟨2, ⟨some 2, 0⟩, ⟨some 2, 2⟩⟩ ∧
      I1 ⟨2, ⟨some 2, 0⟩, ⟨some 2, 2⟩⟩ :=
    ⟨by decide, by decide, by decide, by decide, by decide, by decide, by decide, by decide⟩
  have hassign : resize sample_alloc sample_heap sample_b 2 true =
        .ok ([some [1, 2, 3], none, some [9, 0]], ⟨2, ⟨some 2, 0⟩, ⟨some 2, 2⟩⟩) ∧
      Valid ([some [1, 2, 3], none, some [9, 0]] : Heap Int) ⟨2, ⟨some 2, 0⟩, ⟨some 2, 2⟩⟩ ∧
      assign_copy sample_alloc sample_heap sample_b (some sample_a) =
        .ok ([some [1, 2, 3], none, some [1, 2, 3]], ⟨3, ⟨some 2, 0⟩, ⟨some 2, 3⟩⟩) ∧
      Valid ([some [1, 2, 3], none, some [1, 2, 3]] : Heap Int)
        ⟨3, ⟨some 2, 0⟩, ⟨some 2, 3⟩⟩ ∧
      I1 ⟨3, ⟨some 2, 0⟩, ⟨some 2, 3⟩⟩ :=
    ⟨by decide, by decide, by decide, by decide, by decide⟩
  obtain ⟨k1, k2, k3, k4, k5, k6, k7, k8⟩ := hkept
  exact ⟨by decide, by decide, by decide, by decide, by decide, by decide, by decide,
    by decide, hfill, by decide, hres, by decide, by decide, by decide, by decide,
    by decide, k1, k2, k3, k4, k5, k6, k7, k8, hassign⟩

end Vector
end cda

namespace cda
namespace Vector

/-! ## Claims on the stream operators: lemmas -/

section StreamLemmas
variable {T : Type}

theorem extract_char_of_not_space (io : Formatting T) {c : Char} (rest : List Char)
    (hc : io.isspace c = false) : extract_char io (c :: rest) = some rest := by
  unfold extract_char
  rw [List.dropWhile_cons_of_neg (by rw [hc]; exact Bool.false_ne_true)]

theorem extract_char_nil (io : Formatting T) : extract_char io [] = none := rfl

theorem extract_char_length (io : Formatting T) {s rest : List Char}
    (hc : extract_char io s = some rest) : rest.length < s.length := by
  unfold extract_char at hc
  have hle : (s.dropWhile io.isspace).length ≤ s.length :=
    (List.dropWhile_suffix io.isspace).length_le
  cases hd : s.dropWhile io.isspace with
  | nil => rw [hd] at hc; cases hc
  | cons c r =>
    rw [hd] at hc hle
    cases hc
    simp only [List.length_cons] at hle
    omega

theorem read_of_lt {h : Heap T} {v : Vector} {element : Nat} (hv : Valid h v)
    (he : element < v.n) : ∃ y, h.read (v.v.add element) = some y := by
  have hl : element < (elems h v).length := by rw [valid_length hv]; exact he
  refine ⟨(elems h v)[element], ?_⟩
  have := subscript_eq hv element
  rw [List.getElem?_eq_getElem hl] at this
  exact this

/-- One round of the loop of `operator>>` in which a value is extracted: the value is
stored in cell `element`, which is in the buffer, and the loop goes on with the next
cell, after a growth of the vector when that cell is past its end. -/
theorem extract_loop_step [Zero T] (io : Formatting T) (al : Allocator T) {h : Heap T} {v : Vector}
    (init : Nat) {element : Nat} {s rest : List Char} {x : T} (hv : Valid h v)
    (he : element < v.n) (hx : io.extract s = .value x rest) :
    ∃ h1, Valid h1 v ∧ elems h1 v = (elems h v).set element x ∧
      (∀ q : Ptr, q.blk ≠ v.v.blk → Heap.block h1 q = h.block q) ∧
      ∀ fuel, extract_loop io al (fuel + 1) h v init element (some s) =
        if element + 1 ≥ v.n then
          match resize al h1 v (size_t_add v.n ((init * 2) % SIZE_T)) true with
          | .ok (h2, v2) =>
            extract_loop io al fuel h2 v2 ((init * 2) % SIZE_T) (element + 1)
              (extract_char io rest)
          | .throws e st => some (.throws e st)
          | .undefined => some .undefined
        else extract_loop io al fuel h1 v init (element + 1) (extract_char io rest) := by
  obtain ⟨h1, hw, hv1, he1, hf1⟩ := write_valid hv element x he
  refine ⟨h1, hv1, he1, hf1, fun fuel => ?_⟩
  obtain ⟨y, hread⟩ := read_of_lt hv he
  have hmod : (element + 1) % SIZE_T = element + 1 :=
    Nat.mod_eq_of_lt (by have := hv.1; omega)
  conv_lhs => rw [extract_loop]
  rw [hread]
  dsimp only
  rw [hx]
  dsimp only
  rw [hw]
  dsimp only
  rw [hmod]
  rfl

/-- The last round of the loop of `operator>>`, in which the stream has failed. -/
theorem extract_loop_failed [Zero T] (io : Formatting T) (al : Allocator T) {h : Heap T} {v : Vector}
    (init : Nat) {element : Nat} (hv : Valid h v) (he : element < v.n) (fuel : Nat) :
    extract_loop io al (fuel + 1) h v init element none = some (.ok (h, v, element)) := by
  obtain ⟨y, hread⟩ := read_of_lt hv he
  rw [extract_loop, hread]

end StreamLemmas
end Vector
end cda

namespace cda
namespace Vector

section StreamLemmas2
variable {T : Type}

theorem take_eq_of_getElem? {A B : List T} (k : Nat) (hk : k ≤ A.length)
    (hkb : k ≤ B.length) (hAB : ∀ i, i < k → A[i]? = B[i]?) : A.take k = B.take k := by
  apply List.ext_getElem?
  intro i
  by_cases hi : i < k
  · rw [List.getElem?_take_of_lt hi, List.getElem?_take_of_lt hi]
    exact hAB i hi
  · rw [List.getElem?_eq_none (by rw [List.length_take]; omega),
      List.getElem?_eq_none (by rw [List.length_take]; omega)]

theorem take_set_succ (A : List T) (k : Nat) (x : T) (hk : k < A.length) :
    (A.set k x).take (k + 1) = A.take k ++ [x] := by
  apply List.ext_getElem?
  intro i
  by_cases hi : i < k
  · rw [List.getElem?_take_of_lt (by omega), List.getElem?_set_ne (by omega),
      List.getElem?_append_left (by rw [List.length_take]; omega),
      List.getElem?_take_of_lt hi]
  · by_cases hik : i = k
    · subst hik
      rw [List.getElem?_take_of_lt (by omega), List.getElem?_set_self hk,
        List.getElem?_append_right (by rw [List.length_take]; omega)]
      simp [List.length_take, Nat.min_eq_left (Nat.le_of_lt hk)]
    · rw [List.getElem?_eq_none (by rw [List.length_take, List.length_set]; omega),
        List.getElem?_eq_none (by
          rw [List.length_append, List.length_take, List.length_singleton]; omega)]

/-- A round of the loop of `operator>>` that extracts a value, when the allocator grants
the growth: the loop goes on with the value stored, the cell `element + 1` inside the
vector, and every other vector as it was. -/
theorem extract_loop_advance [Zero T] (io : Formatting T) (al : Allocator T) {h : Heap T}
    {v : Vector} {init element : Nat} {s rest : List Char} {x : T} (hv : Valid h v)
    (he : element < v.n) (hi : v.n + 100 = 2 * init) (hle : v.n ≤ 2 * element + 100)
    (hsz : 2 * (element + 1) + 100 < SIZE_T)
    (hal : al.refuses (2 * (element + 1) + 100) = false)
    (hx : io.extract s = .value x rest) :
    ∃ h2 v2 init2,
      (∀ fuel, extract_loop io al (fuel + 1) h v init element (some s) =
        extract_loop io al fuel h2 v2 init2 (element + 1) (extract_char io rest)) ∧
      Valid h2 v2 ∧ element + 1 < v2.n ∧ v2.n + 100 = 2 * init2 ∧
      v2.n ≤ 2 * (element + 1) + 100 ∧
      (elems h2 v2).take (element + 1) = (elems h v).take element ++ [x] ∧
      (∀ a : Vector, Valid h a → Separate a v →
        Heap.block h2 a.v = h.block a.v ∧ Separate a v2) := by
  obtain ⟨h1, hv1, he1, hf1, hstep⟩ := extract_loop_step io al init hv he hx
  have hlen : element < (elems h v).length := by rw [valid_length hv]; exact he
  have htake1 : (elems h1 v).take (element + 1) = (elems h v).take element ++ [x] := by
    rw [he1]; exact take_set_succ _ _ _ hlen
  have hkept1 : ∀ a : Vector, Valid h a → Separate a v → Heap.block h1 a.v = h.block a.v :=
    fun a ha hsep => block_kept_of_write ha hsep hf1
  by_cases hg : element + 1 ≥ v.n
  · have hn : v.n = element + 1 := by omega
    have hinit : (init * 2) % SIZE_T = init * 2 := Nat.mod_eq_of_lt (by omega)
    have hsize : size_t_add v.n ((init * 2) % SIZE_T) = 2 * (element + 1) + 100 := by
      rw [hinit]
      unfold size_t_add
      rw [Nat.mod_eq_of_lt (by omega)]
      omega
    obtain ⟨h2, v2, hres, hv2, hn2, hkeep, _, _, hfr⟩ :=
      resize_spec al (2 * (element + 1) + 100) true hv1 hsz (fun _ _ => hal)
    refine ⟨h2, v2, init * 2, fun fuel => ?_, hv2, by omega, by omega, by omega, ?_,
      fun a ha hsep => ?_⟩
    · rw [hstep fuel, if_pos hg, hsize, hres, hinit]
    · rw [← htake1]
      apply take_eq_of_getElem?
      · rw [valid_length hv2]; omega
      · rw [valid_length hv1]; omega
      · intro i hik
        exact hkeep i (by omega) (by omega)
    · have ha1 : Valid h1 a := valid_of_block_eq ha (hkept1 a ha hsep)
      obtain ⟨_, hsep2, _⟩ := kept_of_frame ha1 hsep hfr
      refine ⟨?_, hsep2⟩
      rw [← hkept1 a ha hsep]
      exact block_kept ha1 hsep (fun q cells hq hc => (hfr q cells hq hc).1)
  · refine ⟨h1, v, init, fun fuel => ?_, hv1, by omega, hi, by omega, htake1,
      fun a ha hsep => ⟨hkept1 a ha hsep, hsep⟩⟩
    rw [hstep fuel, if_neg hg]

/-- The loop of `operator>>` on a line of tokens with the values `y :: ys`, when the
allocator grants what is asked for: with fuel for a round per token and a last round it
ends at `element + ys.length + 1` with the values stored from cell `element` on. -/
theorem extract_loop_tokens [Zero T] (io : Formatting T) (al : Allocator T) :
    ∀ (ys : List T) (y : T) (s : List Char) (h : Heap T) (v : Vector) (init element : Nat),
      Tokens io s (y :: ys) → Valid h v → element < v.n → v.n + 100 = 2 * init →
      v.n ≤ 2 * element + 100 → 2 * (element + ys.length + 1) + 100 < SIZE_T →
      (∀ n, n ≤ 2 * (element + ys.length + 1) + 100 → al.refuses n = false) →
      ∃ h1 v1,
        (∀ fuel, ys.length + 2 ≤ fuel →
          extract_loop io al fuel h v init element (some s) =
            some (.ok (h1, v1, element + ys.length + 1))) ∧
        Valid h1 v1 ∧ element + ys.length + 1 < v1.n ∧
        (elems h1 v1).take (element + ys.length + 1) = (elems h v).take element ++ y :: ys ∧
        (∀ a : Vector, Valid h a → Separate a v →
          Heap.block h1 a.v = h.block a.v ∧ Separate a v1) := by
  intro ys
  induction ys with
  | nil =>
    intro y s h v init element htok hv he hi hle hsz hal
    have hx : io.extract s = .value y [] := htok
    obtain ⟨h2, v2, init2, hstep, hv2, he2, _, _, htake, hkept⟩ :=
      extract_loop_advance io al hv he hi hle (by simpa using hsz)
        (hal _ (by simp)) hx
    refine ⟨h2, v2, fun fuel hf => ?_, hv2, he2, htake, hkept⟩
    obtain ⟨f, rfl⟩ : ∃ f, fuel = f + 2 := ⟨fuel - 2, by simp at hf; omega⟩
    rw [hstep (f + 1), extract_char_nil, extract_loop_failed io al init2 hv2 he2 f]
    rfl
  | cons y2 ys ih =>
    intro y s h v init element htok hv he hi hle hsz hal
    obtain ⟨c, rest, hx, hc, hrest⟩ := htok
    simp only [List.length_cons] at hsz hal
    obtain ⟨h2, v2, init2, hstep, hv2, he2, hi2, hle2, htake, hkept⟩ :=
      extract_loop_advance io al hv he hi hle (by omega) (hal _ (by omega)) hx
    obtain ⟨h3, v3, hrun, hv3, he3, htake3, hkept3⟩ :=
      ih y2 rest h2 v2 init2 (element + 1) hrest hv2 he2 hi2 hle2 (by omega)
        (fun n hn => hal n (by omega))
    have hidx : element + 1 + ys.length + 1 = element + (ys.length + 1) + 1 := by omega
    refine ⟨h3, v3, fun fuel hf => ?_, hv3, by simp only [List.length_cons]; omega, ?_,
      fun a ha hsep => ?_⟩
    · obtain ⟨f, rfl⟩ : ∃ f, fuel = f + 1 := ⟨fuel - 1, by simp at hf; omega⟩
      rw [hstep f, extract_char_of_not_space io rest hc,
        hrun f (by simp only [List.length_cons] at hf; omega)]
      simp only [List.length_cons, hidx]
    · simp only [List.length_cons]
      rw [← hidx, htake3, htake]
      simp
    · obtain ⟨hb2, hsep2⟩ := hkept a ha hsep
      obtain ⟨hb3, hsep3⟩ := hkept3 a (valid_of_block_eq ha hb2) hsep2
      exact ⟨hb3.trans hb2, hsep3⟩

end StreamLemmas2
end Vector
end cda

namespace cda
namespace Vector

section StreamLemmas3
variable {T : Type}

theorem kept_of_resize_frame {h h1 : Heap T} {b b1 : Vector}
    (hfr : ∀ (q : Ptr) (cells : List T), q.blk ≠ b.v.blk → h.block q = some cells →
      Heap.block h1 q = some cells ∧ b1.v.blk ≠ q.blk) :
    ∀ a : Vector, Valid h a → Separate a b →
      Heap.block h1 a.v = h.block a.v ∧ Separate a b1 := by
  intro a ha hsep
  obtain ⟨_, hsep1, _⟩ := kept_of_frame ha hsep hfr
  exact ⟨block_kept ha hsep (fun q cells hq hc => (hfr q cells hq hc).1), hsep1⟩

theorem elems_of_take {A : List T} {xs : List T} (hlen : A.length = xs.length)
    (B : List T) (hle : xs.length ≤ B.length)
    (hAB : ∀ i, i < xs.length → A[i]? = B[i]?) (hB : B.take xs.length = xs) : A = xs := by
  have h1 : A.take xs.length = B.take xs.length :=
    take_eq_of_getElem? xs.length (by omega) hle hAB
  rw [← hlen, List.take_length] at h1
  rw [h1, hlen, hB]

/-- What `operator>>` does on an input whose first line is made of tokens with the values
`xs`, when the allocator grants what is asked for: it returns with the vector holding
exactly `xs`, whatever it held before, and every other vector as it was. -/
theorem operator_extract_tokens [Zero T] (io : Formatting T) (al : Allocator T) {h : Heap T}
    {v : Vector} (s line : List Char) (xs : List T) (hv : Valid h v)
    (hline : getline s = some line) (htok : Tokens io line xs)
    (hsz : 2 * xs.length + 100 < SIZE_T)
    (hal : ∀ n, n ≤ 2 * xs.length + 100 → al.refuses n = false) :
    ∃ h1 v1,
      (∀ fuel, xs.length + 1 ≤ fuel →
        operator_extract io al fuel (some s) h v = some (.ok (h1, v1))) ∧
      Valid h1 v1 ∧ v1.n = xs.length ∧ elems h1 v1 = xs ∧
      (∀ a : Vector, Valid h a → Separate a v →
        Heap.block h1 a.v = h.block a.v ∧ Separate a v1) := by
  obtain ⟨h0, v0, hres0, hv0, hn0, _, _, _, hfr0⟩ :=
    resize_spec al 100 true hv (by decide) (fun _ _ => hal 100 (by omega))
  have hkept0 := kept_of_resize_frame hfr0
  match xs, htok with
  | [], htok =>
    obtain ⟨hnil, stored, hx⟩ := htok
    have he0 : 0 < v0.n := by omega
    obtain ⟨y0, hread⟩ := read_of_lt hv0 he0
    cases stored with
    | none =>
      obtain ⟨h2, v2, hres2, hv2, hn2, _, _, _, hfr2⟩ :=
        resize_spec al 0 true hv0 (by decide) (fun _ h00 => absurd rfl h00)
      have hkept2 := kept_of_resize_frame hfr2
      refine ⟨h2, v2, fun fuel hf => ?_, hv2, hn2, (valid_null hv2 hn2).2.2,
        fun a ha hsep => ?_⟩
      · obtain ⟨f, rfl⟩ : ∃ f, fuel = f + 1 := ⟨fuel - 1, by simp at hf; omega⟩
        unfold operator_extract
        dsimp only
        rw [hres0]
        dsimp only
        rw [hline]
        dsimp only
        rw [extract_loop, hread]
        dsimp only
        rw [hnil] at hx
        rw [hnil, hx]
        dsimp only
        rw [hres2]
      · obtain ⟨hb0, hsep0⟩ := hkept0 a ha hsep
        obtain ⟨hb2, hsep2⟩ := hkept2 a (valid_of_block_eq ha hb0) hsep0
        exact ⟨hb2.trans hb0, hsep2⟩
    | some z =>
      obtain ⟨g, hw, hvg, _, hfg⟩ := write_valid hv0 0 z he0
      obtain ⟨h2, v2, hres2, hv2, hn2, _, _, _, hfr2⟩ :=
        resize_spec al 0 true hvg (by decide) (fun _ h00 => absurd rfl h00)
      have hkept2 := kept_of_resize_frame hfr2
      refine ⟨h2, v2, fun fuel hf => ?_, hv2, hn2, (valid_null hv2 hn2).2.2,
        fun a ha hsep => ?_⟩
      · obtain ⟨f, rfl⟩ : ∃ f, fuel = f + 1 := ⟨fuel - 1, by simp at hf; omega⟩
        unfold operator_extract
        dsimp only
        rw [hres0]
        dsimp only
        rw [hline]
        dsimp only
        rw [extract_loop, hread]
        dsimp only
        rw [hnil] at hx
        rw [hnil, hx]
        dsimp only
        rw [hw]
        dsimp only
        rw [hres2]
      · obtain ⟨hb0, hsep0⟩ := hkept0 a ha hsep
        have ha0 := valid_of_block_eq ha hb0
        have hbg : Heap.block g a.v = h0.block a.v := block_kept_of_write ha0 hsep0 hfg
        obtain ⟨hb2, hsep2⟩ := hkept2 a (valid_of_block_eq ha0 hbg) hsep0
        exact ⟨(hb2.trans hbg).trans hb0, hsep2⟩
  | y :: ys, htok =>
    simp only [List.length_cons] at hsz hal
    obtain ⟨h1, v1, hrun, hv1, he1, htake, hkept1⟩ :=
      extract_loop_tokens io al ys y line h0 v0 100 0 htok hv0 (by omega) (by omega)
        (by omega) (by omega) (fun n hn => hal n (by omega))
    obtain ⟨h2, v2, hres2, hv2, hn2, hkeep2, _, _, hfr2⟩ :=
      resize_spec al (0 + ys.length + 1) true hv1 (by omega)
        (fun _ _ => hal _ (by omega))
    have hkept2 := kept_of_resize_frame hfr2
    have hlen : (y :: ys).length = 0 + ys.length + 1 := by simp
    refine ⟨h2, v2, fun fuel hf => ?_, hv2, by rw [hn2, hlen], ?_, fun a ha hsep => ?_⟩
    · unfold operator_extract
      dsimp only
      rw [hres0]
      dsimp only
      rw [hline]
      dsimp only
      rw [hrun fuel (by simp only [List.length_cons] at hf; omega)]
      dsimp only
      rw [hres2]
    · apply elems_of_take (by rw [valid_length hv2, hn2, hlen]) (elems h1 v1)
        (by rw [valid_length hv1, hlen]; omega)
      · intro i hi
        rw [hlen] at hi
        exact hkeep2 i (by omega) hi
      · rw [hlen, htake]
        simp
    · obtain ⟨hb0, hsep0⟩ := hkept0 a ha hsep
      obtain ⟨hb1, hsep1⟩ := hkept1 a (valid_of_block_eq ha hb0) hsep0
      obtain ⟨hb2, hsep2⟩ := hkept2 a
        (valid_of_block_eq (valid_of_block_eq ha hb0) hb1) hsep1
      exact ⟨(hb2.trans hb1).trans hb0, hsep2⟩

end StreamLemmas3
end Vector
end cda

namespace cda
namespace Vector

section StreamSafety
variable {T : Type}

/-- The loop of `operator>>` on any characters: as long as every extraction of a value
consumes a character and the line is short enough for the byte counts of the requests to
stay below `SIZE_T`, every round finds cell `element` inside the buffer; the loop ends,
with `element` inside the vector, or a growth throws `bad_alloc`; it runs out of fuel only
when the fuel is not above the number of unread characters. -/
theorem extract_loop_safe [Zero T] (io : Formatting T) (al : Allocator T)
    (hio : ∀ s x rest, io.extract s = .value x rest → rest.length < s.length) (L : Nat)
    (hLb : (2 * L + 100) * al.sizeof < SIZE_T) :
    ∀ (fuel : Nat) (h : Heap T) (v : Vector) (init element : Nat) (st : Option (List Char)),
      Valid h v → element < v.n → v.n + 100 = 2 * init → v.n ≤ 2 * element + 100 →
      element + (st.map List.length).getD 0 ≤ L →
      (extract_loop io al fuel h v init element st = none ∧
        fuel ≤ (st.map List.length).getD 0) ∨
      (∃ h1 v1 e1, extract_loop io al fuel h v init element st = some (.ok (h1, v1, e1)) ∧
        Valid h1 v1 ∧ e1 < v1.n ∧ e1 ≤ L) ∨
      (∃ h1 v1, extract_loop io al fuel h v init element st =
        some (.throws .bad_alloc (h1, v1)) ∧ Valid h1 v1) := by
  have hL : 2 * L + 100 < SIZE_T :=
    lt_of_le_of_lt (Nat.le_mul_of_pos_right _ al.sizeof_pos) hLb
  intro fuel
  induction fuel with
  | zero =>
    intro h v init element st _ _ _ _ _
    exact Or.inl ⟨rfl, Nat.zero_le _⟩
  | succ fuel ih =>
    intro h v init element st hv he hi hle hbound
    cases st with
    | none =>
      exact Or.inr (Or.inl ⟨h, v, element, extract_loop_failed io al init hv he fuel, hv, he,
        hbound⟩)
    | some s =>
      have hbound : element + s.length ≤ L := hbound
      have hel : element ≤ L := le_trans (Nat.le_add_right _ _) hbound
      obtain ⟨y0, hread⟩ := read_of_lt hv he
      cases hx : io.extract s with
      | failed stored =>
        cases stored with
        | none =>
          refine Or.inr (Or.inl ⟨h, v, element, ?_, hv, he, hel⟩)
          rw [extract_loop, hread]
          dsimp only
          rw [hx]
        | some z =>
          obtain ⟨g, hw, hvg, _, _⟩ := write_valid hv element z he
          refine Or.inr (Or.inl ⟨g, v, element, ?_, hvg, he, hel⟩)
          rw [extract_loop, hread]
          dsimp only
          rw [hx]
          dsimp only
          rw [hw]
      | value x rest =>
        have hcons := hio s x rest hx
        obtain ⟨h1, hv1, _, _, hstep⟩ := extract_loop_step io al init hv he hx
        have hrest : ((extract_char io rest).map List.length).getD 0 + 1 ≤ s.length := by
          cases hc : extract_char io rest with
          | none => simp; omega
          | some r =>
            have := extract_char_length io hc
            simp
            omega
        rw [hstep fuel]
        by_cases hg : element + 1 ≥ v.n
        · rw [if_pos hg]
          have hn : v.n = element + 1 := by omega
          have hinit : (init * 2) % SIZE_T = init * 2 := Nat.mod_eq_of_lt (by omega)
          have hsize : size_t_add v.n ((init * 2) % SIZE_T) = 2 * (element + 1) + 100 := by
            rw [hinit]
            unfold size_t_add
            rw [Nat.mod_eq_of_lt (by omega)]
            omega
          rw [hsize, hinit]
          have hgrow : (2 * (element + 1) + 100) * al.sizeof < SIZE_T :=
            lt_of_le_of_lt (Nat.mul_le_mul_right _ (by omega)) hLb
          rcases resize_outcome al (2 * (element + 1) + 100) true hv1 (by omega) hgrow with
            hthrow | ⟨h2, v2, hres, hv2, hn2, _⟩
          · rw [hthrow]
            exact Or.inr (Or.inr ⟨h1, v, rfl, hv1⟩)
          · rw [hres]
            dsimp only
            rcases ih h2 v2 (init * 2) (element + 1) (extract_char io rest) hv2 (by omega)
              (by omega) (by omega) (by omega) with ⟨hnone, hf⟩ | hgood
            · exact Or.inl ⟨hnone, by
                show fuel + 1 ≤ s.length
                omega⟩
            · exact Or.inr hgood
        · rw [if_neg hg]
          rcases ih h1 v init (element + 1) (extract_char io rest) hv1 (by omega) hi
            (by omega) (by omega) with ⟨hnone, hf⟩ | hgood
          · exact Or.inl ⟨hnone, by
              show fuel + 1 ≤ s.length
              omega⟩
          · exact Or.inr hgood

end StreamSafety
end Vector
end cda

namespace cda
namespace Vector

section StreamSafety2
variable {T : Type}

theorem getline_length {s line : List Char} (hline : getline s = some line) :
    line.length ≤ s.length := by
  unfold getline at hline
  split at hline
  · cases hline
  · cases hline
    exact (List.takeWhile_prefix _).length_le

/-- For every input, `operator>>` never leaves the buffer: with fuel above the number of
characters it returns or throws, and the vector is valid in every outcome. -/
theorem operator_extract_safe [Zero T] (io : Formatting T) (al : Allocator T)
    (hio : ∀ s x rest, io.extract s = .value x rest → rest.length < s.length) {h : Heap T}
    {v : Vector} (hv : Valid h v) (input : Option (List Char))
    (hlen : ∀ s, input = some s → (2 * s.length + 100) * al.sizeof < SIZE_T) (fuel : Nat) :
    (operator_extract io al fuel input h v = none ∧ ∃ s, input = some s ∧ fuel ≤ s.length) ∨
    (∃ h1 v1, operator_extract io al fuel input h v = some (.ok (h1, v1)) ∧ Valid h1 v1) ∨
    (∃ e h1 v1, operator_extract io al fuel input h v = some (.throws e (h1, v1)) ∧
      Valid h1 v1) := by
  cases input with
  | none => exact Or.inr (Or.inr ⟨.logic_error, h, v, rfl, hv⟩)
  | some s =>
    have hs := hlen s rfl
    have hfit : ∀ k, k ≤ 2 * s.length + 100 → k * al.sizeof < SIZE_T := fun k hk =>
      lt_of_le_of_lt (Nat.mul_le_mul_right _ hk) hs
    unfold operator_extract
    dsimp only
    rcases resize_outcome al 100 true hv (by decide) (hfit 100 (by omega)) with
      hthrow | ⟨h0, v0, hres, hv0, hn0, _⟩
    · rw [hthrow]
      exact Or.inr (Or.inr ⟨.bad_alloc, h, v, rfl, hv⟩)
    · rw [hres]
      dsimp only
      cases hline : getline s with
      | none =>
        dsimp only
        rcases resize_outcome al 0 true hv0 (by decide) (hfit 0 (by omega)) with
          hthrow | ⟨h2, v2, hres2, hv2, _, _⟩
        · rw [hthrow]
          exact Or.inr (Or.inr ⟨.bad_alloc, h0, v0, rfl, hv0⟩)
        · rw [hres2]
          exact Or.inr (Or.inl ⟨h2, v2, rfl, hv2⟩)
      | some line =>
        dsimp only
        have hll := getline_length hline
        rcases extract_loop_safe io al hio line.length
          (lt_of_le_of_lt (Nat.mul_le_mul_right _ (by omega)) hs) fuel h0 v0 100 0 (some line)
          hv0 (by omega) (by omega) (by omega) (by simp) with
          ⟨hnone, hf⟩ | ⟨h1, v1, e1, hok, hv1, he1, hel⟩ | ⟨h1, v1, hthrow, hv1⟩
        · rw [hnone]
          exact Or.inl ⟨rfl, s, rfl, le_trans hf hll⟩
        · rw [hok]
          dsimp only
          rcases resize_outcome al e1 true hv1 (by have := hv1.1; omega)
            (hfit e1 (by omega)) with
            hthrow | ⟨h2, v2, hres2, hv2, _, _⟩
          · rw [hthrow]
            exact Or.inr (Or.inr ⟨.bad_alloc, h1, v1, rfl, hv1⟩)
          · rw [hres2]
            exact Or.inr (Or.inl ⟨h2, v2, rfl, hv2⟩)
        · rw [hthrow]
          exact Or.inr (Or.inr ⟨.bad_alloc, h1, v1, rfl, hv1⟩)

/-- The extraction of `digits_io` reads at least one digit when it reads a value. -/
theorem digits_io_consumes (s : List Char) (x : Int) (rest : List Char)
    (hx : digits_io.extract s = .value x rest) : rest.length < s.length := by
  have hle : (s.dropWhile (fun c => c == ' ')).length ≤ s.length :=
    (List.dropWhile_suffix _).length_le
  have hx2 : (match (s.dropWhile (fun c => c == ' ')).takeWhile Char.isDigit with
      | [] => Extracted.failed (some (0 : Int))
      | d :: ds =>
        Extracted.value
          ((d :: ds).foldl (fun (n : Int) (c : Char) => 10 * n + ((c.toNat - 48 : Nat) : Int)) 0)
          ((s.dropWhile (fun c => c == ' ')).dropWhile Char.isDigit)) = .value x rest := hx
  generalize s.dropWhile (fun c => c == ' ') = t at hx2 hle
  cases t with
  | nil => cases hx2
  | cons c t =>
    by_cases hc : c.isDigit = true
    · rw [List.takeWhile_cons_of_pos hc] at hx2
      injection hx2 with _ hr
      rw [← hr, List.dropWhile_cons_of_pos hc]
      have : (t.dropWhile Char.isDigit).length ≤ t.length :=
        (List.dropWhile_suffix _).length_le
      simp only [List.length_cons] at hle
      omega
    · rw [List.takeWhile_cons_of_neg hc] at hx2
      cases hx2

end StreamSafety2
end Vector
end cda

namespace cda
namespace Vector

section RecordLemmas
variable {T : Type}

theorem foldl_record (ins : T → List Char) :
    ∀ (xs : List T) (a : List Char),
      xs.foldl (fun out y => out ++ [';'] ++ ins y) a =
        a ++ xs.foldr (fun y acc => ';' :: (ins y ++ acc)) []
  | [], a => by simp
  | y :: ys, a => by
    rw [List.foldl_cons, foldl_record ins ys]
    simp [List.append_assoc]

theorem intercalate_record (ins : T → List Char) :
    ∀ (xs : List T) (x : T),
      List.intercalate [';'] ((x :: xs).map ins) =
        ins x ++ xs.foldr (fun y acc => ';' :: (ins y ++ acc)) []
  | [], x => by simp [List.intercalate]
  | y :: ys, x => by
    have ih := intercalate_record ins ys y
    simp only [List.intercalate, List.map_cons, List.intersperse_cons₂, List.flatten_cons,
      List.foldr_cons] at ih ⊢
    rw [ih]
    simp

/-- On a valid vector holding `x :: xs` the record branch of `operator<<` writes the
elements joined by `;` and a newline. -/
theorem operator_insert_record (io : Formatting T) (output : List Char) {h : Heap T}
    {v : Vector} (hv : Valid h v) (x : T) (xs : List T) (he : elems h v = x :: xs) :
    operator_insert io false output h v =
      some (output ++ io.insert x ++
        xs.foldr (fun y acc => ';' :: (io.insert y ++ acc)) [] ++ ['\n']) := by
  have hl := valid_length hv
  rw [he] at hl
  have hn : v.n ≠ 0 := by
    intro h0; rw [h0] at hl; cases hl
  have hlen : v.n = xs.length + 1 := by simpa using hl.symm
  have hsteps : steps_below (v.begin.add 1) v.end_ = some xs.length := by
    obtain ⟨_, _, h3⟩ := hv
    obtain ⟨_, ho, hend, _⟩ := h3 hn
    unfold steps_below begin end_
    rw [hend]
    simp only [Ptr.add, ho, hlen]
    simp
  have hfirst : h.read v.begin = some x := by
    have h0 : subscript h v 0 = some x := by rw [subscript_eq hv, he]; simp
    exact h0
  have hread : ∀ (j : Nat) (hj : j < xs.length),
      h.read ((v.begin.add 1).add j) = some xs[j] := by
    intro j hj
    have h1 : subscript h v (j + 1) = some xs[j] := by
      rw [subscript_eq hv, he, List.getElem?_cons_succ, List.getElem?_eq_getElem hj]
    rw [pde.ptr_add_add]
    exact h1
  unfold operator_insert
  rw [if_neg (by decide), hfirst]
  dsimp only
  rw [hsteps]
  dsimp only
  rw [pde.iterate_fold _ (fun out y => out ++ [';'] ++ io.insert y) xs
    (by
      intro j acc hj
      dsimp only
      rw [hread j hj])]
  dsimp only
  rw [foldl_record]

theorem getline_of_line (line : List Char) (rest : List Char) (hnl : '\n' ∉ line) :
    getline (line ++ '\n' :: rest) = some line := by
  unfold getline
  rw [if_neg (by simp)]
  congr 1
  induction line with
  | nil => simp
  | cons c cs ih =>
    have hc : c ≠ '\n' := fun hcc => hnl (by rw [hcc]; exact List.mem_cons_self _ _)
    have hcs : '\n' ∉ cs := fun hm => hnl (List.mem_cons_of_mem _ hm)
    rw [List.cons_append, List.takeWhile_cons_of_pos (by simpa using hc), ih hcs]

/-- The line `operator<<` writes for the values `x :: xs` is a line of tokens with these
values, when each value, written and followed by `;` or by nothing, is read back. -/
theorem tokens_of_record (io : Formatting T) (hsp : io.isspace ';' = false) :
    ∀ (xs : List T) (x : T),
      (∀ y ∈ x :: xs, ∀ rest, (rest = [] ∨ ∃ r, rest = ';' :: r) →
        io.extract (io.insert y ++ rest) = .value y rest) →
      Tokens io (io.insert x ++ xs.foldr (fun y acc => ';' :: (io.insert y ++ acc)) [])
        (x :: xs)
  | [], x => by
    intro hrt
    exact hrt x (List.mem_cons_self _ _) [] (Or.inl rfl)
  | y :: ys, x => by
    intro hrt
    refine ⟨';', _, hrt x (List.mem_cons_self _ _) _ (Or.inr ⟨_, rfl⟩), hsp, ?_⟩
    exact tokens_of_record io hsp ys y (fun z hz => hrt z (List.mem_cons_of_mem _ hz))

theorem no_newline_in_record (ins : T → List Char) :
    ∀ (xs : List T), (∀ y ∈ xs, '\n' ∉ ins y) →
      '\n' ∉ xs.foldr (fun y acc => ';' :: (ins y ++ acc)) []
  | [] => fun _ => by simp
  | y :: ys => by
    intro hnl
    have ih := no_newline_in_record ins ys (fun z hz => hnl z (List.mem_cons_of_mem _ hz))
    have hy := hnl y (List.mem_cons_self _ _)
    simp only [List.foldr_cons, List.mem_cons, List.mem_append, not_or]
    exact ⟨by decide, hy, ih⟩

end RecordLemmas
end Vector
end cda

namespace cda
namespace Vector

/-- C25: for a valid vector `v` of length at least `1` whose elements, written by the
library and followed by `;` or by nothing, are read back by the library as they were (as
integers are), `operator<<` on a stream that is not the console writes the elements
joined by `;` and a newline, and `operator>>` on that text, into any other valid vector
`w` and with an allocator that grants what is asked for, returns with `w` equal to `v`,
which is as it was. -/
theorem C25_record_text_is_read_back {T : Type} [Zero T] [DecidableEq T] (io : Formatting T)
    (al : Allocator T) (h : Heap T) (v w : Vector) (hv : Valid h v) (hn : v.Size ≥ 1)
    (hw : Valid h w) (hsep : Separate v w)
    (hrt : ∀ x ∈ elems h v, ∀ rest, (rest = [] ∨ ∃ r, rest = ';' :: r) →
      io.extract (io.insert x ++ rest) = .value x rest)
    (hnl : ∀ x ∈ elems h v, '\n' ∉ io.insert x) (hsp : io.isspace ';' = false)
    (hsz : 2 * v.Size + 100 < SIZE_T)
    (hal : ∀ n, n ≤ 2 * v.Size + 100 → al.refuses n = false) :
    ∃ text h1 w1, operator_insert io false [] h v = some text ∧
      text = List.intercalate [';'] ((elems h v).map io.insert) ++ ['\n'] ∧
      (∀ fuel, v.Size + 1 ≤ fuel →
        operator_extract io al fuel (some text) h w = some (.ok (h1, w1))) ∧
      Valid h1 w1 ∧ Valid h1 v ∧ w1.Size = v.Size ∧
      (∀ i, subscript h1 w1 i = subscript h v i) ∧ elems h1 v = elems h v ∧
      operator_eq h1 w1 v = some true := by
  have hl := valid_length hv
  have hn0 : v.n ≠ 0 := by
    have : v.n ≥ 1 := hn
    omega
  match he : elems h v, hl with
  | [], hl' => exact absurd hl'.symm hn0
  | x :: xs, hl' =>
    rw [he] at hrt hnl
    have hsize : v.Size = (x :: xs).length := hl'.symm
    rw [hsize] at hsz hal
    have hnoline : '\n' ∉ io.insert x ++
        xs.foldr (fun y acc => ';' :: (io.insert y ++ acc)) [] := by
      rw [List.mem_append, not_or]
      exact ⟨hnl x (List.mem_cons_self _ _),
        no_newline_in_record io.insert xs (fun y hy => hnl y (List.mem_cons_of_mem _ hy))⟩
    obtain ⟨h1, w1, hrun, hv1, hn1, he1, hkept⟩ := operator_extract_tokens io al
      (io.insert x ++ xs.foldr (fun y acc => ';' :: (io.insert y ++ acc)) [] ++ ['\n'])
      _ (x :: xs) hw (getline_of_line _ [] hnoline) (tokens_of_record io hsp xs x hrt)
      hsz hal
    obtain ⟨hbv, _⟩ := hkept v hv hsep
    have hvv : Valid h1 v := valid_of_block_eq hv hbv
    have hev : elems h1 v = elems h v := elems_of_block_eq hbv
    refine ⟨_, h1, w1, ?_, ?_, fun fuel hf => hrun fuel (by rw [← hsize]; exact hf), hv1,
      hvv, hn1.trans hsize.symm, fun i => ?_, hev.trans he, ?_⟩
    · rw [operator_insert_record io [] hv x xs he]
      simp
    · rw [intercalate_record]
    · rw [subscript_eq hv1, subscript_eq hv, he1, he]
    · rw [operator_eq_spec hv1 hvv, hev, he1, he]
      simp

/-- C26, for separators that are not white space: when the first line of the input is
made of `k` tokens whose values the library extracts, with exactly one character that is
not white space between consecutive tokens, and the allocator grants what is asked for,
`operator>>` returns with `Size() == k` and element `i` the value of token `i`, whatever
the vector held before; `k` may be `0` and may be above the initial `100`. -/
theorem C26_extract_stores_every_token {T : Type} [Zero T] (io : Formatting T)
    (al : Allocator T) (h : Heap T) (v : Vector) (s line : List Char) (xs : List T)
    (hv : Valid h v) (hline : getline s = some line) (htok : Tokens io line xs)
    (hsz : 2 * xs.length + 100 < SIZE_T)
    (hal : ∀ n, n ≤ 2 * xs.length + 100 → al.refuses n = false) :
    ∃ h1 v1,
      (∀ fuel, xs.length + 1 ≤ fuel →
        operator_extract io al fuel (some s) h v = some (.ok (h1, v1))) ∧
      Valid h1 v1 ∧ v1.Size = xs.length ∧ ∀ i, subscript h1 v1 i = xs[i]? := by
  obtain ⟨h1, v1, hrun, hv1, hn1, he1, _⟩ :=
    operator_extract_tokens io al s line xs hv hline htok hsz hal
  exact ⟨h1, v1, hrun, hv1, hn1, fun i => by rw [subscript_eq hv1, he1]⟩

/-- C30: for every input of a length `l` for which the byte count
`(2 * l + 100) * sizeof(T)` of the largest request is a `size_t`, every allocator, and a
library extraction that consumes a character whenever it reads a value, `operator>>` never
evaluates `vector[element]` outside the buffer (the run is never undefined): with fuel
above the number of characters the call ends, returning or throwing `logic_error` or
`bad_alloc`, and the vector is valid in every outcome. -/
theorem C30_extraction_index_stays_in_bounds {T : Type} [Zero T] (io : Formatting T)
    (al : Allocator T) (h : Heap T) (v : Vector) (input : Option (List Char)) (fuel : Nat)
    (hv : Valid h v)
    (hio : ∀ s x rest, io.extract s = .value x rest → rest.length < s.length)
    (hlen : ∀ s, input = some s → (2 * s.length + 100) * al.sizeof < SIZE_T) :
    operator_extract io al fuel input h v ≠ some .undefined ∧
    ((∀ s, input = some s → s.length < fuel) →
      ∃ r, operator_extract io al fuel input h v = some r) ∧
    (∀ r, operator_extract io al fuel input h v = some r →
      (∃ h1 v1, r = .ok (h1, v1) ∧ Valid h1 v1) ∨
      (∃ e h1 v1, r = .throws e (h1, v1) ∧ Valid h1 v1)) := by
  have hsafe := operator_extract_safe io al hio hv input hlen fuel
  refine ⟨?_, ?_, ?_⟩
  · rcases hsafe with ⟨hnone, _⟩ | ⟨h1, v1, hok, _⟩ | ⟨e, h1, v1, hthrow, _⟩
    · rw [hnone]; exact fun hc => by cases hc
    · rw [hok]; exact fun hc => by cases hc
    · rw [hthrow]; exact fun hc => by cases hc
  · intro hfuel
    rcases hsafe with ⟨_, s, hs, hf⟩ | ⟨h1, v1, hok, _⟩ | ⟨e, h1, v1, hthrow, _⟩
    · have := hfuel s hs
      omega
    · exact ⟨_, hok⟩
    · exact ⟨_, hthrow⟩
  · intro r hr
    rcases hsafe with ⟨hnone, _⟩ | ⟨h1, v1, hok, hv1⟩ | ⟨e, h1, v1, hthrow, hv1⟩
    · rw [hnone] at hr; cases hr
    · rw [hok] at hr
      cases hr
      exact Or.inl ⟨h1, v1, rfl, hv1⟩
    · rw [hthrow] at hr
      cases hr
      exact Or.inr ⟨e, h1, v1, rfl, hv1⟩

end Vector
end cda

namespace cda
namespace Vector

theorem digits_io_reads_back :
    ∀ x ∈ elems sample_heap sample_a, ∀ rest, (rest = [] ∨ ∃ r, rest = ';' :: r) →
      digits_io.extract (digits_io.insert x ++ rest) = .value x rest := by
  intro x hx rest hrest
  have hx2 : x ∈ [(1 : Int), 2, 3] := hx
  simp only [List.mem_cons, List.mem_singleton, List.not_mem_nil, or_false] at hx2
  rcases hx2 with rfl | rfl | rfl <;> rcases hrest with rfl | ⟨r, rfl⟩ <;> rfl

theorem sample_alloc_grants (n : Nat) (hn : n ≤ 1000) : sample_alloc.refuses n = false := by
  have hs : sample_alloc.sizeof = 4 := rfl
  have hd : sample_alloc.declines (n * sample_alloc.sizeof) = false := rfl
  unfold Allocator.refuses
  rw [hd, hs, Bool.or_false, decide_eq_false_iff_not, not_le]
  unfold SIZE_T
  omega

theorem digits_io_no_newline : ∀ x ∈ elems sample_heap sample_a, '\n' ∉ digits_io.insert x := by
  intro x hx
  have hx2 : x ∈ [(1 : Int), 2, 3] := hx
  simp only [List.mem_cons, List.mem_singleton, List.not_mem_nil, or_false] at hx2
  rcases hx2 with rfl | rfl | rfl <;> decide

end Vector
end cda

namespace cda
namespace Vector
section StreamWitnesses
set_option maxRecDepth 100000

/-- C25, at the vector `[1, 2, 3]`, which is written as `1;2;3` and a newline and read
back into the vector that held `[9]`. -/
theorem C25_record_text_witness :
    Valid sample_heap sample_a ∧ sample_a.Size ≥ 1 ∧ Valid sample_heap sample_b ∧
    Separate sample_a sample_b ∧
    (∀ x ∈ elems sample_heap sample_a, ∀ rest, (rest = [] ∨ ∃ r, rest = ';' :: r) →
      digits_io.extract (digits_io.insert x ++ rest) = .value x rest) ∧
    (∀ x ∈ elems sample_heap sample_a, '\n' ∉ digits_io.insert x) ∧
    digits_io.isspace ';' = false ∧ 2 * sample_a.Size + 100 < SIZE_T ∧
    (∀ n, n ≤ 2 * sample_a.Size + 100 → sample_alloc.refuses n = false) ∧
    operator_insert digits_io false [] sample_heap sample_a =
      some ['1', ';', '2', ';', '3', '\n'] ∧
    ∃ h1 w1,
      (∀ fuel, sample_a.Size + 1 ≤ fuel →
        operator_extract digits_io sample_alloc fuel (some ['1', ';', '2', ';', '3', '\n'])
          sample_heap sample_b = some (.ok (h1, w1))) ∧
      w1.Size = sample_a.Size ∧
      (∀ i, subscript h1 w1 i = subscript sample_heap sample_a i) ∧
      operator_eq h1 w1 sample_a = some true := by
  obtain ⟨text, h1, w1, hins, _, hrun, _, _, hsize, hsub, _, heq⟩ :=
    C25_record_text_is_read_back digits_io sample_alloc sample_heap sample_a sample_b
      (by decide) (by decide) (by decide) (by decide) digits_io_reads_back
      digits_io_no_newline (by decide) (by decide)
      (fun n hn => sample_alloc_grants n (le_trans hn (by decide)))
  have hwritten : operator_insert digits_io false [] sample_heap sample_a =
      some ['1', ';', '2', ';', '3', '\n'] := by decide
  have htext : text = ['1', ';', '2', ';', '3', '\n'] := by
    rw [hwritten] at hins
    exact (Option.some.inj hins).symm
  rw [htext] at hrun
  exact ⟨by decide, by decide, by decide, by decide, digits_io_reads_back,
    digits_io_no_newline, by decide, by decide,
    fun n hn => sample_alloc_grants n (le_trans hn (by decide)), hwritten, h1, w1, hrun,
    hsize, hsub, heq⟩

/-- C26, at the line `12,7`, read into the vector that held `[9]`. -/
theorem C26_extract_witness :
    Valid sample_heap sample_b ∧
    getline ['1', '2', ',', '7', '\n', '5'] = some ['1', '2', ',', '7'] ∧
    Tokens digits_io ['1', '2', ',', '7'] [12, 7] ∧
    2 * [(12 : Int), 7].length + 100 < SIZE_T ∧
    (∀ n, n ≤ 2 * [(12 : Int), 7].length + 100 → sample_alloc.refuses n = false) ∧
    ∃ h1 v1,
      (∀ fuel, [(12 : Int), 7].length + 1 ≤ fuel →
        operator_extract digits_io sample_alloc fuel (some ['1', '2', ',', '7', '\n', '5'])
          sample_heap sample_b = some (.ok (h1, v1))) ∧
      Valid h1 v1 ∧ v1.Size = [(12 : Int), 7].length ∧
      ∀ i, subscript h1 v1 i = [(12 : Int), 7][i]? :=
  ⟨by decide, by decide, ⟨',', ['7'], by decide, by decide,
      show digits_io.extract ['7'] = .value 7 [] by decide⟩, by decide,
    fun n hn => sample_alloc_grants n (le_trans hn (by decide)),
    C26_extract_stores_every_token digits_io sample_alloc sample_heap sample_b
      ['1', '2', ',', '7', '\n', '5'] ['1', '2', ',', '7'] [12, 7] (by decide) (by decide)
      ⟨',', ['7'], by decide, by decide,
      show digits_io.extract ['7'] = .value 7 [] by decide⟩ (by decide)
      (fun n hn => sample_alloc_grants n (le_trans hn (by decide)))⟩

/-- C26 as claimed fails when the separator is white space: the line `1 2 3` is made of
the three tokens `1`, `2`, `3` with one blank between them, and `operator>>` leaves the
vector `[1, 3]` of size `2`, because `line_stream >> separator` skips the blank and takes
the `2` for the separator. -/
theorem C26_blank_separated_line_loses_a_token :
    digits_io.isspace ' ' = true ∧
    digits_io.extract ['1', ' ', '2', ' ', '3'] = .value 1 [' ', '2', ' ', '3'] ∧
    digits_io.extract ['2', ' ', '3'] = .value 2 [' ', '3'] ∧
    digits_io.extract ['3'] = .value 3 [] ∧
    extract_char digits_io [' ', '2', ' ', '3'] = some [' ', '3'] ∧
    operator_extract digits_io sample_alloc 4 (some ['1', ' ', '2', ' ', '3', '\n'])
      sample_heap sample_b =
      some (.ok ([some [1, 2, 3], none, none, some [1, 3]], ⟨2, ⟨some 3, 0⟩, ⟨some 3, 2⟩⟩)) ∧
    Size ⟨2, ⟨some 3, 0⟩, ⟨some 3, 2⟩⟩ = 2 ∧
    elems ([some [1, 2, 3], none, none, some [1, 3]] : Heap Int)
      ⟨2, ⟨some 3, 0⟩, ⟨some 3, 2⟩⟩ = [1, 3] :=
  ⟨by decide, by decide, by decide, by decide, by decide, by decide, by decide, by decide⟩

/-- C30, at the input `1;2;3` and a newline with fuel `7`, read into the vector that
held `[9]`. -/
theorem C30_extraction_witness :
    Valid sample_heap sample_b ∧
    (∀ s x rest, digits_io.extract s = .value x rest → rest.length < s.length) ∧
    (∀ s, some ['1', ';', '2', ';', '3', '\n'] = some s →
      (2 * s.length + 100) * sample_alloc.sizeof < SIZE_T) ∧
    operator_extract digits_io sample_alloc 7 (some ['1', ';', '2', ';', '3', '\n'])
      sample_heap sample_b ≠ some .undefined ∧
    ((∀ s, some ['1', ';', '2', ';', '3', '\n'] = some s → s.length < 7) →
      ∃ r, operator_extract digits_io sample_alloc 7 (some ['1', ';', '2', ';', '3', '\n'])
        sample_heap sample_b = some r) ∧
    (∀ r, operator_extract digits_io sample_alloc 7 (some ['1', ';', '2', ';', '3', '\n'])
        sample_heap sample_b = some r →
      (∃ h1 v1, r = .ok (h1, v1) ∧ Valid h1 v1) ∨
      (∃ e h1 v1, r = .throws e (h1, v1) ∧ Valid h1 v1)) :=
  ⟨by decide, digits_io_consumes, fun s hs => by cases hs; decide,
    C30_extraction_index_stays_in_bounds digits_io sample_alloc sample_heap sample_b
      (some ['1', ';', '2', ';', '3', '\n']) 7 (by decide) digits_io_consumes
      (fun s hs => by cases hs; decide)⟩

end StreamWitnesses
end Vector
end cda

namespace cda
namespace Vector

/-! ## Claims on `Get` and `Set` together: lemmas -/

section GetSetLemmas
variable {T : Type}

theorem separate_symm {a b : Vector} (hsep : a.v.blk = none ∨ a.v.blk ≠ b.v.blk) :
    b.v.blk = none ∨ b.v.blk ≠ a.v.blk := by
  rcases hsep with hs | hs
  · by_cases hb : b.v.blk = none
    · exact Or.inl hb
    · exact Or.inr (by rw [hs]; exact hb)
  · exact Or.inr (fun hc => hs hc.symm)

/-- What `Get(first_element, elements)` returns for a range inside a valid vector, when
the allocation is granted: a new valid vector holding the range, every vector that was
valid being as it was and not sharing the new buffer. -/
theorem Get_spec (al : Allocator T) {h : Heap T} {self : Vector}
    (first_element elements : Nat) (hv : Valid h self)
    (hle : first_element + elements ≤ self.n)
    (ha : elements ≠ 0 → al.refuses elements = false) :
    ∃ h1 r, Get al h self first_element elements = .ok (h1, r) ∧ Valid h1 r ∧
      r.n = elements ∧ elems h1 r = ((elems h self).drop first_element).take elements ∧
      (∀ s : Vector, Valid h s →
        Heap.block h1 s.v = h.block s.v ∧ (s.v.blk = none ∨ s.v.blk ≠ r.v.blk)) := by
  have hn := hv.1
  have hguard : ¬ size_t_sub self.n first_element < elements := by
    unfold size_t_sub SIZE_T at *
    omega
  unfold Get ctor_range
  rw [if_neg hguard]
  have hcnt : ((self.v.add first_element).add elements).off - (self.v.add first_element).off
      = elements := by
    simp [Ptr.add]
  rw [hcnt]
  obtain ⟨h1, s1, hal, hn1, hv1, _, hfresh, hframe⟩ :=
    AllocateMemory_ok al ⟨elements, nullptr, nullptr⟩ elements (Or.inl rfl)
      (by unfold SIZE_T at *; omega) ha
  rw [hal]
  dsimp only
  have hn1 : s1.n = elements := hn1
  have hs1 : ({ s1 with n := elements } : Vector) = s1 := by
    cases s1; simp only [Vector.mk.injEq, and_true]; exact hn1.symm
  rw [hs1] at hv1
  have hkept : ∀ s : Vector, Valid h s → Heap.block h1 s.v = h.block s.v := by
    intro s hs
    refine block_kept hs ?_ hframe
    by_cases hb : s.v.blk = none
    · exact Or.inl hb
    · exact Or.inr hb
  have hvs1 : Valid h1 self := valid_of_block_eq hv (hkept self hv)
  obtain ⟨h2, hcp, hv2, _, he2, hf2⟩ := std_copy_valid hvs1 hv1 (sep_of_fresh hv hfresh)
    first_element elements 0 ((self.v.add first_element).add elements)
    (by simp [Ptr.add, valid_off hv]) hle (by rw [hn1]; omega)
  have hcp2 : std_copy h1 (self.v.add first_element) ((self.v.add first_element).add elements)
      s1.begin = some h2 := hcp
  rw [hcp2]
  refine ⟨h2, s1, rfl, hv2, hn1, ?_, fun s hs => ?_⟩
  · rw [he2, elems_of_block_eq (hkept self hv)]
    have hl := valid_length hv
    have hl1 := valid_length hv1
    have hdrop : (elems h1 s1).drop elements = [] := List.drop_of_length_le (by omega)
    simp only [List.take_zero, List.nil_append, Nat.zero_add]
    rw [hdrop, List.append_nil]
  · have hsep := sep_of_fresh (p := s1.v) hs hfresh
    have hs1v : Valid h1 s := valid_of_block_eq hs (hkept s hs)
    exact ⟨(block_kept_of_write hs1v hsep hf2).trans (hkept s hs), hsep⟩

/-- What `Set(first_element, vector, elements)` does for a range inside a valid vector and
a source that does not share its buffer. -/
theorem Set_spec {h : Heap T} {d s : Vector} (first_element elements : Nat)
    (hd : Valid h d) (hs : Valid h s) (hsep : Separate s d)
    (hle : first_element + elements ≤ d.n) (hes : elements ≤ s.n) :
    ∃ h1, Set h d first_element s elements = .ok (h1, d) ∧ Valid h1 d ∧
      elems h1 d = (elems h d).take first_element ++ (elems h s).take elements ++
        (elems h d).drop (first_element + elements) ∧
      (∀ q : Ptr, q.blk ≠ d.v.blk → Heap.block h1 q = h.block q) := by
  have hn := hd.1
  have hguard : ¬ (size_t_add first_element elements > d.n ∨ elements > s.n) := by
    unfold size_t_add SIZE_T at *
    omega
  obtain ⟨h1, hcp, hv1, _, he1, hf1⟩ := std_copy_valid hs hd hsep 0 elements first_element
    (s.v.add elements) (by simp [Ptr.add, valid_off hs]) (by omega) hle
  have hcp2 : std_copy h s.v (s.v.add elements) (d.v.add first_element) = some h1 := hcp
  unfold Set
  rw [if_neg hguard, hcp2]
  refine ⟨h1, rfl, hv1, ?_, hf1⟩
  rw [he1, List.drop_zero]

theorem take_drop_rebuild (L : List T) (first count : Nat) :
    L.take first ++ (((L.drop first).take count).take count) ++ L.drop (first + count) =
      L := by
  rw [List.take_take, Nat.min_self, List.append_assoc, ← List.drop_drop,
    List.take_append_drop, List.take_append_drop]

end GetSetLemmas

/-- C31: for valid vectors `v` and `s` that do not share a buffer, `first + count <= n`
and `count <= s.Size()`, with the allocations granted: after `v.Set(first, s, count)` the
vectors `v.Get(first, count)` and `s.Get(0, count)` are returned and `operator==` on them
is true; and `v.Set(first, v.Get(first, count))` returns and leaves every element of `v`
as it was. -/
theorem C31_Set_then_Get_round_trip {T : Type} [DecidableEq T] (al : Allocator T)
    (h : Heap T) (v s : Vector) (first count : Nat) (hv : Valid h v) (hs : Valid h s)
    (hsep : Separate s v) (hle : first + count ≤ v.Size) (hcs : count ≤ s.Size)
    (hal : count ≠ 0 → al.refuses count = false) :
    (∃ h1 h2 g1 h3 g2, Set h v first s count = .ok (h1, v) ∧
      Get al h1 v first count = .ok (h2, g1) ∧ Get al h2 s 0 count = .ok (h3, g2) ∧
      operator_eq h3 g1 g2 = some true ∧
      ∀ i, i < count → subscript h3 g1 i = subscript h s i) ∧
    (∃ h1 g h2, Get al h v first count = .ok (h1, g) ∧
      Set_all h1 v first g = .ok (h2, v) ∧ Valid h2 v ∧
      ∀ i, subscript h2 v i = subscript h v i) := by
  have hlv := valid_length hv
  have hls := valid_length hs
  have hle2 : first + count ≤ v.n := hle
  have hcs2 : count ≤ s.n := hcs
  constructor
  · obtain ⟨h1, hset, hv1, he1, hf1⟩ := Set_spec first count hv hs hsep hle2 hcs2
    have hbs1 : Heap.block h1 s.v = h.block s.v := block_kept_of_write hs hsep hf1
    have hs1 : Valid h1 s := valid_of_block_eq hs hbs1
    obtain ⟨h2, g1, hget1, hg1, hn1, heg1, hk1⟩ := Get_spec al first count hv1 hle2 hal
    obtain ⟨hbs2, _⟩ := hk1 s hs1
    have hs2 : Valid h2 s := valid_of_block_eq hs1 hbs2
    obtain ⟨h3, g2, hget2, hg2, hn2, heg2, hk2⟩ := Get_spec al 0 count hs2 (by omega) hal
    obtain ⟨hbg, _⟩ := hk2 g1 hg1
    have hg13 : Valid h3 g1 := valid_of_block_eq hg1 hbg
    have hes : elems h2 s = elems h s := by
      rw [elems_of_block_eq hbs2, elems_of_block_eq hbs1]
    have hgg1 : elems h3 g1 = (elems h s).take count := by
      rw [elems_of_block_eq hbg, heg1, he1, List.append_assoc,
        List.drop_left' (by rw [List.length_take]; omega),
        List.take_left' (by rw [List.length_take]; omega)]
    have hgg2 : elems h3 g2 = (elems h s).take count := by
      rw [heg2, hes, List.drop_zero]
    refine ⟨h1, h2, g1, h3, g2, hset, hget1, hget2, ?_, fun i hi => ?_⟩
    · rw [operator_eq_spec hg13 hg2, hgg1, hgg2]
      simp
    · rw [subscript_eq hg13, subscript_eq hs, hgg1, List.getElem?_take_of_lt hi]
  · obtain ⟨h1, g, hget, hg, hng, heg, hk⟩ := Get_spec al first count hv hle2 hal
    obtain ⟨hbv, hsepv⟩ := hk v hv
    have hv1 : Valid h1 v := valid_of_block_eq hv hbv
    obtain ⟨h2, hset, hv2, he2, _⟩ := Set_spec first g.n hv1 hg (separate_symm hsepv)
      (by rw [hng]; exact hle2) (Nat.le_refl _)
    refine ⟨h1, g, h2, hget, hset, hv2, fun i => ?_⟩
    rw [subscript_eq hv2, subscript_eq hv, he2, heg, elems_of_block_eq hbv, hng,
      take_drop_rebuild]

/-- C31, at `v = [1, 2, 3]`, `s = [9]`, `first = 2` and `count = 1`. -/
theorem C31_Set_then_Get_witness :
    Valid sample_heap sample_a ∧ Valid sample_heap sample_b ∧ Separate sample_b sample_a ∧
    2 + 1 ≤ sample_a.Size ∧ 1 ≤ sample_b.Size ∧ (1 ≠ 0 → sample_alloc.refuses 1 = false) ∧
    Set sample_heap sample_a 2 sample_b 1 = .ok ([some [1, 2, 9], some [9]], sample_a) ∧
    (∃ h1 h2 g1 h3 g2, Set sample_heap sample_a 2 sample_b 1 = .ok (h1, sample_a) ∧
      Get sample_alloc h1 sample_a 2 1 = .ok (h2, g1) ∧
      Get sample_alloc h2 sample_b 0 1 = .ok (h3, g2) ∧
      operator_eq h3 g1 g2 = some true ∧
      ∀ i, i < 1 → subscript h3 g1 i = subscript sample_heap sample_b i) ∧
    (∃ h1 g h2, Get sample_alloc sample_heap sample_a 2 1 = .ok (h1, g) ∧
      Set_all h1 sample_a 2 g = .ok (h2, sample_a) ∧ Valid h2 sample_a ∧
      ∀ i, subscript h2 sample_a i = subscript sample_heap sample_a i) :=
  ⟨by decide, by decide, by decide, by decide, by decide, fun _ => rfl, by decide,
    (C31_Set_then_Get_round_trip sample_alloc sample_heap sample_a sample_b 2 1 (by decide)
      (by decide) (by decide) (by decide) (by decide) (fun _ => rfl)).1,
    (C31_Set_then_Get_round_trip sample_alloc sample_heap sample_a sample_b 2 1 (by decide)
      (by decide) (by decide) (by decide) (by decide) (fun _ => rfl)).2⟩

end Vector
end cda

namespace cda
namespace Vector

/-! ## Claims on the cross product, the comparison and `IsNull`: lemmas -/

theorem elems_three {T : Type} {h : Heap T} {a : Vector} (ha : Valid h a) (h3 : a.n = 3) :
    ∃ a0 a1 a2, elems h a = [a0, a1, a2] := by
  have hl := valid_length ha
  rw [h3] at hl
  match he : elems h a, hl with
  | [a0, a1, a2], _ => exact ⟨a0, a1, a2, rfl⟩

/-- C32: for valid vectors `a`, `b` of length `3` over a commutative ring, with the
allocations granted, `a.CrossProduct3D(b)` returns a vector `c` whose dot products
`c * a` and `c * b` are `0`, and `operator==` of `c` and `-(b.CrossProduct3D(a))` is
true. -/
theorem C32_cross_product_orthogonal_and_anticommutative {T : Type} [CommRing T]
    [DecidableEq T] (al : Allocator T) (h : Heap T) (a b : Vector) (ha : Valid h a)
    (hb : Valid h b) (ha3 : a.Size = 3) (hb3 : b.Size = 3) (hal : al.refuses 3 = false) :
    ∃ h1 c, CrossProduct3D al h a b = .ok (h1, c) ∧
      operator_dot h1 c a = .ok 0 ∧ operator_dot h1 c b = .ok 0 ∧
      ∃ h2 d h3 e, CrossProduct3D al h1 b a = .ok (h2, d) ∧
        operator_neg al h2 d = .ok (h3, e) ∧ operator_eq h3 c e = some true := by
  have han : a.n = 3 := ha3
  have hbn : b.n = 3 := hb3
  obtain ⟨a0, a1, a2, hea⟩ := elems_three ha han
  obtain ⟨b0, b1, b2, heb⟩ := elems_three hb hbn
  obtain ⟨h1, c, hc, hvc, hcn, hec, hk1⟩ :=
    CrossProduct3D_spec al ha hb a0 a1 a2 b0 b1 b2 hea heb hal
  have hcn : c.n = 3 := hcn
  obtain ⟨hba1, _⟩ := hk1 a ha
  obtain ⟨hbb1, _⟩ := hk1 b hb
  have ha1 : Valid h1 a := valid_of_block_eq ha hba1
  have hb1 : Valid h1 b := valid_of_block_eq hb hbb1
  have hea1 : elems h1 a = [a0, a1, a2] := (elems_of_block_eq hba1).trans hea
  have heb1 : elems h1 b = [b0, b1, b2] := (elems_of_block_eq hbb1).trans heb
  obtain ⟨h2, d, hd, hvd, hdn, hed, hk2⟩ :=
    CrossProduct3D_spec al hb1 ha1 b0 b1 b2 a0 a1 a2 heb1 hea1 hal
  have hdn : d.n = 3 := hdn
  obtain ⟨hbc2, _⟩ := hk2 c hvc
  have hc2 : Valid h2 c := valid_of_block_eq hvc hbc2
  obtain ⟨h3, e, hneg, hve, _, hee, hk3⟩ :=
    unary_new_spec (fun x : T => -x) al hvd (fun _ => by rw [hdn]; exact hal)
  obtain ⟨hbc3, _⟩ := hk3 c hc2
  have hc3 : Valid h3 c := valid_of_block_eq hc2 hbc3
  have hec3 : elems h3 c = [a1 * b2 - a2 * b1, a2 * b0 - a0 * b2, a0 * b1 - a1 * b0] := by
    rw [elems_of_block_eq hbc3, elems_of_block_eq hbc2, hec]
  refine ⟨h1, c, hc, ?_, ?_, h2, d, h3, e, hd, hneg, ?_⟩
  · rw [operator_dot_spec hvc ha1 (by rw [hcn, han]), hec, hea1]
    simp only [List.zipWith_cons_cons, List.zipWith_nil_right, List.foldl_cons,
      List.foldl_nil]
    congr 1
    ring
  · rw [operator_dot_spec hvc hb1 (by rw [hcn, hbn]), hec, heb1]
    simp only [List.zipWith_cons_cons, List.zipWith_nil_right, List.foldl_cons,
      List.foldl_nil]
    congr 1
    ring
  · rw [operator_eq_spec hc3 hve, hec3, hee, hed]
    simp only [List.map_cons, List.map_nil, neg_sub]
    have hl : [a1 * b2 - a2 * b1, a2 * b0 - a0 * b2, a0 * b1 - a1 * b0] =
        [b2 * a1 - b1 * a2, b0 * a2 - b2 * a0, b1 * a0 - b0 * a1] := by
      rw [mul_comm a1 b2, mul_comm a2 b1, mul_comm a2 b0, mul_comm a0 b2, mul_comm a0 b1,
        mul_comm a1 b0]
    rw [decide_eq_true hl]

/-- C32, at the unit vectors `[1, 0, 0]` and `[0, 1, 0]`. -/
theorem C32_cross_product_witness :
    Valid unit_heap unit_x ∧ Valid unit_heap unit_y ∧ unit_x.Size = 3 ∧ unit_y.Size = 3 ∧
    sample_alloc.refuses 3 = false ∧
    ∃ h1 c, CrossProduct3D sample_alloc unit_heap unit_x unit_y = .ok (h1, c) ∧
      operator_dot h1 c unit_x = .ok 0 ∧ operator_dot h1 c unit_y = .ok 0 ∧
      ∃ h2 d h3 e, CrossProduct3D sample_alloc h1 unit_y unit_x = .ok (h2, d) ∧
        operator_neg sample_alloc h2 d = .ok (h3, e) ∧ operator_eq h3 c e = some true :=
  ⟨by decide, by decide, rfl, rfl, rfl,
    C32_cross_product_orthogonal_and_anticommutative sample_alloc unit_heap unit_x unit_y
      (by decide) (by decide) rfl rfl rfl⟩

/-- C33: for valid vectors `a` and `b`, `operator==` returns: it is undefined on no pair
and has no `throw`. It returns `true` exactly when the sizes are equal and `a[i]` is
`b[i]` at every `i < a.Size()`; for different sizes it returns `false`, for two empty
vectors `true`; and `operator!=` returns the negation. -/
theorem C33_operator_eq_is_total {T : Type} [DecidableEq T] (h : Heap T) (a b : Vector)
    (ha : Valid h a) (hb : Valid h b) :
    ∃ r, operator_eq h a b = some r ∧
      (r = true ↔ a.Size = b.Size ∧ ∀ i, i < a.Size → subscript h a i = subscript h b i) ∧
      operator_ne h a b = some (!r) ∧ (a.Size ≠ b.Size → r = false) ∧
      (a.Size = 0 → b.Size = 0 → r = true) := by
  have hla := valid_length ha
  have hlb := valid_length hb
  have hiff : decide (elems h a = elems h b) = true ↔
      a.Size = b.Size ∧ ∀ i, i < a.Size → subscript h a i = subscript h b i := by
    rw [decide_eq_true_iff]
    constructor
    · intro he
      refine ⟨by show a.n = b.n; rw [← hla, ← hlb, he], fun i _ => ?_⟩
      rw [subscript_eq ha, subscript_eq hb, he]
    · rintro ⟨hn, hall⟩
      have hn2 : a.n = b.n := hn
      apply List.ext_getElem?
      intro i
      by_cases hi : i < a.n
      · rw [← subscript_eq ha, ← subscript_eq hb]
        exact hall i hi
      · rw [List.getElem?_eq_none (by omega), List.getElem?_eq_none (by omega)]
  refine ⟨decide (elems h a = elems h b), operator_eq_spec ha hb, hiff, ?_, fun hne => ?_,
    fun h0 h1 => ?_⟩
  · unfold operator_ne
    rw [operator_eq_spec ha hb]
    rfl
  · cases hd : decide (elems h a = elems h b) with
    | false => rfl
    | true => exact absurd (hiff.mp hd).1 hne
  · apply hiff.mpr
    have h0n : a.n = 0 := h0
    exact ⟨h0.trans h1.symm, fun i hi => by omega⟩

/-- C33, at `[1, 2, 3]` and `[9]`, which have different lengths, at `[1, 2, 3]` and
itself, and at two empty vectors. -/
theorem C33_operator_eq_witness :
    Valid sample_heap sample_a ∧ Valid sample_heap sample_b ∧
    (∃ r, operator_eq sample_heap sample_a sample_b = some r ∧
      (r = true ↔ sample_a.Size = sample_b.Size ∧
        ∀ i, i < sample_a.Size → subscript sample_heap sample_a i =
          subscript sample_heap sample_b i) ∧
      operator_ne sample_heap sample_a sample_b = some (!r) ∧
      (sample_a.Size ≠ sample_b.Size → r = false) ∧
      (sample_a.Size = 0 → sample_b.Size = 0 → r = true)) ∧
    operator_eq sample_heap sample_a sample_b = some false ∧
    operator_ne sample_heap sample_a sample_b = some true ∧
    operator_eq sample_heap sample_a sample_a = some true ∧
    operator_eq sample_heap empty_v empty_v = some true ∧
    operator_eq sort_heap sample_a sample_a = some true ∧
    operator_eq dup_heap sample_a sample_c = some false :=
  ⟨by decide, by decide,
    C33_operator_eq_is_total sample_heap sample_a sample_b (by decide) (by decide),
    by decide, by decide, by decide, by decide, by decide, by decide⟩

end Vector
end cda

namespace cda
namespace Vector

section NullLemmas
variable {T : Type}

/-- A scan for duplicates with a test that holds whenever another test holds finds a
pair when the scan with that other test does. -/
theorem duplicate_scan_mono (close1 close2 : T → T → Bool)
    (hle : ∀ x y, close1 x y = true → close2 x y = true) {h : Heap T} {v : Vector}
    (hv : Valid h v) (h1 : duplicate_scan close1 h v = some true) :
    duplicate_scan close2 h v = some true := by
  obtain ⟨b1, hb1, hiff1⟩ := duplicate_scan_spec close1 hv
  obtain ⟨b2, hb2, hiff2⟩ := duplicate_scan_spec close2 hv
  rw [hb1] at h1
  have hb : b1 = true := Option.some.inj h1
  obtain ⟨i, j, x, y, hne, hx, hy, hxy⟩ := hiff1.mp hb
  rw [hb2, hiff2.mpr ⟨i, j, x, y, hne, hx, hy, hle x y hxy⟩]

/-- A scan for duplicates with a test that never holds finds no pair. -/
theorem duplicate_scan_never (close : T → T → Bool) (hno : ∀ x y, close x y = false)
    {h : Heap T} {v : Vector} (hv : Valid h v) : duplicate_scan close h v = some false := by
  obtain ⟨b, hb, hiff⟩ := duplicate_scan_spec close hv
  rw [hb]
  cases hbb : b with
  | false => rfl
  | true =>
    obtain ⟨_, _, x, y, _, _, _, hxy⟩ := hiff.mp hbb
    rw [hno x y] at hxy
    cases hxy

end NullLemmas

/-- C35: for a valid vector over a linearly ordered ring, with a `std::sqrt` that is `0`
at `0` and never negative: `HasDuplicate(t1)` true implies `HasDuplicate(t2)` true for
`t1 <= t2`; `HasDuplicate()` true implies `HasDuplicate(t)` true for every `t > 0`; and
`HasDuplicate(t)` is false for every `t <= 0`, whatever the vector holds. -/
theorem C35_HasDuplicate_accuracy_is_monotone {T : Type} [LinearOrderedRing T]
    [DecidableEq T] (sqrt : T → T) (h : Heap T) (v : Vector) (hs0 : sqrt 0 = 0)
    (hnn : ∀ d, 0 ≤ sqrt d) (hv : Valid h v) :
    (∀ t1 t2, t1 ≤ t2 → HasDuplicate_accuracy sqrt h v t1 = some true →
      HasDuplicate_accuracy sqrt h v t2 = some true) ∧
    (HasDuplicate h v = some true →
      ∀ t, 0 < t → HasDuplicate_accuracy sqrt h v t = some true) ∧
    (∀ t, t ≤ 0 → HasDuplicate_accuracy sqrt h v t = some false) := by
  refine ⟨fun t1 t2 ht h1 => ?_, fun h1 t ht => ?_, fun t ht => ?_⟩
  · refine duplicate_scan_mono _ _ (fun x y hxy => ?_) hv h1
    exact decide_eq_true (lt_of_lt_of_le (of_decide_eq_true hxy) ht)
  · refine duplicate_scan_mono _ _ (fun x y hxy => ?_) hv h1
    have hxy2 : x = y := of_decide_eq_true hxy
    apply decide_eq_true
    rw [hxy2, sub_self, mul_zero, hs0]
    exact ht
  · refine duplicate_scan_never _ (fun x y => ?_) hv
    apply decide_eq_false
    exact not_lt_of_le (le_trans ht (hnn _))

/-- C35, at the vector `[2, 2]` of reals with the real square root: the exact
`HasDuplicate()` is true, `HasDuplicate(1)` and `HasDuplicate(3)` are true, and
`HasDuplicate(0)` and `HasDuplicate(-1)` are false although the two elements are equal. -/
theorem C35_HasDuplicate_accuracy_witness :
    Real.sqrt 0 = 0 ∧ (∀ d, 0 ≤ Real.sqrt d) ∧
    Valid ([some [(2 : ℝ), 2]] : Heap ℝ) ⟨2, ⟨some 0, 0⟩, ⟨some 0, 2⟩⟩ ∧
    HasDuplicate ([some [(2 : ℝ), 2]] : Heap ℝ) ⟨2, ⟨some 0, 0⟩, ⟨some 0, 2⟩⟩ = some true ∧
    HasDuplicate_accuracy Real.sqrt ([some [(2 : ℝ), 2]] : Heap ℝ)
      ⟨2, ⟨some 0, 0⟩, ⟨some 0, 2⟩⟩ 1 = some true ∧
    HasDuplicate_accuracy Real.sqrt ([some [(2 : ℝ), 2]] : Heap ℝ)
      ⟨2, ⟨some 0, 0⟩, ⟨some 0, 2⟩⟩ 3 = some true ∧
    HasDuplicate_accuracy Real.sqrt ([some [(2 : ℝ), 2]] : Heap ℝ)
      ⟨2, ⟨some 0, 0⟩, ⟨some 0, 2⟩⟩ 0 = some false ∧
    HasDuplicate_accuracy Real.sqrt ([some [(2 : ℝ), 2]] : Heap ℝ)
      ⟨2, ⟨some 0, 0⟩, ⟨some 0, 2⟩⟩ (-1) = some false := by
  have hv : Valid ([some [(2 : ℝ), 2]] : Heap ℝ) ⟨2, ⟨some 0, 0⟩, ⟨some 0, 2⟩⟩ := by decide
  have hdup : HasDuplicate ([some [(2 : ℝ), 2]] : Heap ℝ) ⟨2, ⟨some 0, 0⟩, ⟨some 0, 2⟩⟩ =
      some true := by
    obtain ⟨b, hb, hiff⟩ := duplicate_scan_spec (fun x y : ℝ => decide (x = y)) hv
    have hbt : b = true :=
      hiff.mpr ⟨0, 1, 2, 2, by decide, rfl, rfl, decide_eq_true rfl⟩
    unfold HasDuplicate
    rw [hb, hbt]
  obtain ⟨hmono, hexact, hneg⟩ := C35_HasDuplicate_accuracy_is_monotone Real.sqrt
    ([some [(2 : ℝ), 2]] : Heap ℝ) ⟨2, ⟨some 0, 0⟩, ⟨some 0, 2⟩⟩ Real.sqrt_zero
    Real.sqrt_nonneg hv
  have h1 := hexact hdup 1 (by norm_num)
  exact ⟨Real.sqrt_zero, Real.sqrt_nonneg, hv, hdup, h1, hmono 1 3 (by norm_num) h1,
    hneg 0 (le_refl _), hneg (-1) (by norm_num)⟩

end Vector
end cda
